import Mathlib

/-!
# zenodb byte-tree and iteration pipeline: a shallow embedding of
`bytetree.go` and of `core/filter.go`, `core/flatten.go`

The radix tree of `src/bytetree.go` is embedded as an inductive tree value.
Go pointers into the tree (`*node`) are represented by the list of edge
indices leading from the root to the node (`Path`); the operations that write
through such a pointer (`doRemoveFor`) rewrite the node at that path.

* `[]byte` and `sequence` are lists of bytes; a `nil` slice is the empty list.
  `n.data` is only ever changed by `append(n.data, nil)` and by assignment to
  an existing slot, so `n.data != nil` holds exactly when the list is non-empty.
* `int64` iteration contexts and Go `int` counters are mathematical integers:
  the counters are bounded by the memory the tree occupies and never wrap.
* The sequence codec (`sequence.update`) is a parameter `upd`, an arbitrary
  function returning a byte blob.
* The locks are not modelled: every operation runs to completion on its own.
* A call that does not return gives `none`: `walk` when `make` panics on a
  negative queue capacity `length(ctx)`.
* The pipeline stages of `core` are embedded as functions on closures that
  pass their state along; the sources they wrap, the include hooks, the
  expressions and the sequences of `encoding` are parameters.
-/

namespace tdb

/-- A byte string (`[]byte`). -/
abbrev Bytes := List UInt8

/-- An encoded sequence (`type sequence []byte`). -/
abbrev sequence := List UInt8

/-- A pointer to a node of the tree: the edge indices from the root. -/
abbrev Path := List Nat

mutual
/-- Go `type node struct` (without its lock). -/
inductive node where
  | mk (key : Bytes) (edges : List edge) (data : List sequence) (removedFor : List Int) : node
/-- Go `type edge struct`. -/
inductive edge where
  | mk (label : Bytes) (target : node) : edge
end

/-- Field `key` of a node. -/
def node.key : node → Bytes
  | .mk k _ _ _ => k

/-- Field `edges` of a node. -/
def node.edges : node → List edge
  | .mk _ es _ _ => es

/-- Field `data` of a node. -/
def node.data : node → List sequence
  | .mk _ _ d _ => d

/-- Field `removedFor` of a node. -/
def node.removedFor : node → List Int
  | .mk _ _ _ r => r

/-- Field `label` of an edge. -/
def edge.label : edge → Bytes
  | .mk l _ => l

/-- Field `target` of an edge. -/
def edge.target : edge → node
  | .mk _ t => t

/-- Go `type tree struct` (without its lock); `ctxRemovals` is the map
`map[int64]int`, a missing entry reading as zero. -/
structure tree where
  root : node
  _bytes : Int
  _length : Int
  ctxRemovals : Int → Int

/-- The part of a table the tree uses: its fields and its resolution. -/
structure table (F : Type) where
  Fields : List F
  Resolution : Int

/-- The codec `current.update(vals, field, resolution, truncateBefore)`. -/
abbrev Codec (P F : Type) := sequence → P → F → Int → Int → sequence

/-- Go `newByteTree`. -/
def newByteTree : tree :=
  { root := node.mk [] [] [] [], _bytes := 0, _length := 0, ctxRemovals := fun _ => 0 }

/-- Go `tree.bytes`. -/
def tree.bytes (bt : tree) : Int := bt._bytes

/-- Go `tree.length`. -/
def tree.length (bt : tree) (ctx : Int) : Int := bt._length - bt.ctxRemovals ctx

/-- The inner loop of `doUpdate` and `remove`: the number of leading bytes on
which `label` and `key` agree. -/
def commonLen : Bytes → Bytes → Nat
  | l :: ls, k :: ks => if l = k then commonLen ls ks + 1 else 0
  | _, _ => 0

/-- The second loop of Go `node.doUpdate`: field `i` onwards. -/
def mergeLoop {P F : Type} (upd : Codec P F) (vals : P) (resolution truncateBefore : Int) :
    List F → Nat → List sequence → Int → List sequence × Int
  | [], _, data, bytesAdded => (data, bytesAdded)
  | field :: rest, i, data, bytesAdded =>
    let current := data.getD i []
    let updated := upd current vals field resolution truncateBefore
    mergeLoop upd vals resolution truncateBefore rest (i + 1) (data.set i updated)
      (bytesAdded + ((updated.length : Int) - (current.length : Int)))

/-- Go `node.doUpdate`: grow `data` to the number of fields, then merge every
field; returns the node and the bytes added. -/
def node.doUpdate {P F : Type} (upd : Codec P F) (t : table F) (truncateBefore : Int)
    (vals : P) (n : node) : node × Int :=
  let grown := n.data ++ List.replicate (t.Fields.length - n.data.length) []
  let r := mergeLoop upd vals t.Resolution truncateBefore t.Fields 0 grown 0
  (node.mk n.key n.edges r.1 n.removedFor, r.2)

/-- Go `edge.split`. -/
def edge.split {P F : Type} (upd : Codec P F) (t : table F) (truncateBefore : Int)
    (e : edge) (splitOn : Nat) (fullKey key : Bytes) (vals : P) : edge × Int :=
  let newNode := node.mk [] [edge.mk (e.label.drop splitOn) e.target] [] []
  if splitOn ≠ key.length then
    let leaf := node.doUpdate upd t truncateBefore vals (node.mk fullKey [] [] [])
    (edge.mk (e.label.take splitOn)
        (node.mk [] (newNode.edges ++ [edge.mk (key.drop splitOn) leaf.1]) [] []),
      ((key.length : Int) - (splitOn : Int)) + leaf.2)
  else
    let leaf := node.doUpdate upd t truncateBefore vals newNode
    (edge.mk (e.label.take splitOn) leaf.1, ((key.length : Int) - (splitOn : Int)) + leaf.2)

mutual
/-- One round of `nodeLoop` in Go `tree.doUpdate` at node `n` with the rest of
the key: the rewritten node, the bytes added and the new-node flag. -/
def doUpdateNode {P F : Type} (upd : Codec P F) (t : table F) (truncateBefore : Int)
    (fullKey : Bytes) (vals : P) : node → Bytes → node × Int × Bool
  | .mk k es d r, key =>
    match doUpdateEdges upd t truncateBefore fullKey vals es key with
    | some (es', bytesAdded, newNode) => (.mk k es' d r, bytesAdded, newNode)
    | none =>
      let target := node.doUpdate upd t truncateBefore vals (node.mk fullKey [] [] [])
      (.mk k (es ++ [edge.mk key target.1]) d r, target.2 + (key.length : Int), true)
/-- The loop over the edges of a node in Go `tree.doUpdate`; `none` when no
edge took the key, so that a new edge is created. -/
def doUpdateEdges {P F : Type} (upd : Codec P F) (t : table F) (truncateBefore : Int)
    (fullKey : Bytes) (vals : P) : List edge → Bytes → Option (List edge × Int × Bool)
  | [], _ => none
  | .mk label target :: rest, key =>
    let i := commonLen label key
    if i = key.length ∧ key.length = label.length then
      let u := node.doUpdate upd t truncateBefore vals target
      some (edge.mk label u.1 :: rest, u.2, false)
    else if i = label.length ∧ label.length < key.length then
      let u := doUpdateNode upd t truncateBefore fullKey vals target (key.drop label.length)
      some (edge.mk label u.1 :: rest, u.2.1, u.2.2)
    else if i > 0 then
      let s := edge.split upd t truncateBefore (edge.mk label target) i fullKey key vals
      some (s.1 :: rest, s.2, true)
    else
      match doUpdateEdges upd t truncateBefore fullKey vals rest key with
      | some (rest', bytesAdded, newNode) => some (edge.mk label target :: rest', bytesAdded, newNode)
      | none => none
end

/-- Go `tree.doUpdate`. -/
def tree.doUpdate {P F : Type} (upd : Codec P F) (bt : tree) (t : table F)
    (truncateBefore : Int) (fullKey : Bytes) (vals : P) : node × Int × Bool :=
  doUpdateNode upd t truncateBefore fullKey vals bt.root fullKey

/-- Go `tree.update`: the new tree and the returned number of bytes added. -/
def tree.update {P F : Type} (upd : Codec P F) (bt : tree) (t : table F)
    (truncateBefore : Int) (key : Bytes) (vals : P) : tree × Int :=
  let r := bt.doUpdate upd t truncateBefore key vals
  ({ root := r.1,
     _bytes := bt._bytes + r.2.1,
     _length := if r.2.2 then bt._length + 1 else bt._length,
     ctxRemovals := bt.ctxRemovals }, r.2.1)

/-- Dereference a node pointer: the node reached from `n` along the edge
indices of the path. -/
def node.get : node → Path → Option node
  | n, [] => some n
  | n, i :: p =>
    match n.edges[i]? with
    | some e => node.get e.target p
    | none => none

/-- The write `n.removedFor = append(n.removedFor, ctx)` through the pointer
`p`, seen from the root. -/
def node.addRemoved (ctx : Int) : node → Path → node
  | n, [] => node.mk n.key n.edges n.data (n.removedFor ++ [ctx])
  | n, i :: p =>
    match n.edges[i]? with
    | some e =>
      node.mk n.key (n.edges.set i (edge.mk e.label (node.addRemoved ctx e.target p)))
        n.data n.removedFor
    | none => n

/-- Go `node.wasRemovedFor`. -/
def node.wasRemovedFor (n : node) (ctx : Int) : Bool :=
  if ctx = 0 then false else n.removedFor.any (fun c => decide (c = ctx))

/-- Go `node.doRemoveFor`, the node given by its pointer `p`. -/
def tree.doRemoveFor (bt : tree) (p : Path) (ctx : Int) : tree :=
  if ctx = 0 then bt
  else
    { root := bt.root.addRemoved ctx p,
      _bytes := bt._bytes,
      _length := bt._length,
      ctxRemovals := fun c => if c = ctx then bt.ctxRemovals c + 1 else bt.ctxRemovals c }

mutual
/-- One round of `nodeLoop` in Go `tree.remove` at node `n` with the rest of
the key: the pointer (relative to `n`) to the edge target that was found. -/
def removeNode : node → Bytes → Option Path
  | .mk _ es _ _, key => removeEdges es 0 key
/-- The loop over the edges of a node in Go `tree.remove`, `idx` being the
index of the first edge of the list; `none` is "not found". -/
def removeEdges : List edge → Nat → Bytes → Option Path
  | [], _, _ => none
  | .mk label target :: rest, idx, key =>
    let i := commonLen label key
    if i = key.length ∧ key.length = label.length then
      some [idx]
    else if i = label.length ∧ label.length < key.length then
      match removeNode target (key.drop label.length) with
      | some p => some (idx :: p)
      | none => none
    else
      removeEdges rest (idx + 1) key
end

/-- Go `tree.remove`: the new tree and the returned data (`nil` is `[]`). -/
def tree.remove (bt : tree) (ctx : Int) (fullKey : Bytes) : tree × List sequence :=
  match removeNode bt.root fullKey with
  | none => (bt, [])
  | some p =>
    match bt.root.get p with
    | none => (bt, [])
    | some target =>
      if target.wasRemovedFor ctx then (bt, [])
      else (bt.doRemoveFor p ctx, target.data)

/-- One call of the visitor of a walk: the node it was called on, the
arguments it was given and its verdict. -/
structure Visit where
  ptr : Path
  key : Bytes
  data : List sequence
  keep : Bool
deriving DecidableEq

/-- The state of the loop of Go `tree.walk`: the tree, the queue `nodes`, the
state of the visitor and the calls of the visitor so far. -/
structure WalkState (σ : Type) where
  bt : tree
  nodes : List Path
  st : σ
  log : List Visit

/-- The pointers to the targets of the edges of the node at `p`. -/
def childPaths (p : Path) (es : List edge) : List Path :=
  (List.range es.length).map (fun i => p ++ [i])

/-- The body of the loop of Go `tree.walk` for the dequeued node `n`, found
at `p`: the tombstone check, the visitor call and the tombstoning. -/
def walkVisit {σ : Type} (ctx : Int) (fn : σ → Bytes → List sequence → Bool × σ)
    (bt : tree) (p : Path) (n : node) (st : σ) (log : List Visit) : tree × σ × List Visit :=
  if n.data ≠ [] then
    if n.wasRemovedFor ctx then (bt, st, log)
    else
      let r := fn st n.key n.data
      (if r.1 then bt else bt.doRemoveFor p ctx, r.2, log ++ [⟨p, n.key, n.data, r.1⟩])
  else (bt, st, log)

/-- The loop of Go `tree.walk`, at most `fuel` rounds; `none` when the fuel
runs out or a queued pointer is dangling. -/
def walkLoop {σ : Type} (ctx : Int) (fn : σ → Bytes → List sequence → Bool × σ) :
    Nat → tree → List Path → σ → List Visit → Option (tree × σ × List Visit)
  | 0, _, _, _, _ => none
  | _ + 1, bt, [], st, log => some (bt, st, log)
  | fuel + 1, bt, p :: nodes, st, log =>
    match bt.root.get p with
    | none => none
    | some n =>
      let v := walkVisit ctx fn bt p n st log
      walkLoop ctx fn fuel v.1 (nodes ++ childPaths p n.edges) v.2.1 v.2.2

mutual
/-- The number of nodes of the subtree at a node. -/
def node.size : node → Nat
  | .mk _ es _ _ => edgesSize es + 1
/-- The number of nodes below a list of edges. -/
def edgesSize : List edge → Nat
  | [] => 0
  | .mk _ target :: rest => node.size target + edgesSize rest
end

/-- Go `make([]*node, 0, capacity)`: the capacity of the new queue; `none`
when `make` panics, which it does on a negative capacity. -/
def makeNodes (capacity : Int) : Option Nat :=
  if capacity < 0 then none else some capacity.toNat

/-- Go `tree.walk` with a visitor that carries a state of its own: the tree
after the walk, the state of the visitor and its calls in order; `none` when
the walk does not return, as when `make` panics on a negative `length(ctx)`.
The loop dequeues every node once, so one round per node and one to see the
empty queue. -/
def tree.walk {σ : Type} (bt : tree) (ctx : Int) (fn : σ → Bytes → List sequence → Bool × σ)
    (st : σ) : Option (tree × σ × List Visit) :=
  match makeNodes (bt.length ctx) with
  | none => none
  | some _ => walkLoop ctx fn (bt.root.size + 1) bt [[]] st []

/-- One call of `tree.update`. -/
structure UpdateCall (P F : Type) where
  t : table F
  truncateBefore : Int
  key : Bytes
  vals : P

/-- The tree after a list of `update` calls, starting from `bt`. -/
def applyUpdates {P F : Type} (upd : Codec P F) (calls : List (UpdateCall P F)) (bt : tree) : tree :=
  calls.foldl (fun b c => (b.update upd c.t c.truncateBefore c.key c.vals).1) bt

/-- The total length of the sequences of a data vector. -/
def dataLen (d : List sequence) : Int := (d.map (fun s => (s.length : Int))).sum

mutual
/-- The bytes held below a node: the data of every node and the label of
every edge of its subtree. -/
def node.weight : node → Int
  | .mk _ es d _ => dataLen d + edgesWeight es
/-- The bytes held by a list of edges and the subtrees they lead to. -/
def edgesWeight : List edge → Int
  | [] => 0
  | .mk label target :: rest => (label.length : Int) + node.weight target + edgesWeight rest
end

/-- The label path of a node pointer: the concatenation of the edge labels
from `n` down to the node. -/
def node.labelOf : node → Path → Option Bytes
  | _, [] => some []
  | n, i :: p =>
    match n.edges[i]? with
    | some e => (node.labelOf e.target p).map (fun l => e.label ++ l)
    | none => none

/-- The pointers to the children of the node at `p`, in edge order. -/
def node.children (t : node) (p : Path) : List Path :=
  match t.get p with
  | some n => childPaths p n.edges
  | none => []

/-- Breadth-first order as the specification words it: `d` levels starting
with `level`, each followed by the children of its nodes, node by node in
order and children in edge order. -/
def bfsLevels (t : node) : Nat → List Path → List Path
  | 0, _ => []
  | d + 1, level => level ++ bfsLevels t d (level.flatMap t.children)

/-- The nodes of a tree in breadth-first order: the root, then level by
level (a tree has fewer levels than nodes). -/
def levelOrder (t : node) : List Path := bfsLevels t t.size [[]]

/-- The test of `walk` on a dequeued node: it holds data and is not
tombstoned for `ctx`. -/
def node.visibleFor (n : node) (ctx : Int) : Bool :=
  decide (n.data ≠ []) && !n.wasRemovedFor ctx

/-- The test of `walk` on the node at `p`. -/
def node.visibleAt (t : node) (ctx : Int) (p : Path) : Bool :=
  match t.get p with
  | some n => n.visibleFor ctx
  | none => false

/-- The pointers to the nodes at depth `k`, in lexicographic order. -/
def node.level : Nat → node → List Path
  | 0, _ => [[]]
  | k + 1, t =>
    (List.range t.edges.length).flatMap (fun i =>
      match t.edges[i]? with
      | some e => (node.level k e.target).map (fun p => i :: p)
      | none => [])

/-- The order in which the queue of `walk` is consumed, tombstones left
aside; `none` when the fuel runs out or a pointer is dangling. -/
def bfsQ (t : node) : Nat → List Path → Option (List Path)
  | 0, _ => none
  | _ + 1, [] => some []
  | f + 1, p :: q =>
    match t.get p with
    | none => none
    | some n => (bfsQ t f (q ++ childPaths p n.edges)).map (fun r => p :: r)

/-- The loop body of `walk` run over a given sequence of nodes. -/
def visitAll {σ : Type} (ctx : Int) (fn : σ → Bytes → List sequence → Bool × σ) :
    tree → List Path → σ → List Visit → tree × σ × List Visit
  | bt, [], st, log => (bt, st, log)
  | bt, p :: r, st, log =>
    match bt.root.get p with
    | none => visitAll ctx fn bt r st log
    | some n =>
      let v := walkVisit ctx fn bt p n st log
      visitAll ctx fn v.1 r v.2.1 v.2.2

/-- Node `n'` is node `n` with, possibly, more tombstones. -/
def NodeExt (n n' : node) : Prop :=
  n'.key = n.key ∧ n'.data = n.data ∧ n'.edges.map edge.label = n.edges.map edge.label
    ∧ ∀ c ∈ n.removedFor, c ∈ n'.removedFor

/-- Tree `t'` is tree `t` with, possibly, more tombstones on its nodes. -/
def Ext (t t' : node) : Prop :=
  ∀ p, (∀ n, t.get p = some n → ∃ n', t'.get p = some n' ∧ NodeExt n n')
    ∧ (t.get p = none → t'.get p = none)

/-- The labels of the edges of one node are non-empty and start with
pairwise distinct bytes. -/
def LabelsOK (ls : List Bytes) : Prop :=
  (∀ l ∈ ls, l ≠ []) ∧ (ls.map List.head?).Nodup

/-- The radix-tree invariant at every node reachable from `t`: edge labels
are non-empty and no two edges of a node start with the same byte. -/
def WF (t : node) : Prop :=
  ∀ p n, t.get p = some n → LabelsOK (n.edges.map edge.label)

mutual
/-- All tombstones below a node, in preorder. -/
def node.tombs : node → List Int
  | .mk _ es _ r => r ++ edgesTombs es
/-- All tombstones below a list of edges. -/
def edgesTombs : List edge → List Int
  | [] => []
  | .mk _ target :: rest => node.tombs target ++ edgesTombs rest
end

/-- One operation on the tree: an `update` with a non-empty key, a `remove`
or a `walk` with any visitor. -/
inductive Step {P F : Type} (upd : Codec P F) : tree → tree → Prop
  | update (bt : tree) (t : table F) (truncateBefore : Int) (key : Bytes) (vals : P) :
      key ≠ [] → Step upd bt (bt.update upd t truncateBefore key vals).1
  | remove (bt : tree) (ctx : Int) (key : Bytes) : Step upd bt (bt.remove ctx key).1
  | walk {σ : Type} (bt : tree) (ctx : Int) (fn : σ → Bytes → List sequence → Bool × σ) (st : σ)
      (r : tree × σ × List Visit) : bt.walk ctx fn st = some r → Step upd bt r.1

/-- Any number of operations applied one after the other. -/
def Steps {P F : Type} (upd : Codec P F) : tree → tree → Prop :=
  Relation.ReflTransGen (Step upd)

/-- The states the tree can be in: those reached from `newByteTree()`. -/
def Reachable {P F : Type} (upd : Codec P F) (bt : tree) : Prop :=
  Steps upd newByteTree bt

/-- Tree `t` has node `m` at label path `K`: `m` is reached from `t` along
edges whose labels spell `K`. -/
def Has (t : node) (K : Bytes) (m : node) : Prop :=
  ∃ p, t.get p = some m ∧ t.labelOf p = some K

/-- What an `update` keeps of a node that was there before: its tombstones,
and that it holds data. -/
def Kept (m m' : node) : Prop :=
  m'.removedFor = m.removedFor ∧ (m.data ≠ [] → m'.data ≠ [])

/-- What every operation keeps of a node that was there before: that it
holds data, and its tombstones. -/
def Stays (m m' : node) : Prop :=
  (m.data ≠ [] → m'.data ≠ []) ∧ ∀ c ∈ m.removedFor, c ∈ m'.removedFor

/-- A codec for the examples: every update appends one byte to the sequence. -/
def sampleCodec : Codec Unit Unit := fun current _ _ _ _ => current ++ [1]

/-- A table with one field, for the examples. -/
def sampleTable : table Unit := { Fields := [()], Resolution := 1 }

/-- The `update` call of the examples for a key. -/
def sampleCall (key : Bytes) : UpdateCall Unit Unit :=
  { t := sampleTable, truncateBefore := 0, key := key, vals := () }

/-- The tree of the examples: the keys inserted in order into an empty tree. -/
def insertKeys (keys : List Bytes) : tree :=
  applyUpdates sampleCodec (keys.map sampleCall) newByteTree

/-- A visitor that returns `keep = true` for every node. -/
def keepAll : Unit → Bytes → List sequence → Bool × Unit := fun _ _ _ => (true, ())

/-- A visitor that returns `keep = false` for every node. -/
def keepNone : Unit → Bytes → List sequence → Bool × Unit := fun _ _ _ => (false, ())

/-- The number of nodes a walk with `ctx` has to visit: the nodes reachable
from the root that hold data and are not tombstoned for `ctx`. -/
def visibleCount (t : node) (ctx : Int) : Nat :=
  ((levelOrder t).filter (fun p => t.visibleAt ctx p)).length

mutual
/-- The number of nodes of the subtree at a node whose tombstone list
contains `ctx`. -/
def node.tombCount (ctx : Int) : node → Nat
  | .mk _ es _ r => (if ctx ∈ r then 1 else 0) + edgesTombCount ctx es
/-- The number of nodes below a list of edges whose tombstone list contains
`ctx`. -/
def edgesTombCount (ctx : Int) : List edge → Nat
  | [] => 0
  | .mk _ target :: rest => node.tombCount ctx target + edgesTombCount ctx rest
end

/-- No tombstone list of the tree holds a context twice or holds 0. -/
def TombsOK (t : node) : Prop :=
  ∀ p n, t.get p = some n → n.removedFor.Nodup ∧ (0 : Int) ∉ n.removedFor

/-- One operation on the tree, the key of an `update` being any byte string. -/
inductive AnyStep {P F : Type} (upd : Codec P F) : tree → tree → Prop
  | update (bt : tree) (t : table F) (truncateBefore : Int) (key : Bytes) (vals : P) :
      AnyStep upd bt (bt.update upd t truncateBefore key vals).1
  | remove (bt : tree) (ctx : Int) (key : Bytes) : AnyStep upd bt (bt.remove ctx key).1
  | walk {σ : Type} (bt : tree) (ctx : Int) (fn : σ → Bytes → List sequence → Bool × σ) (st : σ)
      (r : tree × σ × List Visit) : bt.walk ctx fn st = some r → AnyStep upd bt r.1

/-- The states reached from `newByteTree()` by sequentially applied `update`,
`remove` and `walk` calls. -/
def ReachableAny {P F : Type} (upd : Codec P F) (bt : tree) : Prop :=
  Relation.ReflTransGen (AnyStep upd) newByteTree bt

/-- The counters of removals agree with the tombstones: the invariant of the
tree behind `length(ctx)`. -/
def TombsCounted (bt : tree) : Prop :=
  TombsOK bt.root ∧ ∀ ctx : Int, ctx ≠ 0 → bt.ctxRemovals ctx = (bt.root.tombCount ctx : Int)

/-! ### The iteration pipeline of `core` (`core.go`, `filter.go`, `flatten.go`)

A visitor is a Go closure: it is given the state it closes over and returns
its answer and the new state; `none` stands for a call that does not return.
A `time.Time` is the integer of its Unix nanoseconds, the zero time being
`zeroTime`; a `float64` value is a value of an arbitrary type `V`. -/

/-- Go `error` values; the `nil` error is `none : Option GoError`. -/
inductive GoError where
  | deadlineExceeded : GoError
  | other (code : Nat) : GoError
deriving DecidableEq

/-- Go `ErrDeadlineExceeded`. -/
def ErrDeadlineExceeded : GoError := GoError.deadlineExceeded

/-- The cancellation handle (`context.Context`): whether it is done. -/
structure Context where
  done : Bool
deriving DecidableEq

/-- Go `bytemap.ByteMap`, a byte slice that may be `nil`. -/
abbrev ByteMap := Option Bytes

/-- Go `type Vals []encoding.Sequence`. -/
abbrev Vals := List sequence

/-- Go `type Field struct`, over the type `X` of expressions. -/
structure Field (X : Type) where
  Expr : X
  Name : String
deriving DecidableEq

/-- Go `type FlatRow struct`. -/
structure FlatRow (X V : Type) where
  TS : Int
  Key : ByteMap
  Values : List V
  Totals : List V
  fields : List (Field X)
deriving DecidableEq

/-- Go `proceed`. -/
def proceed : Bool × Option GoError := (true, none)

/-- Go `stop`. -/
def stop : Bool × Option GoError := (false, none)

/-- Go `type OnRow func(key, vals) (bool, error)`, as a closure over `σ`. -/
abbrev OnRow (σ : Type) := σ → ByteMap → Vals → Option ((Bool × Option GoError) × σ)

/-- Go `type OnFlatRow func(flatRow) (bool, error)`, as a closure over `σ`. -/
abbrev OnFlatRow (X V σ : Type) := σ → FlatRow X V → Option ((Bool × Option GoError) × σ)

/-- Go `type RowSource interface` (without `GetGroupBy` and `String`). -/
structure RowSource (X σ : Type) where
  GetFields : List (Field X)
  GetResolution : Int
  GetAsOf : Int
  GetUntil : Int
  Iterate : Context → OnRow σ → σ → Option (Option GoError × σ)

/-- Go `type FlatRowSource interface` (without `GetGroupBy` and `String`). -/
structure FlatRowSource (X V σ : Type) where
  GetFields : List (Field X)
  GetResolution : Int
  GetAsOf : Int
  GetUntil : Int
  Iterate : Context → OnFlatRow X V σ → σ → Option (Option GoError × σ)

/-- The include hook of `RowFilter`, as a closure over `σ`: the new key
(`none` for `nil`), the new vals and the error. -/
abbrev RowInclude (σ : Type) :=
  σ → Context → ByteMap → Vals → (ByteMap × Vals × Option GoError) × σ

/-- The include hook of `FlatRowFilter`, as a closure over `σ`: the new row
(`none` for `nil`) and the error. -/
abbrev FlatRowInclude (X V σ : Type) :=
  σ → Context → FlatRow X V → (Option (FlatRow X V) × Option GoError) × σ

/-- The function literal that Go `rowFilter.Iterate` passes to its source. -/
def rowFilter.callback {σ : Type} (Include : RowInclude σ) (ctx : Context) (onRow : OnRow σ) :
    OnRow σ :=
  fun st key vals =>
    let r := Include st ctx key vals
    match r.1.2.2 with
    | some err => some ((false, some err), r.2)
    | none =>
      match r.1.1 with
      | some key' => onRow r.2 (some key') r.1.2.1
      | none => some (proceed, r.2)

/-- Go `rowFilter.Iterate`. -/
def rowFilter.Iterate {X σ : Type} (source : RowSource X σ) (Include : RowInclude σ)
    (ctx : Context) (onRow : OnRow σ) (st : σ) : Option (Option GoError × σ) :=
  source.Iterate ctx (rowFilter.callback Include ctx onRow) st

/-- Go `RowFilter`: the source wrapped, its metadata forwarded. -/
def RowFilter {X σ : Type} (source : RowSource X σ) (_label : String)
    (Include : RowInclude σ) : RowSource X σ :=
  { GetFields := source.GetFields,
    GetResolution := source.GetResolution,
    GetAsOf := source.GetAsOf,
    GetUntil := source.GetUntil,
    Iterate := rowFilter.Iterate source Include }

/-- The function literal that Go `flatRowFilter.Iterate` passes to its source. -/
def flatRowFilter.callback {X V σ : Type} (Include : FlatRowInclude X V σ) (ctx : Context)
    (onRow : OnFlatRow X V σ) : OnFlatRow X V σ :=
  fun st row =>
    let r := Include st ctx row
    match r.1.2 with
    | some err => some ((false, some err), r.2)
    | none =>
      match r.1.1 with
      | some row' => onRow r.2 row'
      | none => some (proceed, r.2)

/-- Go `flatRowFilter.Iterate`. -/
def flatRowFilter.Iterate {X V σ : Type} (source : FlatRowSource X V σ)
    (Include : FlatRowInclude X V σ) (ctx : Context) (onRow : OnFlatRow X V σ) (st : σ) :
    Option (Option GoError × σ) :=
  source.Iterate ctx (flatRowFilter.callback Include ctx onRow) st

/-- Go `FlatRowFilter`: the source wrapped, its metadata forwarded. -/
def FlatRowFilter {X V σ : Type} (source : FlatRowSource X V σ) (_label : String)
    (Include : FlatRowInclude X V σ) : FlatRowSource X V σ :=
  { GetFields := source.GetFields,
    GetResolution := source.GetResolution,
    GetAsOf := source.GetAsOf,
    GetUntil := source.GetUntil,
    Iterate := flatRowFilter.Iterate source Include }

/-- What `flatten` uses of an expression (`expr.Expr`) and of a sequence
(`encoding.Sequence`): the methods it calls, as parameters. -/
structure SeqOps (X V : Type) where
  EncodedWidth : X → Int
  IsConstant : X → Bool
  NumPeriods : sequence → Int → Int
  Until : sequence → Int
  AsOf : sequence → Int → Int → Int
  ValueAtTime : sequence → Int → X → Int → V × Bool

/-- The zero `time.Time` (January 1 of year 1, UTC) in Unix nanoseconds. -/
def zeroTime : Int := -62135596800000000000

/-- Go `Time.UnixNano`: the Unix nanoseconds as an `int64`, wrapping around. -/
def unixNano (t : Int) : Int := (t + 2 ^ 63) % 2 ^ 64 - 2 ^ 63

/-- The loop "Figure out total time range" of Go `flatten.Iterate`, field `i`
onwards: the pair `(until, asOf)`. `vals[i]` beyond the length of `vals`, a
panic in Go, reads as the `nil` sequence. -/
def flatten.timeRange {X V : Type} (ops : SeqOps X V) (resolution : Int) (vals : Vals) :
    List (Field X) → Nat → Int × Int → Int × Int
  | [], _, acc => acc
  | field :: rest, i, (untilT, asOf) =>
    let val := vals.getD i []
    let width := ops.EncodedWidth field.Expr
    if ops.NumPeriods val width = 0 then
      flatten.timeRange ops resolution vals rest (i + 1) (untilT, asOf)
    else
      let newUntil := ops.Until val
      let newAsOf := ops.AsOf val width resolution
      flatten.timeRange ops resolution vals rest (i + 1)
        (if newUntil > untilT then newUntil else untilT,
          if asOf = zeroTime ∨ newAsOf < asOf then newAsOf else asOf)

/-- The loop over the fields in the body of the timestamp loop of Go
`flatten.Iterate`, field `i` onwards: the values of the row and
`anyNonConstantValueFound`. -/
def flatten.values {X V : Type} (ops : SeqOps X V) (resolution : Int) (vals : Vals) (ts : Int) :
    List (Field X) → Nat → List V → Bool → List V × Bool
  | [], _, values, anyFound => (values, anyFound)
  | field :: rest, i, values, anyFound =>
    let r := ops.ValueAtTime (vals.getD i []) ts field.Expr resolution
    flatten.values ops resolution vals ts rest (i + 1) (values ++ [r.1])
      (anyFound || (r.2 && !ops.IsConstant field.Expr))

/-- The row built in the body of the timestamp loop, and whether it is
emitted. -/
def flatten.rowAt {X V : Type} (ops : SeqOps X V) (fields : List (Field X)) (resolution : Int)
    (key : ByteMap) (vals : Vals) (ts : Int) : FlatRow X V × Bool :=
  let r := flatten.values ops resolution vals ts fields 0 [] false
  ({ TS := unixNano ts, Key := key, Values := r.1, Totals := [], fields := fields }, r.2)

/-- The timestamp loop of Go `flatten.Iterate`, at most `fuel` tests of its
condition; `none` when the fuel runs out or the visitor does not return. -/
def flatten.loop {X V σ : Type} (ops : SeqOps X V) (fields : List (Field X)) (resolution : Int)
    (key : ByteMap) (vals : Vals) (onRow : OnFlatRow X V σ) (untilT : Int) :
    Nat → Int → σ → Option ((Bool × Option GoError) × σ)
  | 0, _, _ => none
  | fuel + 1, ts, st =>
    if ts > untilT then some (proceed, st)
    else
      let r := flatten.rowAt ops fields resolution key vals ts
      if r.2 then
        match onRow st r.1 with
        | none => none
        | some res =>
          if !res.1.1 || res.1.2.isSome then some res
          else flatten.loop ops fields resolution key vals onRow untilT fuel (ts + resolution) res.2
      else flatten.loop ops fields resolution key vals onRow untilT fuel (ts + resolution) st

/-- The function literal that Go `flatten.Iterate` passes to its source. With
a positive resolution the timestamp loop tests its condition at most
`until - asOf + 2` times. -/
def flatten.callback {X V σ : Type} (ops : SeqOps X V) (fields : List (Field X))
    (resolution : Int) (onRow : OnFlatRow X V σ) : OnRow σ :=
  fun st key vals =>
    let range := flatten.timeRange ops resolution vals fields 0 (zeroTime, zeroTime)
    flatten.loop ops fields resolution key vals onRow range.1
      ((range.1 - range.2).toNat + 2) range.2 st

/-- Go `flatten.Iterate`. -/
def flatten.Iterate {X V σ : Type} (ops : SeqOps X V) (source : RowSource X σ) (ctx : Context)
    (onRow : OnFlatRow X V σ) (st : σ) : Option (Option GoError × σ) :=
  source.Iterate ctx (flatten.callback ops source.GetFields source.GetResolution onRow) st

/-- Go `Flatten`: the source wrapped, its metadata forwarded. -/
def Flatten {X V σ : Type} (ops : SeqOps X V) (source : RowSource X σ) : FlatRowSource X V σ :=
  { GetFields := source.GetFields,
    GetResolution := source.GetResolution,
    GetAsOf := source.GetAsOf,
    GetUntil := source.GetUntil,
    Iterate := flatten.Iterate ops source }

/-- Modelled from the spec: the `Iterate` of a source that yields the given
rows in order and honours the visitor protocol: it ends at the first
callback result with `continue = false` or an error and returns that error. -/
def iterateList {R σ : Type} (onRow : σ → R → Option ((Bool × Option GoError) × σ)) :
    List R → σ → Option (Option GoError × σ)
  | [], st => some (none, st)
  | r :: rest, st =>
    match onRow st r with
    | none => none
    | some res =>
      if res.1.2.isSome then some (res.1.2, res.2)
      else if res.1.1 then iterateList onRow rest res.2
      else some (none, res.2)

/-- Modelled from the spec: a `RowSource` that yields the given rows in order
and honours the visitor protocol; it does not look at the cancellation
handle. -/
def listSource {X σ : Type} (fields : List (Field X)) (resolution : Int)
    (rows : List (ByteMap × Vals)) : RowSource X σ :=
  { GetFields := fields,
    GetResolution := resolution,
    GetAsOf := zeroTime,
    GetUntil := zeroTime,
    Iterate := fun _ onRow st => iterateList (fun s r => onRow s r.1 r.2) rows st }

/-- Modelled from the spec: a `FlatRowSource` that yields the given flat rows
in order and honours the visitor protocol; it does not look at the
cancellation handle. -/
def flatListSource {X V σ : Type} (fields : List (Field X)) (resolution : Int)
    (rows : List (FlatRow X V)) : FlatRowSource X V σ :=
  { GetFields := fields,
    GetResolution := resolution,
    GetAsOf := zeroTime,
    GetUntil := zeroTime,
    Iterate := fun _ onRow st => iterateList onRow rows st }

/-- A visitor that records the rows it is called on and answers by `d`. -/
def recorder {R : Type} (d : R → Bool × Option GoError) :
    List R → R → Option ((Bool × Option GoError) × List R) :=
  fun log r => some (d r, log ++ [r])

/-- The row visitor that records the rows it is called on and answers by `d`. -/
def rowRecorder (d : ByteMap × Vals → Bool × Option GoError) : OnRow (List (ByteMap × Vals)) :=
  fun log key vals => recorder d log (key, vals)

/-- An include hook without state of its own. -/
def pureInclude {σ : Type} (inc : ByteMap → Vals → ByteMap × Vals × Option GoError) :
    RowInclude σ :=
  fun st _ key vals => (inc key vals, st)

/-- A flat-row include hook without state of its own. -/
def pureFlatInclude {X V σ : Type} (inc : FlatRow X V → Option (FlatRow X V) × Option GoError) :
    FlatRowInclude X V σ :=
  fun st _ row => (inc row, st)

/-- Whether an answer of the visitor ends the iteration. -/
def stops (res : Bool × Option GoError) : Bool := !res.1 || res.2.isSome

/-- The visitor protocol over a list of rows: the rows are handed to the
visitor in order, up to and including the first one for which it answers stop
or an error; the answer is that one, or `proceed` when there is none. -/
def emit {R σ : Type} (onRow : σ → R → Option ((Bool × Option GoError) × σ)) :
    List R → σ → Option ((Bool × Option GoError) × σ)
  | [], st => some (proceed, st)
  | r :: rest, st =>
    match onRow st r with
    | none => none
    | some res => if stops res.1 then some res else emit onRow rest res.2

/-- The timestamps `asOf + k * resolution`, `k = 0, 1, ...`, up to `until`. -/
def ticks (asOf untilT resolution : Int) : List Int :=
  (List.range ((untilT - asOf) / resolution + 1).toNat).map
    (fun (k : Nat) => asOf + (k : Int) * resolution)

/-- The flat rows that `flatten` makes of a stored row: for every tick at
which a field with a non-constant expression reports a value, the row of the
values at that tick. -/
def flatRows {X V : Type} (ops : SeqOps X V) (fields : List (Field X)) (resolution : Int)
    (key : ByteMap) (vals : Vals) (asOf untilT : Int) : List (FlatRow X V) :=
  (ticks asOf untilT resolution).filterMap (fun ts =>
    if (flatten.rowAt ops fields resolution key vals ts).2
    then some (flatten.rowAt ops fields resolution key vals ts).1 else none)

/-- The row that `RowFilter` hands on for a row of its source, when the
include hook `inc` returns a key for it. -/
def keptRow (inc : ByteMap → Vals → ByteMap × Vals × Option GoError) (r : ByteMap × Vals) :
    Option (ByteMap × Vals) :=
  match (inc r.1 r.2).1 with
  | some key => some (some key, (inc r.1 r.2).2.1)
  | none => none

/-- The flat row that `FlatRowFilter` hands on for a row of its source. -/
def keptFlatRow {X V : Type} (inc : FlatRow X V → Option (FlatRow X V) × Option GoError)
    (r : FlatRow X V) : Option (FlatRow X V) :=
  (inc r).1

/-- Sample rows of a row source, with the keys `1` to `4`. -/
def sampleRows : List (ByteMap × Vals) :=
  [(some [1], [[10]]), (some [2], [[20]]), (some [3], [[30]]), (some [4], [[40]])]

/-- Sample include hook: drops the rows whose one-byte key is even. -/
def dropEvenKeys : ByteMap → Vals → ByteMap × Vals × Option GoError :=
  fun key vals =>
    match key with
    | some [b] => if b % 2 = 0 then (none, vals, none) else (key, vals, none)
    | _ => (key, vals, none)

/-- Sample include hook: fails with error `1` on the key `3`, keeps the rest. -/
def failOnThree : ByteMap → Vals → ByteMap × Vals × Option GoError :=
  fun key vals =>
    if key = some [3] then (key, vals, some (GoError.other 1)) else (key, vals, none)

/-- Sample flat rows with the timestamps `1` to `3`, over expressions `Unit`
and values `Nat`. -/
def sampleFlatRows : List (FlatRow Unit Nat) :=
  [⟨1, some [1], [10], [], []⟩, ⟨2, some [1], [20], [], []⟩, ⟨3, some [1], [30], [], []⟩]

/-- Sample flat include hook: fails with error `2` on the timestamp `2`, keeps
the rest. -/
def failOnSecond : FlatRow Unit Nat → Option (FlatRow Unit Nat) × Option GoError :=
  fun row => if row.TS = 2 then (some row, some (GoError.other 2)) else (some row, none)

/-- Sample flat include hook: drops the flat rows with an even timestamp. -/
def dropEvenTS : FlatRow Unit Nat → Option (FlatRow Unit Nat) × Option GoError :=
  fun row => if row.TS % 2 = 0 then (none, none) else (some row, none)

/-- Sample visitor answer: stop at the key `3`, proceed otherwise. -/
def stopAtThree : ByteMap × Vals → Bool × Option GoError :=
  fun r => if r.1 = some [3] then stop else proceed

/-- Sample visitor answer: error `9` at the timestamp `110`, proceed
otherwise. -/
def failAt110 : FlatRow Bool Nat → Bool × Option GoError :=
  fun r => if r.TS = 110 then (true, some (GoError.other 9)) else proceed

/-- Sample codec of sequences: a sequence is its `until` followed by one value
per period, newest first; an expression is `true` when it is constant. -/
def sampleOps : SeqOps Bool Nat :=
  { EncodedWidth := fun _ => 1,
    IsConstant := fun e => e,
    NumPeriods := fun s _ => (s.tail.length : Int),
    Until := fun s => ((s.headD 0).toNat : Int),
    AsOf := fun s _ resolution => ((s.headD 0).toNat : Int) - ((s.tail.length : Int) - 1) * resolution,
    ValueAtTime := fun s ts _ resolution =>
      if s.tail = [] ∨ ts > ((s.headD 0).toNat : Int)
          ∨ ts < ((s.headD 0).toNat : Int) - ((s.tail.length : Int) - 1) * resolution
      then (0, false)
      else ((s.tail.getD ((((s.headD 0).toNat : Int) - ts) / resolution).toNat 0).toNat, true) }

/-- Sample fields: two fields with non-constant expressions. -/
def sampleFields : List (Field Bool) := [⟨false, "a"⟩, ⟨false, "b"⟩]

/-- Sample stored values of the two sample fields: both cover the timestamps
`100`, `110` and `120` at resolution `10`. -/
def sampleVals : Vals := [[120, 3, 2, 1], [120, 6, 5, 4]]

/-- The `as_of` that `flatten` computes for a stored row. -/
def rowAsOf {X V : Type} (ops : SeqOps X V) (fields : List (Field X)) (resolution : Int)
    (vals : Vals) : Int :=
  (flatten.timeRange ops resolution vals fields 0 (zeroTime, zeroTime)).2

/-- The `until` that `flatten` computes for a stored row. -/
def rowUntil {X V : Type} (ops : SeqOps X V) (fields : List (Field X)) (resolution : Int)
    (vals : Vals) : Int :=
  (flatten.timeRange ops resolution vals fields 0 (zeroTime, zeroTime)).1

/-- The values `value_at(ts)` of the fields, field `i` reading `vals[i]`. -/
def valuesAt {X V : Type} (ops : SeqOps X V) (fields : List (Field X)) (resolution : Int)
    (vals : Vals) (ts : Int) : List V :=
  fields.enum.map (fun p => (ops.ValueAtTime (vals.getD p.1 []) ts p.2.Expr resolution).1)

/-- Whether at `ts` at least one field with a non-constant expression reports
found. -/
def anyFoundAt {X V : Type} (ops : SeqOps X V) (fields : List (Field X)) (resolution : Int)
    (vals : Vals) (ts : Int) : Bool :=
  fields.enum.any (fun p =>
    (ops.ValueAtTime (vals.getD p.1 []) ts p.2.Expr resolution).2 && !ops.IsConstant p.2.Expr)

/-- The pairs `(until, as_of)` of the fields with non-zero periods, field `i`
onwards. -/
def periodTimes {X V : Type} (ops : SeqOps X V) (resolution : Int) (vals : Vals) :
    List (Field X) → Nat → List (Int × Int)
  | [], _ => []
  | field :: rest, i =>
    if ops.NumPeriods (vals.getD i []) (ops.EncodedWidth field.Expr) = 0 then
      periodTimes ops resolution vals rest (i + 1)
    else
      (ops.Until (vals.getD i []),
        ops.AsOf (vals.getD i []) (ops.EncodedWidth field.Expr) resolution)
        :: periodTimes ops resolution vals rest (i + 1)

/-- Sample codec of sequences in which no sequence has periods and every
sequence reports the value `7` as found at every time. -/
def eagerOps : SeqOps Bool Nat :=
  { EncodedWidth := fun _ => 1,
    IsConstant := fun e => e,
    NumPeriods := fun _ _ => 0,
    Until := fun _ => 0,
    AsOf := fun _ _ _ => 0,
    ValueAtTime := fun _ _ _ _ => (7, true) }

/-- Sample include hook that keeps every row as it is. -/
def keepRow : ByteMap → Vals → ByteMap × Vals × Option GoError :=
  fun key vals => (key, vals, none)

/-- Sample flat include hook that keeps every flat row as it is. -/
def keepFlatRow : FlatRow Unit Nat → Option (FlatRow Unit Nat) × Option GoError :=
  fun row => (some row, none)

/-- The timestamps at which the body of the timestamp loop of Go
`flatten.Iterate` runs (and queries `ValueAtTime` for every field) when the
visitor always proceeds, with at most `fuel` tests of the loop condition. -/
def flatten.bodyTimes (resolution untilT : Int) : Nat → Int → List Int
  | 0, _ => []
  | fuel + 1, ts =>
    if ts > untilT then []
    else ts :: flatten.bodyTimes resolution untilT fuel (ts + resolution)

/-- The counters of the tree are sound: `_length` and the counters of removals
are not negative, and no removal is counted for the context 0. -/
def CountsOK (bt : tree) : Prop :=
  0 ≤ bt._length ∧ bt.ctxRemovals 0 = 0 ∧ ∀ ctx : Int, 0 ≤ bt.ctxRemovals ctx

/-- The tree of the examples after `remove(ctx, key)` for the keys in order. -/
def removeKeys (ctx : Int) (keys : List Bytes) (bt : tree) : tree :=
  keys.foldl (fun b key => (b.remove ctx key).1) bt

/-- The latest of a list of times; the zero time when there is none. -/
def latest : List Int → Int
  | [] => zeroTime
  | [t] => t
  | t :: u :: rest => max t (latest (u :: rest))

/-- The earliest of a list of times; the zero time when there is none. -/
def earliest : List Int → Int
  | [] => zeroTime
  | [t] => t
  | t :: u :: rest => min t (earliest (u :: rest))

/-- The `until` of a stored row as the spec has it: the maximum `until` over
the fields with non-zero periods (the zero time when there is no such field). -/
def specUntil {X V : Type} (ops : SeqOps X V) (fields : List (Field X)) (resolution : Int)
    (vals : Vals) : Int :=
  latest ((periodTimes ops resolution vals fields 0).map Prod.fst)

/-- The `as_of` of a stored row as the spec has it: the minimum `as_of` over
the fields with non-zero periods (the zero time when there is no such field). -/
def specAsOf {X V : Type} (ops : SeqOps X V) (fields : List (Field X)) (resolution : Int)
    (vals : Vals) : Int :=
  earliest ((periodTimes ops resolution vals fields 0).map Prod.snd)

/-- The flat rows of a stored row as the spec has them: one for each tick
from `as_of` to `until` at which a field with a non-constant expression
reports found, with the values of the fields at that tick. -/
def specFlatRows {X V : Type} (ops : SeqOps X V) (fields : List (Field X)) (resolution : Int)
    (r : ByteMap × Vals) : List (FlatRow X V) :=
  ((ticks (specAsOf ops fields resolution r.2) (specUntil ops fields resolution r.2)
      resolution).filter (anyFoundAt ops fields resolution r.2)).map
    (fun ts => ⟨unixNano ts, r.1, valuesAt ops fields resolution r.2 ts, [], fields⟩)

/-! ## Lemmas and theorems -/

theorem dataLen_set (d : List sequence) (i : Nat) (x : sequence) (h : i < d.length) :
    dataLen (d.set i x) = dataLen d - ((d.getD i []).length : Int) + (x.length : Int) := by
  induction d generalizing i with
  | nil => simp at h
  | cons a d ih =>
    cases i with
    | zero => simp [dataLen]; ring
    | succ i =>
      have h' : i < d.length := by simpa using h
      have := ih i h'
      simp only [dataLen, List.set_cons_succ, List.map_cons, List.sum_cons, List.getD_cons_succ] at this ⊢
      omega

theorem dataLen_append (a b : List sequence) : dataLen (a ++ b) = dataLen a + dataLen b := by
  simp [dataLen]

theorem dataLen_replicate_nil (k : Nat) : dataLen (List.replicate k ([] : sequence)) = 0 := by
  induction k with
  | zero => simp [dataLen]
  | succ k ih => simp [dataLen, List.replicate_succ] at ih ⊢

theorem mergeLoop_length {P F : Type} (upd : Codec P F) (vals : P) (res tb : Int) :
    ∀ (fields : List F) (i : Nat) (data : List sequence) (b : Int),
      (mergeLoop upd vals res tb fields i data b).1.length = data.length := by
  intro fields
  induction fields with
  | nil => intro i data b; simp [mergeLoop]
  | cons f fs ih => intro i data b; simp [mergeLoop, ih]

theorem mergeLoop_dataLen {P F : Type} (upd : Codec P F) (vals : P) (res tb : Int) :
    ∀ (fields : List F) (i : Nat) (data : List sequence) (b : Int),
      i + fields.length ≤ data.length →
      dataLen (mergeLoop upd vals res tb fields i data b).1 + b
        = dataLen data + (mergeLoop upd vals res tb fields i data b).2 := by
  intro fields
  induction fields with
  | nil => intro i data b _; simp [mergeLoop]
  | cons f fs ih =>
    intro i data b h
    simp only [List.length_cons] at h
    have hi : i < data.length := by omega
    simp only [mergeLoop]
    have := ih (i + 1) (data.set i (upd (data.getD i []) vals f res tb))
      (b + (((upd (data.getD i []) vals f res tb).length : Int) - ((data.getD i []).length : Int)))
      (by simp; omega)
    rw [dataLen_set _ _ _ hi] at this
    omega

theorem node_doUpdate_weight {P F : Type} (upd : Codec P F) (t : table F) (tb : Int) (vals : P)
    (n : node) :
    (node.doUpdate upd t tb vals n).1.weight = n.weight + (node.doUpdate upd t tb vals n).2 := by
  cases n with
  | mk k es d r =>
    have h := mergeLoop_dataLen upd vals t.Resolution tb t.Fields 0
      (d ++ List.replicate (t.Fields.length - d.length) []) 0 (by simp; omega)
    rw [dataLen_append, dataLen_replicate_nil] at h
    simp only [node.doUpdate, node.weight, node.data, node.key, node.edges, node.removedFor]
    omega

theorem edgesWeight_append (a b : List edge) :
    edgesWeight (a ++ b) = edgesWeight a + edgesWeight b := by
  induction a with
  | nil => simp [edgesWeight]
  | cons e a ih => cases e; simp [edgesWeight, ih]; ring

theorem edge_split_weight {P F : Type} (upd : Codec P F) (t : table F) (tb : Int) (vals : P)
    (label : Bytes) (target : node) (i : Nat) (fullKey key : Bytes) (hi : i ≤ label.length) (hik : i ≤ key.length) :
    edgesWeight [(edge.split upd t tb (edge.mk label target) i fullKey key vals).1]
      = edgesWeight [edge.mk label target]
        + (edge.split upd t tb (edge.mk label target) i fullKey key vals).2 := by
  unfold edge.split
  by_cases hs : i = key.length
  · subst hs
    simp only [ne_eq, not_true_eq_false, ite_false, if_false]
    have h1 := node_doUpdate_weight upd t tb vals
      (node.mk [] [edge.mk ((edge.mk label target).label.drop key.length) (edge.mk label target).target] [] [])
    cases hd : node.doUpdate upd t tb vals
      (node.mk [] [edge.mk ((edge.mk label target).label.drop key.length) (edge.mk label target).target] [] []) with
    | mk n' b =>
      rw [hd] at h1
      simp only [edgesWeight, edge.label, edge.target, node.weight, dataLen, List.map_nil,
        List.sum_nil, List.length_take, List.length_drop] at h1 ⊢
      omega
  · simp only [ne_eq, hs, not_false_eq_true, ite_true, if_true]
    have h1 := node_doUpdate_weight upd t tb vals (node.mk fullKey [] [] [])
    cases hd : node.doUpdate upd t tb vals (node.mk fullKey [] [] []) with
    | mk n' b =>
      rw [hd] at h1
      simp only [edgesWeight, edge.label, edge.target, node.weight, node.edges, dataLen, List.map_nil,
        List.sum_nil, List.length_take, List.length_drop, List.singleton_append] at h1 ⊢
      omega

theorem commonLen_le_left : ∀ (l k : Bytes), commonLen l k ≤ l.length
  | [], _ => by simp [commonLen]
  | _ :: _, [] => by simp [commonLen]
  | a :: l, b :: k => by
    simp only [commonLen]
    split
    · have := commonLen_le_left l k
      simp; omega
    · simp

theorem commonLen_le_right : ∀ (l k : Bytes), commonLen l k ≤ k.length
  | [], _ => by simp [commonLen]
  | _ :: _, [] => by simp [commonLen]
  | a :: l, b :: k => by
    simp only [commonLen]
    split
    · have := commonLen_le_right l k
      simp; omega
    · simp

mutual
theorem doUpdateNode_weight {P F : Type} (upd : Codec P F) (t : table F) (tb : Int)
    (fullKey : Bytes) (vals : P) : ∀ (n : node) (key : Bytes),
      (doUpdateNode upd t tb fullKey vals n key).1.weight
        = n.weight + (doUpdateNode upd t tb fullKey vals n key).2.1
  | .mk k es d r, key => by
    rw [doUpdateNode]
    cases h : doUpdateEdges upd t tb fullKey vals es key with
    | none =>
      have h1 := node_doUpdate_weight upd t tb vals (node.mk fullKey [] [] [])
      simp only [node.weight, edgesWeight_append, edgesWeight, dataLen, List.map_nil,
        List.sum_nil] at h1 ⊢
      omega
    | some res =>
      obtain ⟨es', b, nw⟩ := res
      have h2 := doUpdateEdges_weight upd t tb fullKey vals es key _ h
      simp only [node.weight] at h2 ⊢
      omega
theorem doUpdateEdges_weight {P F : Type} (upd : Codec P F) (t : table F) (tb : Int)
    (fullKey : Bytes) (vals : P) : ∀ (es : List edge) (key : Bytes)
      (res : List edge × Int × Bool), doUpdateEdges upd t tb fullKey vals es key = some res →
      edgesWeight res.1 = edgesWeight es + res.2.1
  | [], key, res, h => by simp [doUpdateEdges] at h
  | .mk label target :: rest, key, res, h => by
    rw [doUpdateEdges] at h
    simp only at h
    split at h
    · have h1 := node_doUpdate_weight upd t tb vals target
      cases h
      simp only [edgesWeight]
      omega
    · split at h
      · have h1 := doUpdateNode_weight upd t tb fullKey vals target (key.drop label.length)
        cases h
        simp only [edgesWeight]
        omega
      · split at h
        · have h1 := edge_split_weight upd t tb vals label target (commonLen label key) fullKey key
            (commonLen_le_left _ _) (commonLen_le_right _ _)
          cases h
          have e1 : ∀ (e : edge) (l : List edge), edgesWeight (e :: l) = edgesWeight [e] + edgesWeight l := by
            intro e l; cases e; simp [edgesWeight]
          rw [e1, h1, e1 (edge.mk label target) rest]
          ring
        · cases h3 : doUpdateEdges upd t tb fullKey vals rest key with
          | none => rw [h3] at h; simp at h
          | some r3 =>
            obtain ⟨rest', b, nw⟩ := r3
            rw [h3] at h
            have h1 := doUpdateEdges_weight upd t tb fullKey vals rest key _ h3
            cases h
            simp only [edgesWeight] at h1 ⊢
            omega
end

theorem update_weight {P F : Type} (upd : Codec P F) (bt : tree) (t : table F) (tb : Int)
    (key : Bytes) (vals : P) :
    (bt.update upd t tb key vals).1.root.weight
      = bt.root.weight + (bt.update upd t tb key vals).2 := by
  simp only [tree.update, tree.doUpdate]
  exact doUpdateNode_weight upd t tb key vals bt.root key

theorem update_bytes {P F : Type} (upd : Codec P F) (bt : tree) (t : table F) (tb : Int)
    (key : Bytes) (vals : P) :
    (bt.update upd t tb key vals).1.bytes = bt.bytes + (bt.update upd t tb key vals).2 := by
  simp [tree.update, tree.bytes]

theorem applyUpdates_append {P F : Type} (upd : Codec P F) (calls : List (UpdateCall P F))
    (c : UpdateCall P F) (bt : tree) :
    applyUpdates upd (calls ++ [c]) bt
      = ((applyUpdates upd calls bt).update upd c.t c.truncateBefore c.key c.vals).1 := by
  simp [applyUpdates, List.foldl_append]

theorem dataLen_nonneg (d : List sequence) : 0 ≤ dataLen d := by
  induction d with
  | nil => simp [dataLen]
  | cons a d ih =>
    simp only [dataLen, List.map_cons, List.sum_cons] at ih ⊢
    omega

mutual
theorem node_weight_nonneg : ∀ n : node, 0 ≤ n.weight
  | .mk _ es d _ => by
    have h1 := dataLen_nonneg d
    have h2 := edgesWeight_nonneg es
    simp only [node.weight]
    omega
theorem edgesWeight_nonneg : ∀ es : List edge, 0 ≤ edgesWeight es
  | [] => by simp [edgesWeight]
  | .mk label target :: rest => by
    have h1 := node_weight_nonneg target
    have h2 := edgesWeight_nonneg rest
    simp only [edgesWeight]
    omega
end

theorem applyUpdates_bytes {P F : Type} (upd : Codec P F) (calls : List (UpdateCall P F)) :
    (applyUpdates upd calls newByteTree).bytes = (applyUpdates upd calls newByteTree).root.weight := by
  induction calls using List.reverseRecOn with
  | nil => simp [applyUpdates, newByteTree, tree.bytes, node.weight, dataLen, edgesWeight]
  | append_singleton calls c ih =>
    rw [applyUpdates_append, update_bytes, update_weight, ih]

/-- C1: in every tree built from `newByteTree()` by `update` calls with
non-empty keys, whatever the codec returns, `bytes()` is the sum of the
lengths of all edge labels and all data slots reachable from the root (and
so is not negative), and a further `update` returns exactly the change of
that sum (and of `bytes()`). -/
theorem bytes_is_labels_plus_data {P F : Type} (upd : Codec P F)
    (calls : List (UpdateCall P F)) (_hkeys : ∀ c ∈ calls, c.key ≠ []) :
    (applyUpdates upd calls newByteTree).bytes = (applyUpdates upd calls newByteTree).root.weight
    ∧ 0 ≤ (applyUpdates upd calls newByteTree).bytes
    ∧ ∀ c : UpdateCall P F, c.key ≠ [] →
        ((applyUpdates upd calls newByteTree).update upd c.t c.truncateBefore c.key c.vals).2
          = ((applyUpdates upd calls newByteTree).update upd c.t c.truncateBefore c.key c.vals).1.root.weight
            - (applyUpdates upd calls newByteTree).root.weight
        ∧ ((applyUpdates upd calls newByteTree).update upd c.t c.truncateBefore c.key c.vals).2
          = ((applyUpdates upd calls newByteTree).update upd c.t c.truncateBefore c.key c.vals).1.bytes
            - (applyUpdates upd calls newByteTree).bytes := by
  refine ⟨applyUpdates_bytes upd calls, ?_, fun c _ => ⟨?_, ?_⟩⟩
  · rw [applyUpdates_bytes]; exact node_weight_nonneg _
  · rw [update_weight]; ring
  · rw [update_bytes]; ring

@[simp] theorem node_key_mk (k : Bytes) (es : List edge) (d : List sequence) (r : List Int) :
    (node.mk k es d r).key = k := rfl

@[simp] theorem node_edges_mk (k : Bytes) (es : List edge) (d : List sequence) (r : List Int) :
    (node.mk k es d r).edges = es := rfl

@[simp] theorem node_data_mk (k : Bytes) (es : List edge) (d : List sequence) (r : List Int) :
    (node.mk k es d r).data = d := rfl

@[simp] theorem node_removedFor_mk (k : Bytes) (es : List edge) (d : List sequence) (r : List Int) :
    (node.mk k es d r).removedFor = r := rfl

@[simp] theorem edge_label_mk (l : Bytes) (t : node) : (edge.mk l t).label = l := rfl

@[simp] theorem edge_target_mk (l : Bytes) (t : node) : (edge.mk l t).target = t := rfl

theorem node_get_nil (t : node) : t.get [] = some t := by
  cases t; rfl

theorem node_get_cons (t : node) (i : Nat) (p : Path) :
    t.get (i :: p) = match t.edges[i]? with
      | some e => e.target.get p
      | none => none := by
  cases t; rfl

theorem node_get_append (t : node) (p q : Path) :
    t.get (p ++ q) = (t.get p).bind (fun n => n.get q) := by
  induction p generalizing t with
  | nil => simp [node_get_nil]
  | cons i p ih =>
    simp only [List.cons_append, node_get_cons]
    cases t.edges[i]? with
    | none => simp
    | some e => exact ih e.target

theorem addRemoved_nil (ctx : Int) (t : node) :
    node.addRemoved ctx t [] = node.mk t.key t.edges t.data (t.removedFor ++ [ctx]) := by
  cases t; rfl

theorem addRemoved_cons (ctx : Int) (t : node) (i : Nat) (p : Path) :
    node.addRemoved ctx t (i :: p) = match t.edges[i]? with
      | some e => node.mk t.key (t.edges.set i (edge.mk e.label (node.addRemoved ctx e.target p)))
          t.data t.removedFor
      | none => t := by
  cases t; rfl

theorem node_eta (t : node) : node.mk t.key t.edges t.data t.removedFor = t := by
  cases t; rfl

theorem edge_eta (e : edge) : edge.mk e.label e.target = e := by
  cases e; rfl

/-- What a tombstone write at `q` does to the node found at `p`. -/
theorem get_addRemoved (ctx : Int) : ∀ (p : Path) (t : node) (q : Path),
    (t.get p = none → (node.addRemoved ctx t q).get p = none) ∧
    ∀ n, t.get p = some n → ∃ n', (node.addRemoved ctx t q).get p = some n'
      ∧ n'.key = n.key ∧ n'.data = n.data
      ∧ n'.edges.map edge.label = n.edges.map edge.label
      ∧ (p ≠ q → n'.removedFor = n.removedFor)
      ∧ (p = q → n'.removedFor = n.removedFor ++ [ctx])
  | [], t, q => by
    refine ⟨fun h => by simp [node_get_nil] at h, fun n hn => ?_⟩
    simp only [node_get_nil, Option.some.injEq] at hn
    subst hn
    refine ⟨_, node_get_nil _, ?_⟩
    cases q with
    | nil => simp [addRemoved_nil]
    | cons j q =>
      rw [addRemoved_cons]
      cases hj : t.edges[j]? with
      | none => simp
      | some e =>
        simp only [node_key_mk, node_data_mk, node_edges_mk, node_removedFor_mk, true_and, ne_eq,
          not_false_eq_true, forall_true_left]
        refine ⟨?_, by simp⟩
        apply List.ext_getElem?
        intro k
        simp only [List.getElem?_map, List.getElem?_set]
        by_cases hjk : j = k
        · subst hjk
          have hlt : j < t.edges.length := by
            by_contra hc
            rw [List.getElem?_eq_none (by omega)] at hj
            cases hj
          simp [hlt, hj]
        · simp [hjk]
  | i :: p, t, q => by
    cases q with
    | nil =>
      have e1 : (node.addRemoved ctx t []).get (i :: p) = t.get (i :: p) := by
        rw [addRemoved_nil, node_get_cons, node_get_cons]; rfl
      rw [e1]
      exact ⟨id, fun n hn => ⟨n, hn, rfl, rfl, rfl, fun _ => rfl, fun h => by cases h⟩⟩
    | cons j q =>
      rw [addRemoved_cons]
      cases hj : t.edges[j]? with
      | none =>
        exact ⟨id, fun n hn => ⟨n, hn, rfl, rfl, rfl, fun _ => rfl, fun h => by
          simp only [List.cons.injEq] at h
          rw [node_get_cons, h.1, hj] at hn
          cases hn⟩⟩
      | some e =>
        have hlt : j < t.edges.length := by
          by_contra hc
          rw [List.getElem?_eq_none (by omega)] at hj
          cases hj
        by_cases hij : j = i
        · subst hij
          have e1 : ∀ x : node, (node.mk t.key (t.edges.set j (edge.mk e.label x)) t.data
              t.removedFor).get (j :: p) = x.get p := by
            intro x
            rw [node_get_cons]
            simp [List.getElem?_set, hlt]
          have e2 : t.get (j :: p) = e.target.get p := by
            rw [node_get_cons, hj]
          simp only [e1, e2]
          obtain ⟨h1, h2⟩ := get_addRemoved ctx p e.target q
          refine ⟨h1, fun n hn => ?_⟩
          obtain ⟨n', g1, g2, g3, g4, g5, g6⟩ := h2 n hn
          exact ⟨n', g1, g2, g3, g4, fun hne => g5 (fun h => hne (by rw [h])),
            fun heq => g6 (by simpa using heq)⟩
        · have e1 : ∀ x : node, (node.mk t.key (t.edges.set j (edge.mk e.label x)) t.data
              t.removedFor).get (i :: p) = t.get (i :: p) := by
            intro x
            rw [node_get_cons, node_get_cons]
            simp [List.getElem?_set, hij]
          simp only [e1]
          exact ⟨id, fun n hn => ⟨n, hn, rfl, rfl, rfl, fun _ => rfl, fun h => by
            simp only [List.cons.injEq] at h
            exact absurd h.1.symm hij⟩⟩

theorem NodeExt_refl (n : node) : NodeExt n n :=
  ⟨rfl, rfl, rfl, fun _ h => h⟩

theorem NodeExt_trans {a b c : node} (h1 : NodeExt a b) (h2 : NodeExt b c) : NodeExt a c :=
  ⟨h2.1.trans h1.1, h2.2.1.trans h1.2.1, h2.2.2.1.trans h1.2.2.1,
    fun x hx => h2.2.2.2 x (h1.2.2.2 x hx)⟩

theorem NodeExt_edges_length {a b : node} (h : NodeExt a b) :
    b.edges.length = a.edges.length := by
  have := congrArg List.length h.2.2.1
  simpa using this

theorem Ext_refl (t : node) : Ext t t :=
  fun _ => ⟨fun n hn => ⟨n, hn, NodeExt_refl n⟩, id⟩

theorem Ext_trans {a b c : node} (h1 : Ext a b) (h2 : Ext b c) : Ext a c := by
  intro p
  refine ⟨fun n hn => ?_, fun hn => (h2 p).2 ((h1 p).2 hn)⟩
  obtain ⟨n', g1, g2⟩ := (h1 p).1 n hn
  obtain ⟨n'', g3, g4⟩ := (h2 p).1 n' g1
  exact ⟨n'', g3, NodeExt_trans g2 g4⟩

theorem Ext_addRemoved (ctx : Int) (t : node) (q : Path) : Ext t (node.addRemoved ctx t q) := by
  intro p
  obtain ⟨h1, h2⟩ := get_addRemoved ctx p t q
  refine ⟨fun n hn => ?_, h1⟩
  obtain ⟨n', g1, g2, g3, g4, g5, g6⟩ := h2 n hn
  refine ⟨n', g1, g2, g3, g4, fun c hc => ?_⟩
  by_cases hpq : p = q
  · rw [g6 hpq]; exact List.mem_append_left _ hc
  · rw [g5 hpq]; exact hc

theorem Ext_doRemoveFor (bt : tree) (p : Path) (ctx : Int) :
    Ext bt.root (bt.doRemoveFor p ctx).root := by
  unfold tree.doRemoveFor
  split
  · exact Ext_refl _
  · exact Ext_addRemoved ctx bt.root p

theorem childPaths_length_congr (p : Path) {es es' : List edge} (h : es'.length = es.length) :
    childPaths p es' = childPaths p es := by
  simp [childPaths, h]

theorem Ext_children {t t' : node} (h : Ext t t') (p : Path) : t'.children p = t.children p := by
  unfold node.children
  cases hg : t.get p with
  | none => rw [(h p).2 hg]
  | some n =>
    obtain ⟨n', g1, g2⟩ := (h p).1 n hg
    rw [g1]
    exact childPaths_length_congr p (NodeExt_edges_length g2)

theorem Ext_bfsQ {t t' : node} (h : Ext t t') : ∀ (f : Nat) (q : List Path),
    bfsQ t' f q = bfsQ t f q
  | 0, _ => rfl
  | _ + 1, [] => rfl
  | f + 1, p :: q => by
    simp only [bfsQ]
    cases hg : t.get p with
    | none => rw [(h p).2 hg]
    | some n =>
      obtain ⟨n', g1, g2⟩ := (h p).1 n hg
      rw [g1]
      simp only
      rw [childPaths_length_congr p (NodeExt_edges_length g2), Ext_bfsQ h f]

theorem walkVisit_root {σ : Type} (ctx : Int) (fn : σ → Bytes → List sequence → Bool × σ)
    (bt : tree) (p : Path) (n : node) (st : σ) (log : List Visit) :
    (walkVisit ctx fn bt p n st log).1 = bt
      ∨ (walkVisit ctx fn bt p n st log).1 = bt.doRemoveFor p ctx := by
  unfold walkVisit
  split
  · split
    · exact Or.inl rfl
    · simp only
      split
      · exact Or.inl rfl
      · exact Or.inr rfl
  · exact Or.inl rfl

theorem Ext_walkVisit {σ : Type} (ctx : Int) (fn : σ → Bytes → List sequence → Bool × σ)
    (bt : tree) (p : Path) (n : node) (st : σ) (log : List Visit) :
    Ext bt.root (walkVisit ctx fn bt p n st log).1.root := by
  rcases walkVisit_root ctx fn bt p n st log with h | h <;> rw [h]
  · exact Ext_refl _
  · exact Ext_doRemoveFor bt p ctx

/-- The loop of `walk` visits the nodes in the order in which the queue
discipline alone consumes them. -/
theorem walkLoop_eq_visitAll {σ : Type} (ctx : Int) (fn : σ → Bytes → List sequence → Bool × σ) :
    ∀ (fuel : Nat) (bt : tree) (q : List Path) (st : σ) (log : List Visit) (order : List Path),
      bfsQ bt.root fuel q = some order →
      walkLoop ctx fn fuel bt q st log = some (visitAll ctx fn bt order st log)
  | 0, _, _, _, _, _, h => by simp [bfsQ] at h
  | _ + 1, bt, [], st, log, order, h => by
    simp only [bfsQ, Option.some.injEq] at h
    subst h
    simp [walkLoop, visitAll]
  | fuel + 1, bt, p :: q, st, log, order, h => by
    simp only [bfsQ] at h
    cases hg : bt.root.get p with
    | none => rw [hg] at h; cases h
    | some n =>
      rw [hg] at h
      simp only [Option.map_eq_some'] at h
      obtain ⟨r, hr, rfl⟩ := h
      simp only [walkLoop, hg, visitAll]
      apply walkLoop_eq_visitAll ctx fn fuel
      rw [Ext_bfsQ (Ext_walkVisit ctx fn bt p n st log)]
      exact hr

theorem flatMap_congr_mem {α β : Type} {l : List α} {f g : α → List β}
    (h : ∀ x ∈ l, f x = g x) : l.flatMap f = l.flatMap g := by
  induction l with
  | nil => rfl
  | cons a l ih =>
    simp only [List.flatMap_cons]
    rw [h a (List.mem_cons_self _ _), ih (fun x hx => h x (List.mem_cons_of_mem _ hx))]

theorem edges_getElem?_some {es : List edge} {i : Nat} (h : i < es.length) :
    ∃ e, es[i]? = some e :=
  ⟨es[i], List.getElem?_eq_getElem h⟩

theorem children_nil (t : node) : t.children [] = childPaths [] t.edges := by
  simp [node.children, node_get_nil]

theorem children_cons (t : node) (i : Nat) (p : Path) :
    t.children (i :: p) = match t.edges[i]? with
      | some e => (e.target.children p).map (fun r => i :: r)
      | none => [] := by
  unfold node.children
  rw [node_get_cons]
  cases t.edges[i]? with
  | none => rfl
  | some e =>
    simp only
    cases e.target.get p with
    | none => rfl
    | some n => simp [childPaths]

theorem level_children : ∀ (k : Nat) (t : node),
    (node.level k t).flatMap t.children = node.level (k + 1) t
  | 0, t => by
    simp only [node.level, List.flatMap_cons, List.flatMap_nil, List.append_nil, children_nil,
      childPaths, List.nil_append]
    rw [List.map_eq_flatMap]
    apply flatMap_congr_mem
    intro i hi
    obtain ⟨e, he⟩ := edges_getElem?_some (List.mem_range.mp hi)
    simp [he]
  | k + 1, t => by
    rw [node.level, List.flatMap_assoc, node.level]
    apply flatMap_congr_mem
    intro i hi
    obtain ⟨e, he⟩ := edges_getElem?_some (List.mem_range.mp hi)
    simp only [he]
    rw [← level_children k e.target, List.flatMap_map, List.map_flatMap]
    apply flatMap_congr_mem
    intro p _
    rw [children_cons, he]

theorem mem_level : ∀ (k : Nat) (t : node) (p : Path),
    p ∈ node.level k t ↔ p.length = k ∧ (t.get p).isSome
  | 0, t, p => by
    simp only [node.level, List.mem_singleton]
    constructor
    · rintro rfl; simp [node_get_nil]
    · rintro ⟨h, _⟩; exact List.length_eq_zero.mp h
  | k + 1, t, p => by
    simp only [node.level, List.mem_flatMap, List.mem_range]
    constructor
    · rintro ⟨i, hi, hp⟩
      obtain ⟨e, he⟩ := edges_getElem?_some hi
      simp only [he, List.mem_map] at hp
      obtain ⟨r, hr, rfl⟩ := hp
      have := (mem_level k e.target r).mp hr
      simp [node_get_cons, he, this.1, this.2]
    · rintro ⟨hl, hs⟩
      cases p with
      | nil => simp at hl
      | cons i r =>
        rw [node_get_cons] at hs
        cases he : t.edges[i]? with
        | none => rw [he] at hs; simp at hs
        | some e =>
          rw [he] at hs
          have hi : i < t.edges.length := by
            by_contra hc
            rw [List.getElem?_eq_none (by omega)] at he
            cases he
          refine ⟨i, hi, ?_⟩
          simp only [he, List.mem_map]
          exact ⟨r, (mem_level k e.target r).mpr ⟨by simpa using hl, hs⟩, rfl⟩

theorem level_nodup : ∀ (k : Nat) (t : node), (node.level k t).Nodup
  | 0, _ => by simp [node.level]
  | k + 1, t => by
    rw [node.level, List.nodup_flatMap]
    constructor
    · intro i _
      cases t.edges[i]? with
      | none => simp
      | some e =>
        simp only
        exact (level_nodup k e.target).map (fun a b h => by simpa using h)
    · apply List.Pairwise.imp_of_mem _ (List.nodup_range _)
      intro i j _ _ hij
      simp only [Function.onFun]
      intro p hp1 hp2
      have h1 : p.head? = some i := by
        cases hi : t.edges[i]? with
        | none => rw [hi] at hp1; simp at hp1
        | some e =>
          rw [hi] at hp1
          simp only [List.mem_map] at hp1
          obtain ⟨r, _, rfl⟩ := hp1
          rfl
      have h2 : p.head? = some j := by
        cases hj : t.edges[j]? with
        | none => rw [hj] at hp2; simp at hp2
        | some e =>
          rw [hj] at hp2
          simp only [List.mem_map] at hp2
          obtain ⟨r, _, rfl⟩ := hp2
          rfl
      rw [h1] at h2
      exact hij (by simpa using h2)

theorem bfsQ_append (t : node) : ∀ (xs ys : List Path) (f : Nat),
    (∀ p ∈ xs, (t.get p).isSome) →
    bfsQ t (f + xs.length) (xs ++ ys)
      = (bfsQ t f (ys ++ xs.flatMap t.children)).map (fun r => xs ++ r)
  | [], ys, f, _ => by simp
  | x :: xs, ys, f, h => by
    have hx := h x (List.mem_cons_self _ _)
    obtain ⟨n, hn⟩ := Option.isSome_iff_exists.mp hx
    have e1 : f + (x :: xs).length = (f + xs.length) + 1 := by simp; omega
    rw [e1, List.cons_append, bfsQ, hn]
    simp only
    rw [List.append_assoc, bfsQ_append t xs (ys ++ childPaths x n.edges) f
      (fun p hp => h p (List.mem_cons_of_mem _ hp))]
    simp only [List.flatMap_cons, node.children, hn, List.append_assoc, Option.map_map]
    rfl

theorem edgesSize_eq : ∀ es : List edge, edgesSize es = (es.map (fun e => e.target.size)).sum
  | [] => rfl
  | .mk _ t :: rest => by
    simp only [edgesSize, List.map_cons, List.sum_cons, edge_target_mk, edgesSize_eq rest]

theorem node_size_eq (t : node) : t.size = (t.edges.map (fun e => e.target.size)).sum + 1 := by
  cases t with
  | mk k es d r => simp only [node.size, edgesSize_eq, node_edges_mk]

theorem range_map_getElem? {α : Type} : ∀ l : List α,
    (List.range l.length).map (fun i => l[i]?) = l.map some
  | [] => rfl
  | a :: l => by
    simp only [List.length_cons, List.range_succ_eq_map, List.map_cons, List.map_map,
      List.getElem?_cons_zero, List.cons.injEq, true_and]
    rw [← range_map_getElem? l]
    apply List.map_congr_left
    intro i _
    simp

theorem level_succ_length (k : Nat) (t : node) :
    (node.level (k + 1) t).length = (t.edges.map (fun e => (node.level k e.target).length)).sum := by
  rw [node.level, List.length_flatMap]
  have h : (List.map (List.length ∘ fun i =>
        match t.edges[i]? with
        | some e => (node.level k e.target).map (fun p => i :: p)
        | none => []) (List.range t.edges.length))
      = ((List.range t.edges.length).map (fun i => t.edges[i]?)).map (fun o =>
          match o with
          | some e => (node.level k e.target).length
          | none => 0) := by
    rw [List.map_map]
    apply List.map_congr_left
    intro i _
    simp only [Function.comp]
    cases t.edges[i]? <;> simp
  rw [h, range_map_getElem?, List.map_map]
  rfl

theorem level_count_edges (d : Nat)
    (ih : ∀ t : node, ((List.range d).map (fun j => (node.level j t).length)).sum ≤ t.size) :
    ∀ es : List edge,
      ((List.range d).map (fun j => (es.map (fun e => (node.level j e.target).length)).sum)).sum
        ≤ (es.map (fun e => e.target.size)).sum
  | [] => by simp
  | e :: es => by
    simp only [List.map_cons, List.sum_cons]
    rw [List.sum_map_add]
    exact Nat.add_le_add (ih e.target) (level_count_edges d ih es)

/-- There are no more pointers of depth below `d` than nodes. -/
theorem level_count : ∀ (d : Nat) (t : node),
    ((List.range d).map (fun j => (node.level j t).length)).sum ≤ t.size
  | 0, _ => by simp
  | d + 1, t => by
    rw [List.range_succ_eq_map, List.map_cons, List.sum_cons, List.map_map]
    have h1 : (node.level 0 t).length = 1 := by simp [node.level]
    have h2 : (List.map ((fun j => (node.level j t).length) ∘ Nat.succ) (List.range d))
        = (List.range d).map (fun j =>
            (t.edges.map (fun e => (node.level j e.target).length)).sum) := by
      apply List.map_congr_left
      intro j _
      exact level_succ_length j t
    rw [h1, h2, node_size_eq]
    have := level_count_edges d (level_count d) t.edges
    omega

theorem get_length_lt_size : ∀ (p : Path) (t : node), (t.get p).isSome → p.length < t.size
  | [], t, _ => by rw [node_size_eq]; simp
  | i :: p, t, h => by
    rw [node_get_cons] at h
    cases he : t.edges[i]? with
    | none => rw [he] at h; simp at h
    | some e =>
      rw [he] at h
      have h1 := get_length_lt_size p e.target h
      have hmem : e.target.size ∈ t.edges.map (fun e => e.target.size) :=
        List.mem_map.mpr ⟨e, List.getElem?_mem he, rfl⟩
      have h2 := List.single_le_sum (fun x _ => Nat.zero_le x) _ hmem
      rw [node_size_eq]
      simp only [List.length_cons]
      omega

theorem level_eq_nil (t : node) (k : Nat) (h : t.size ≤ k) : node.level k t = [] := by
  apply List.eq_nil_iff_forall_not_mem.mpr
  intro p hp
  obtain ⟨h1, h2⟩ := (mem_level k t p).mp hp
  have := get_length_lt_size p t h2
  omega

theorem bfsLevels_level (t : node) : ∀ (d k : Nat),
    bfsLevels t d (node.level k t) = (List.range d).flatMap (fun j => node.level (k + j) t)
  | 0, _ => rfl
  | d + 1, k => by
    rw [bfsLevels, level_children, bfsLevels_level t d (k + 1), List.range_succ_eq_map,
      List.flatMap_cons, List.flatMap_map]
    simp only [Nat.add_zero, Nat.succ_eq_add_one]
    congr 1
    apply flatMap_congr_mem
    intro j _
    congr 1
    omega

theorem bfsQ_levels (t : node) : ∀ (d k fuel : Nat),
    node.level (k + d) t = [] →
    ((List.range d).map (fun j => (node.level (k + j) t).length)).sum + 1 ≤ fuel →
    bfsQ t fuel (node.level k t) = some (bfsLevels t d (node.level k t))
  | 0, k, fuel, h0, hf => by
    simp only [Nat.add_zero] at h0
    obtain ⟨f, rfl⟩ : ∃ f, fuel = f + 1 := ⟨fuel - 1, by omega⟩
    rw [h0]
    rfl
  | d + 1, k, fuel, h0, hf => by
    rw [List.range_succ_eq_map, List.map_cons, List.sum_cons, List.map_map] at hf
    simp only [Nat.add_zero] at hf
    have h2 : (List.map ((fun j => (node.level (k + j) t).length) ∘ Nat.succ) (List.range d))
        = (List.range d).map (fun j => (node.level (k + 1 + j) t).length) := by
      apply List.map_congr_left
      intro j _
      simp only [Function.comp, Nat.succ_eq_add_one]
      congr 2
      omega
    rw [h2] at hf
    obtain ⟨f, rfl⟩ : ∃ f, fuel = f + (node.level k t).length :=
      ⟨fuel - (node.level k t).length, by omega⟩
    have h3 := bfsQ_append t (node.level k t) [] f
      (fun p hp => ((mem_level k t p).mp hp).2)
    rw [List.append_nil, List.nil_append, level_children] at h3
    rw [h3, bfsQ_levels t d (k + 1) f (by rw [← h0]; congr 1; omega) (by omega), bfsLevels,
      level_children]
    rfl

/-- The queue of `walk` is consumed in breadth-first order, and one round
per node and one more are enough. -/
theorem bfsQ_levelOrder (t : node) : bfsQ t (t.size + 1) [[]] = some (levelOrder t) := by
  have h := bfsQ_levels t t.size 0 (t.size + 1) (level_eq_nil t _ (by omega))
    (by
      have := level_count t.size t
      simp only [Nat.zero_add]
      omega)
  exact h

theorem mem_levelOrder (t : node) (p : Path) : p ∈ levelOrder t ↔ (t.get p).isSome := by
  have e : levelOrder t = bfsLevels t t.size (node.level 0 t) := rfl
  rw [e, bfsLevels_level, List.mem_flatMap]
  constructor
  · rintro ⟨j, _, hp⟩
    exact ((mem_level _ t p).mp hp).2
  · intro h
    refine ⟨p.length, List.mem_range.mpr (get_length_lt_size p t h), ?_⟩
    exact (mem_level _ t p).mpr ⟨by omega, h⟩

theorem levelOrder_nodup (t : node) : (levelOrder t).Nodup := by
  have e : levelOrder t = bfsLevels t t.size (node.level 0 t) := rfl
  rw [e, bfsLevels_level, List.nodup_flatMap]
  refine ⟨fun j _ => level_nodup _ t, ?_⟩
  apply List.Pairwise.imp_of_mem _ (List.nodup_range _)
  intro i j _ _ hij
  simp only [Function.onFun]
  intro p hp1 hp2
  have h1 := ((mem_level _ t p).mp hp1).1
  have h2 := ((mem_level _ t p).mp hp2).1
  omega

theorem walkVisit_eq {σ : Type} (ctx : Int) (fn : σ → Bytes → List sequence → Bool × σ)
    (bt : tree) (p : Path) (n : node) (st : σ) (log : List Visit) :
    walkVisit ctx fn bt p n st log
      = if n.visibleFor ctx then
          (if (fn st n.key n.data).1 then bt else bt.doRemoveFor p ctx, (fn st n.key n.data).2,
            log ++ [⟨p, n.key, n.data, (fn st n.key n.data).1⟩])
        else (bt, st, log) := by
  unfold walkVisit node.visibleFor
  by_cases hd : n.data = []
  · simp [hd]
  · by_cases hr : n.wasRemovedFor ctx = true
    · simp [hd, hr]
    · simp [hd, hr]

theorem visibleAt_addRemoved_ne (c ctx : Int) (t : node) (p q : Path) (h : q ≠ p) :
    (node.addRemoved c t p).visibleAt ctx q = t.visibleAt ctx q := by
  unfold node.visibleAt
  obtain ⟨h1, h2⟩ := get_addRemoved c q t p
  cases hg : t.get q with
  | none => rw [h1 hg]
  | some n =>
    obtain ⟨n', g1, _, g3, _, g5, _⟩ := h2 n hg
    rw [g1]
    simp only [node.visibleFor, node.wasRemovedFor, g3, g5 h]

theorem visibleAt_doRemoveFor_ne (bt : tree) (c ctx : Int) (p q : Path) (h : q ≠ p) :
    (bt.doRemoveFor p c).root.visibleAt ctx q = bt.root.visibleAt ctx q := by
  unfold tree.doRemoveFor
  split
  · rfl
  · exact visibleAt_addRemoved_ne c ctx bt.root p q h

theorem visibleAt_walkVisit_ne {σ : Type} (ctx : Int) (fn : σ → Bytes → List sequence → Bool × σ)
    (bt : tree) (p : Path) (n : node) (st : σ) (log : List Visit) (q : Path) (h : q ≠ p) :
    (walkVisit ctx fn bt p n st log).1.root.visibleAt ctx q = bt.root.visibleAt ctx q := by
  rcases walkVisit_root ctx fn bt p n st log with e | e <;> rw [e]
  exact visibleAt_doRemoveFor_ne bt ctx ctx p q h

/-- The visitor is called on the nodes of the sequence that are visible for
`ctx` at the start, in order. -/
theorem visitAll_ptrs {σ : Type} (ctx : Int) (fn : σ → Bytes → List sequence → Bool × σ) :
    ∀ (order : List Path) (bt : tree) (st : σ) (log : List Visit), order.Nodup →
      (visitAll ctx fn bt order st log).2.2.map Visit.ptr
        = log.map Visit.ptr ++ order.filter (fun p => bt.root.visibleAt ctx p)
  | [], bt, st, log, _ => by simp [visitAll]
  | p :: r, bt, st, log, hnd => by
    have hr : r.Nodup := (List.nodup_cons.mp hnd).2
    have hp : p ∉ r := (List.nodup_cons.mp hnd).1
    rw [visitAll]
    cases hg : bt.root.get p with
    | none =>
      simp only
      rw [visitAll_ptrs ctx fn r bt st log hr]
      simp [List.filter_cons, node.visibleAt, hg]
    | some n =>
      simp only
      rw [visitAll_ptrs ctx fn r _ _ _ hr]
      have hf : r.filter (fun q => (walkVisit ctx fn bt p n st log).1.root.visibleAt ctx q)
          = r.filter (fun q => bt.root.visibleAt ctx q) := by
        apply List.filter_congr
        intro q hq
        exact visibleAt_walkVisit_ne ctx fn bt p n st log q (fun h => hp (h ▸ hq))
      rw [hf, walkVisit_eq]
      by_cases hv : n.visibleFor ctx = true
      · simp [hv, List.filter_cons, node.visibleAt, hg]
      · simp [hv, List.filter_cons, node.visibleAt, hg]

theorem Ext_visitAll {σ : Type} (ctx : Int) (fn : σ → Bytes → List sequence → Bool × σ) :
    ∀ (order : List Path) (bt : tree) (st : σ) (log : List Visit),
      Ext bt.root (visitAll ctx fn bt order st log).1.root
  | [], bt, st, log => by simp [visitAll, Ext_refl]
  | p :: r, bt, st, log => by
    rw [visitAll]
    cases hg : bt.root.get p with
    | none => exact Ext_visitAll ctx fn r bt st log
    | some n =>
      exact Ext_trans (Ext_walkVisit ctx fn bt p n st log) (Ext_visitAll ctx fn r _ _ _)

/-- Every call of the visitor passes the key and the data of the node it is
called on. -/
theorem visitAll_args {σ : Type} (ctx : Int) (fn : σ → Bytes → List sequence → Bool × σ) :
    ∀ (order : List Path) (bt : tree) (st : σ) (log : List Visit),
      ∃ new, (visitAll ctx fn bt order st log).2.2 = log ++ new
        ∧ ∀ v ∈ new, ∃ n, bt.root.get v.ptr = some n ∧ v.key = n.key ∧ v.data = n.data
  | [], bt, st, log => ⟨[], by simp [visitAll]⟩
  | p :: r, bt, st, log => by
    rw [visitAll]
    cases hg : bt.root.get p with
    | none => exact visitAll_args ctx fn r bt st log
    | some n =>
      simp only
      obtain ⟨new, h1, h2⟩ := visitAll_args ctx fn r (walkVisit ctx fn bt p n st log).1
        (walkVisit ctx fn bt p n st log).2.1 (walkVisit ctx fn bt p n st log).2.2
      have hext := Ext_walkVisit ctx fn bt p n st log
      have back : ∀ v ∈ new, ∃ m, bt.root.get v.ptr = some m ∧ v.key = m.key ∧ v.data = m.data := by
        intro v hv
        obtain ⟨m', g1, g2, g3⟩ := h2 v hv
        cases hm : bt.root.get v.ptr with
        | none => rw [(hext v.ptr).2 hm] at g1; cases g1
        | some m =>
          obtain ⟨m'', k1, k2⟩ := (hext v.ptr).1 m hm
          rw [g1] at k1
          cases k1
          exact ⟨m, rfl, g2.trans k2.1, g3.trans k2.2.1⟩
      rw [h1, walkVisit_eq]
      by_cases hv : n.visibleFor ctx = true
      · refine ⟨⟨p, n.key, n.data, (fn st n.key n.data).1⟩ :: new, by simp [hv], ?_⟩
        intro v hv'
        rcases List.mem_cons.mp hv' with rfl | hv'
        · exact ⟨n, hg, rfl, rfl⟩
        · exact back v hv'
      · exact ⟨new, by simp [hv], back⟩

theorem doRemoveFor_zero (bt : tree) (p : Path) : bt.doRemoveFor p 0 = bt := by
  simp [tree.doRemoveFor]

/-- With `ctx = 0` the loop body of `walk` leaves the tree as it is. -/
theorem visitAll_zero {σ : Type} (fn : σ → Bytes → List sequence → Bool × σ) :
    ∀ (order : List Path) (bt : tree) (st : σ) (log : List Visit),
      (visitAll 0 fn bt order st log).1 = bt
  | [], bt, st, log => by simp [visitAll]
  | p :: r, bt, st, log => by
    rw [visitAll]
    cases hg : bt.root.get p with
    | none => exact visitAll_zero fn r bt st log
    | some n =>
      simp only
      rw [visitAll_zero fn r]
      rcases walkVisit_root 0 fn bt p n st log with e | e
      · exact e
      · rw [e, doRemoveFor_zero]

/-- A walk returns when `length(ctx)` is not negative: the tree, the state of
the visitor and the calls are those of the loop body run over the nodes in
breadth-first order. -/
theorem walk_eq {σ : Type} (bt : tree) (ctx : Int) (fn : σ → Bytes → List sequence → Bool × σ)
    (st : σ) (hlen : 0 ≤ bt.length ctx) :
    bt.walk ctx fn st = some (visitAll ctx fn bt (levelOrder bt.root) st []) := by
  have hm : makeNodes (bt.length ctx) = some (bt.length ctx).toNat := by
    simp only [makeNodes]
    rw [if_neg (by omega)]
  simp only [tree.walk, hm]
  exact walkLoop_eq_visitAll ctx fn _ bt [[]] st [] _ (bfsQ_levelOrder bt.root)

/-- A walk does not return when `length(ctx)` is negative: `make` panics. -/
theorem walk_eq_none {σ : Type} (bt : tree) (ctx : Int)
    (fn : σ → Bytes → List sequence → Bool × σ) (st : σ) (hlen : bt.length ctx < 0) :
    bt.walk ctx fn st = none := by
  simp [tree.walk, makeNodes, hlen]

/-- A walk that returns was started with a `length(ctx)` that is not negative,
and returns what the loop body gives over the nodes in breadth-first order. -/
theorem walk_eq_of_some {σ : Type} (bt : tree) (ctx : Int)
    (fn : σ → Bytes → List sequence → Bool × σ) (st : σ) (r : tree × σ × List Visit)
    (h : bt.walk ctx fn st = some r) :
    0 ≤ bt.length ctx ∧ r = visitAll ctx fn bt (levelOrder bt.root) st [] := by
  by_cases hlen : bt.length ctx < 0
  · rw [walk_eq_none bt ctx fn st hlen] at h
    cases h
  · have h0 : 0 ≤ bt.length ctx := by omega
    rw [walk_eq bt ctx fn st h0] at h
    exact ⟨h0, (Option.some.inj h).symm⟩

theorem getElem?_lt {α : Type} {l : List α} {i : Nat} {a : α} (h : l[i]? = some a) :
    i < l.length := by
  by_contra hc
  rw [List.getElem?_eq_none (by omega)] at h
  cases h

theorem WF_iff (t : node) :
    WF t ↔ LabelsOK (t.edges.map edge.label) ∧ ∀ e ∈ t.edges, WF e.target := by
  constructor
  · intro h
    refine ⟨h [] t (node_get_nil t), fun e he p n hn => ?_⟩
    obtain ⟨i, hi⟩ := List.mem_iff_getElem?.mp he
    apply h (i :: p) n
    rw [node_get_cons, hi]
    exact hn
  · rintro ⟨h1, h2⟩ p n hn
    cases p with
    | nil =>
      rw [node_get_nil] at hn
      cases hn
      exact h1
    | cons i p =>
      rw [node_get_cons] at hn
      cases he : t.edges[i]? with
      | none => rw [he] at hn; cases hn
      | some e =>
        rw [he] at hn
        exact h2 e (List.getElem?_mem he) p n hn

theorem WF_mk_iff (k : Bytes) (es : List edge) (d : List sequence) (r : List Int) :
    WF (node.mk k es d r) ↔ LabelsOK (es.map edge.label) ∧ ∀ e ∈ es, WF e.target := by
  rw [WF_iff]; rfl

theorem WF_of_Ext {t t' : node} (h : Ext t t') (hw : WF t) : WF t' := by
  intro p n' hn'
  cases hg : t.get p with
  | none => rw [(h p).2 hg] at hn'; cases hn'
  | some n =>
    obtain ⟨m, g1, g2⟩ := (h p).1 n hg
    rw [g1] at hn'
    cases hn'
    rw [g2.2.2.1]
    exact hw p n hg

theorem node_doUpdate_fst {P F : Type} (upd : Codec P F) (t : table F) (tb : Int) (vals : P)
    (n : node) : ∃ d, (node.doUpdate upd t tb vals n).1 = node.mk n.key n.edges d n.removedFor
      ∧ (n.data ≠ [] ∨ t.Fields ≠ [] → d ≠ []) :=
  ⟨_, rfl, by
    intro h
    have hl := mergeLoop_length upd vals t.Resolution tb t.Fields 0
      (n.data ++ List.replicate (t.Fields.length - n.data.length) []) 0
    intro hd
    rw [hd] at hl
    simp only [List.length_nil, List.length_append, List.length_replicate] at hl
    rcases h with h | h
    · have := List.length_pos.mpr h; omega
    · have := List.length_pos.mpr h; omega⟩

theorem WF_node_doUpdate {P F : Type} (upd : Codec P F) (t : table F) (tb : Int) (vals : P)
    (n : node) (h : WF n) : WF (node.doUpdate upd t tb vals n).1 := by
  obtain ⟨d, hd, _⟩ := node_doUpdate_fst upd t tb vals n
  rw [hd, WF_mk_iff]
  exact (WF_iff n).mp h

theorem commonLen_pos_head : ∀ (l k : Bytes), 0 < commonLen l k → l.head? = k.head?
  | [], _, h => by simp [commonLen] at h
  | _ :: _, [], h => by simp [commonLen] at h
  | a :: l, b :: k, h => by
    simp only [commonLen] at h
    split at h
    · simp_all
    · simp at h

theorem commonLen_zero_head : ∀ (l k : Bytes), l ≠ [] → k ≠ [] → commonLen l k = 0 →
    l.head? ≠ k.head?
  | [], _, h, _, _ => absurd rfl h
  | _ :: _, [], _, h, _ => absurd rfl h
  | a :: l, b :: k, _, _, h => by
    simp only [commonLen] at h
    split at h
    · simp at h
    · simpa using ‹¬a = b›

theorem commonLen_take : ∀ (l k : Bytes), l.take (commonLen l k) = k.take (commonLen l k)
  | [], _ => by simp [commonLen]
  | _ :: _, [] => by simp [commonLen]
  | a :: l, b :: k => by
    simp only [commonLen]
    split
    · simp only [List.take_succ_cons, List.cons.injEq]
      exact ⟨‹a = b›, commonLen_take l k⟩
    · simp

theorem commonLen_drop_head : ∀ (l k : Bytes), commonLen l k < l.length →
    commonLen l k < k.length →
    (l.drop (commonLen l k)).head? ≠ (k.drop (commonLen l k)).head?
  | [], _, h, _ => by simp at h
  | _ :: _, [], _, h => by simp at h
  | a :: l, b :: k, h1, h2 => by
    simp only [commonLen] at h1 h2 ⊢
    split
    · rename_i hab
      simp only [hab, if_true, List.length_cons, Nat.add_lt_add_iff_right] at h1 h2
      simp only [List.drop_succ_cons]
      exact commonLen_drop_head l k h1 h2
    · simpa using ‹¬a = b›

theorem take_ne_nil {l : Bytes} {i : Nat} (hi : 0 < i) (hl : l ≠ []) : l.take i ≠ [] := by
  cases l with
  | nil => exact absurd rfl hl
  | cons a l =>
    cases i with
    | zero => omega
    | succ i => simp

theorem head?_take {l : Bytes} {i : Nat} (hi : 0 < i) : (l.take i).head? = l.head? := by
  cases l with
  | nil => simp
  | cons a l =>
    cases i with
    | zero => omega
    | succ i => simp

theorem drop_ne_nil {l : Bytes} {i : Nat} (hi : i < l.length) : l.drop i ≠ [] := by
  intro h
  have := congrArg List.length h
  simp at this
  omega

theorem WF_leaf {P F : Type} (upd : Codec P F) (t : table F) (tb : Int) (vals : P)
    (fullKey : Bytes) : WF (node.doUpdate upd t tb vals (node.mk fullKey [] [] [])).1 := by
  apply WF_node_doUpdate
  rw [WF_mk_iff]
  simp [LabelsOK]

theorem WF_split {P F : Type} (upd : Codec P F) (t : table F) (tb : Int) (vals : P)
    (label : Bytes) (target : node) (fullKey key : Bytes) (hw : WF target)
    (h1 : ¬(commonLen label key = key.length ∧ key.length = label.length))
    (h2 : ¬(commonLen label key = label.length ∧ label.length < key.length)) :
    (edge.split upd t tb (edge.mk label target) (commonLen label key) fullKey key vals).1.label
        = label.take (commonLen label key)
      ∧ WF (edge.split upd t tb (edge.mk label target) (commonLen label key) fullKey key vals).1.target := by
  have hL := commonLen_le_left label key
  have hK := commonLen_le_right label key
  have hiL : commonLen label key < label.length := by omega
  unfold edge.split
  by_cases hs : commonLen label key = key.length
  · simp only [hs, ne_eq, not_true_eq_false, if_false, edge_label_mk, edge_target_mk, true_and]
    apply WF_node_doUpdate
    rw [WF_mk_iff]
    refine ⟨⟨?_, by simp⟩, ?_⟩
    · intro l hl
      simp only [List.map_cons, List.map_nil, List.mem_singleton, edge_label_mk] at hl
      subst hl
      exact drop_ne_nil (by omega)
    · intro e he
      simp only [List.mem_singleton] at he
      subst he
      exact hw
  · simp only [ne_eq, hs, not_false_eq_true, if_true, edge_label_mk, edge_target_mk, true_and]
    have hiK : commonLen label key < key.length := by omega
    rw [WF_mk_iff]
    refine ⟨⟨?_, ?_⟩, ?_⟩
    · intro l hl
      simp only [node_edges_mk, List.singleton_append, List.map_cons, List.map_nil,
        edge_label_mk, List.mem_cons, List.mem_singleton, List.not_mem_nil, or_false] at hl
      rcases hl with rfl | rfl
      · exact drop_ne_nil hiL
      · exact drop_ne_nil hiK
    · simp only [node_edges_mk, List.singleton_append, List.map_cons, List.map_nil,
        edge_label_mk, List.nodup_cons, List.mem_singleton, List.not_mem_nil, not_false_eq_true,
        List.nodup_nil, and_true]
      exact commonLen_drop_head label key hiL hiK
    · intro e he
      simp only [node_edges_mk, List.singleton_append, List.mem_cons, List.mem_singleton,
        List.not_mem_nil, or_false] at he
      rcases he with rfl | rfl
      · exact hw
      · exact WF_leaf upd t tb vals fullKey

mutual
theorem doUpdateNode_WF {P F : Type} (upd : Codec P F) (t : table F) (tb : Int)
    (fullKey : Bytes) (vals : P) : ∀ (n : node) (key : Bytes), key ≠ [] → WF n →
      WF (doUpdateNode upd t tb fullKey vals n key).1
  | .mk k es d r, key, hkey, hw => by
    rw [WF_mk_iff] at hw
    obtain ⟨⟨hne, hnd⟩, htg⟩ := hw
    have hne' : ∀ e ∈ es, e.label ≠ [] := fun e he => hne _ (List.mem_map_of_mem _ he)
    obtain ⟨ha, hb⟩ := doUpdateEdges_WF upd t tb fullKey vals es key hkey hne' htg
    rw [doUpdateNode]
    cases h : doUpdateEdges upd t tb fullKey vals es key with
    | none =>
      simp only
      rw [WF_mk_iff]
      refine ⟨⟨?_, ?_⟩, ?_⟩
      · intro l hl
        simp only [List.map_append, List.map_cons, List.map_nil, edge_label_mk, List.mem_append,
          List.mem_singleton] at hl
        rcases hl with hl | rfl
        · exact hne l hl
        · exact hkey
      · simp only [List.map_append, List.map_cons, List.map_nil, edge_label_mk]
        apply List.Nodup.append hnd (by simp)
        intro x hx1 hx2
        simp only [List.mem_singleton] at hx2
        subst hx2
        simp only [List.map_map, List.mem_map, Function.comp] at hx1
        obtain ⟨e, he, heq⟩ := hx1
        exact hb h e he heq
      · intro e he
        rcases List.mem_append.mp he with he | he
        · exact htg e he
        · simp only [List.mem_singleton] at he
          subst he
          exact WF_leaf upd t tb vals fullKey
    | some res =>
      obtain ⟨es', b, nw⟩ := res
      obtain ⟨g1, g2, g3⟩ := ha _ h
      simp only
      rw [WF_mk_iff]
      exact ⟨⟨g1, by rw [g2]; exact hnd⟩, g3⟩
theorem doUpdateEdges_WF {P F : Type} (upd : Codec P F) (t : table F) (tb : Int)
    (fullKey : Bytes) (vals : P) : ∀ (es : List edge) (key : Bytes), key ≠ [] →
      (∀ e ∈ es, e.label ≠ []) → (∀ e ∈ es, WF e.target) →
      (∀ res, doUpdateEdges upd t tb fullKey vals es key = some res →
        (∀ l ∈ res.1.map edge.label, l ≠ [])
        ∧ (res.1.map edge.label).map List.head? = (es.map edge.label).map List.head?
        ∧ ∀ e ∈ res.1, WF e.target)
      ∧ (doUpdateEdges upd t tb fullKey vals es key = none →
        ∀ e ∈ es, e.label.head? ≠ key.head?)
  | [], key, _, _, _ => by simp [doUpdateEdges]
  | .mk label target :: rest, key, hkey, hne, htg => by
    have hl : label ≠ [] := hne (edge.mk label target) (List.mem_cons_self _ _)
    have ht : WF target := htg (edge.mk label target) (List.mem_cons_self _ _)
    have hne' : ∀ e ∈ rest, e.label ≠ [] := fun e he => hne e (List.mem_cons_of_mem _ he)
    have htg' : ∀ e ∈ rest, WF e.target := fun e he => htg e (List.mem_cons_of_mem _ he)
    have hrest : (∀ l ∈ rest.map edge.label, l ≠ []) := by
      intro l hl'
      obtain ⟨e, he, rfl⟩ := List.mem_map.mp hl'
      exact hne' e he
    rw [doUpdateEdges]
    simp only
    split
    · refine ⟨fun res hres => ?_, fun h => by cases h⟩
      cases hres
      refine ⟨?_, rfl, ?_⟩
      · intro l hl'
        simp only [List.map_cons, edge_label_mk, List.mem_cons] at hl'
        rcases hl' with rfl | hl'
        · exact hl
        · exact hrest l hl'
      · intro e he
        rcases List.mem_cons.mp he with rfl | he
        · exact WF_node_doUpdate upd t tb vals target ht
        · exact htg' e he
    · split
      · rename_i hdesc
        refine ⟨fun res hres => ?_, fun h => by cases h⟩
        cases hres
        refine ⟨?_, rfl, ?_⟩
        · intro l hl'
          simp only [List.map_cons, edge_label_mk, List.mem_cons] at hl'
          rcases hl' with rfl | hl'
          · exact hl
          · exact hrest l hl'
        · intro e he
          rcases List.mem_cons.mp he with rfl | he
          · exact doUpdateNode_WF upd t tb fullKey vals target (key.drop label.length)
              (drop_ne_nil hdesc.2) ht
          · exact htg' e he
      · split
        · rename_i h1 h2 h3
          refine ⟨fun res hres => ?_, fun h => by cases h⟩
          cases hres
          obtain ⟨s1, s2⟩ := WF_split upd t tb vals label target fullKey key ht h1 h2
          refine ⟨?_, ?_, ?_⟩
          · intro l hl'
            simp only [List.map_cons, List.mem_cons] at hl'
            rcases hl' with rfl | hl'
            · rw [s1]; exact take_ne_nil h3 hl
            · exact hrest l hl'
          · simp only [List.map_cons, s1, edge_label_mk, head?_take h3]
          · intro e he
            rcases List.mem_cons.mp he with rfl | he
            · exact s2
            · exact htg' e he
        · rename_i h1 h2 h3
          obtain ⟨ha, hb⟩ := doUpdateEdges_WF upd t tb fullKey vals rest key hkey hne' htg'
          have h0 : commonLen label key = 0 := by omega
          cases hr : doUpdateEdges upd t tb fullKey vals rest key with
          | none =>
            refine ⟨fun res hres => (by cases hres), fun _ e he => ?_⟩
            rcases List.mem_cons.mp he with rfl | he
            · exact commonLen_zero_head label key hl hkey h0
            · exact hb hr e he
          | some r3 =>
            obtain ⟨rest', b, nw⟩ := r3
            obtain ⟨g1, g2, g3⟩ := ha _ hr
            refine ⟨fun res hres => ?_, fun h => by cases h⟩
            cases hres
            refine ⟨?_, ?_, ?_⟩
            · intro l hl'
              simp only [List.map_cons, edge_label_mk, List.mem_cons] at hl'
              rcases hl' with rfl | hl'
              · exact hl
              · exact g1 l hl'
            · simp only [List.map_cons, edge_label_mk, List.cons.injEq, true_and]
              exact g2
            · intro e he
              rcases List.mem_cons.mp he with rfl | he
              · exact ht
              · exact g3 e he
end

theorem WF_update {P F : Type} (upd : Codec P F) (bt : tree) (t : table F) (tb : Int)
    (key : Bytes) (vals : P) (hkey : key ≠ []) (hw : WF bt.root) :
    WF (bt.update upd t tb key vals).1.root :=
  doUpdateNode_WF upd t tb key vals bt.root key hkey hw

theorem labelOf_nil (t : node) : t.labelOf [] = some [] := by
  cases t; rfl

theorem labelOf_cons (t : node) (i : Nat) (p : Path) :
    t.labelOf (i :: p) = match t.edges[i]? with
      | some e => (e.target.labelOf p).map (fun l => e.label ++ l)
      | none => none := by
  cases t; rfl

theorem labelOf_isSome : ∀ (p : Path) (t : node), (t.labelOf p).isSome = (t.get p).isSome
  | [], t => by simp [labelOf_nil, node_get_nil]
  | i :: p, t => by
    rw [labelOf_cons, node_get_cons]
    cases t.edges[i]? with
    | none => rfl
    | some e => simp [labelOf_isSome p e.target]

theorem Has_root (t : node) : Has t [] t :=
  ⟨[], node_get_nil t, labelOf_nil t⟩

theorem Has_edge {t : node} {e : edge} (he : e ∈ t.edges) {K : Bytes} {m : node}
    (h : Has e.target K m) : Has t (e.label ++ K) m := by
  obtain ⟨p, h1, h2⟩ := h
  obtain ⟨i, hi⟩ := List.mem_iff_getElem?.mp he
  refine ⟨i :: p, ?_, ?_⟩
  · rw [node_get_cons, hi]; exact h1
  · rw [labelOf_cons, hi]; simp [h2]

theorem Has_cases {t : node} {K : Bytes} {m : node} (h : Has t K m) :
    (K = [] ∧ m = t) ∨ ∃ e ∈ t.edges, ∃ K1, K = e.label ++ K1 ∧ Has e.target K1 m := by
  obtain ⟨p, h1, h2⟩ := h
  cases p with
  | nil =>
    rw [node_get_nil] at h1
    rw [labelOf_nil] at h2
    cases h1
    cases h2
    exact Or.inl ⟨rfl, rfl⟩
  | cons i p =>
    rw [node_get_cons] at h1
    rw [labelOf_cons] at h2
    cases he : t.edges[i]? with
    | none => rw [he] at h1; cases h1
    | some e =>
      rw [he] at h1 h2
      simp only [Option.map_eq_some'] at h2
      obtain ⟨K1, g1, g2⟩ := h2
      exact Or.inr ⟨e, List.getElem?_mem he, K1, g2.symm, p, h1, g1⟩

theorem Has_mk_edges (k : Bytes) (es : List edge) (d : List sequence) (r : List Int)
    {e : edge} (he : e ∈ es) {K : Bytes} {m : node} (h : Has e.target K m) :
    Has (node.mk k es d r) (e.label ++ K) m :=
  Has_edge (t := node.mk k es d r) he h

theorem labelOf_eq_nil : ∀ (p : Path) (t : node), WF t → t.labelOf p = some [] → p = []
  | [], _, _, _ => rfl
  | i :: p, t, hw, h => by
    rw [labelOf_cons] at h
    cases he : t.edges[i]? with
    | none => rw [he] at h; cases h
    | some e =>
      rw [he] at h
      simp only [Option.map_eq_some', List.append_eq_nil] at h
      obtain ⟨_, _, h1, _⟩ := h
      have := ((WF_iff t).mp hw).1.1 e.label (List.mem_map_of_mem _ (List.getElem?_mem he))
      exact absurd h1 this

theorem head?_append_of_ne_nil {l r : Bytes} (h : l ≠ []) : (l ++ r).head? = l.head? := by
  cases l with
  | nil => exact absurd rfl h
  | cons a l => rfl

theorem nodup_map_getElem?_inj {α β : Type} {f : α → β} : ∀ {l : List α} {i j : Nat} {a b : α},
    (l.map f).Nodup → l[i]? = some a → l[j]? = some b → f a = f b → i = j
  | [], _, _, _, _, _, h, _, _ => by simp at h
  | x :: l, 0, 0, _, _, _, _, _, _ => rfl
  | x :: l, 0, j + 1, a, b, hn, h1, h2, hf => by
    simp only [List.getElem?_cons_zero, Option.some.injEq, List.getElem?_cons_succ] at h1 h2
    subst h1
    simp only [List.map_cons, List.nodup_cons, List.mem_map, not_exists, not_and] at hn
    exact absurd hf.symm (hn.1 b (List.getElem?_mem h2))
  | x :: l, i + 1, 0, a, b, hn, h1, h2, hf => by
    simp only [List.getElem?_cons_zero, Option.some.injEq, List.getElem?_cons_succ] at h1 h2
    subst h2
    simp only [List.map_cons, List.nodup_cons, List.mem_map, not_exists, not_and] at hn
    exact absurd hf (hn.1 a (List.getElem?_mem h1))
  | x :: l, i + 1, j + 1, a, b, hn, h1, h2, hf => by
    simp only [List.getElem?_cons_succ] at h1 h2
    simp only [List.map_cons, List.nodup_cons] at hn
    rw [nodup_map_getElem?_inj hn.2 h1 h2 hf]

/-- In a well-formed tree a label path names one node. -/
theorem labelOf_inj : ∀ (p q : Path) (t : node) (K : Bytes), WF t →
    t.labelOf p = some K → t.labelOf q = some K → p = q
  | [], q, t, K, hw, h1, h2 => by
    rw [labelOf_nil] at h1
    cases h1
    exact (labelOf_eq_nil q t hw h2).symm
  | i :: p, [], t, K, hw, h1, h2 => by
    rw [labelOf_nil] at h2
    cases h2
    exact labelOf_eq_nil (i :: p) t hw h1
  | i :: p, j :: q, t, K, hw, h1, h2 => by
    rw [labelOf_cons] at h1 h2
    cases he : t.edges[i]? with
    | none => rw [he] at h1; cases h1
    | some e =>
      cases he' : t.edges[j]? with
      | none => rw [he'] at h2; cases h2
      | some e' =>
        rw [he] at h1
        rw [he'] at h2
        simp only [Option.map_eq_some'] at h1 h2
        obtain ⟨K1, g1, g2⟩ := h1
        obtain ⟨K2, g3, g4⟩ := h2
        obtain ⟨⟨hne, hnd⟩, htg⟩ := (WF_iff t).mp hw
        have n1 := hne e.label (List.mem_map_of_mem _ (List.getElem?_mem he))
        have n2 := hne e'.label (List.mem_map_of_mem _ (List.getElem?_mem he'))
        have hh : e.label.head? = e'.label.head? := by
          rw [← head?_append_of_ne_nil (r := K1) n1, ← head?_append_of_ne_nil (r := K2) n2, g2, g4]
        rw [List.map_map] at hnd
        have hij : i = j := nodup_map_getElem?_inj hnd he he' hh
        subst hij
        rw [he] at he'
        cases he'
        have hK : K1 = K2 := List.append_cancel_left (g2.trans g4.symm)
        subst hK
        rw [labelOf_inj p q e.target K1 (htg e (List.getElem?_mem he)) g1 g3]

theorem labelOf_of_Ext {t t' : node} (h : Ext t t') : ∀ (p : Path),
    t'.labelOf p = t.labelOf p := by
  intro p
  induction p using List.reverseRecOn with
  | nil => rw [labelOf_nil, labelOf_nil]
  | append_singleton p i ih =>
    have key : ∀ (s : node) (p : Path) (i : Nat), s.labelOf (p ++ [i])
        = (s.labelOf p).bind (fun l => (s.get p).bind (fun n =>
            (n.edges.map edge.label)[i]?.map (fun x => l ++ x))) := by
      intro s p
      induction p generalizing s with
      | nil =>
        intro i
        simp only [List.nil_append, labelOf_cons, labelOf_nil, node_get_nil, Option.some_bind,
          List.getElem?_map]
        cases s.edges[i]? <;> simp [labelOf_nil]
      | cons j p ihp =>
        intro i
        simp only [List.cons_append, labelOf_cons, node_get_cons]
        cases s.edges[j]? with
        | none => rfl
        | some e =>
          simp only [ihp e.target i]
          cases e.target.labelOf p with
          | none => rfl
          | some l =>
            cases e.target.get p with
            | none => rfl
            | some n =>
              simp only [Option.some_bind, Option.map_some', List.getElem?_map, Option.map_map]
              cases n.edges[i]? <;> simp
    rw [key, key, ih]
    cases hg : t.get p with
    | none => rw [(h p).2 hg]
    | some n =>
      obtain ⟨n', g1, g2⟩ := (h p).1 n hg
      rw [g1]
      simp only [Option.some_bind, g2.2.2.1]

theorem Kept_refl (m : node) : Kept m m := ⟨rfl, id⟩

theorem Kept_trans {a b c : node} (h1 : Kept a b) (h2 : Kept b c) : Kept a c :=
  ⟨h2.1.trans h1.1, fun h => h2.2 (h1.2 h)⟩

theorem node_doUpdate_emb {P F : Type} (upd : Codec P F) (t : table F) (tb : Int) (vals : P)
    (n : node) {K : Bytes} {m : node} (h : Has n K m) :
    ∃ m', Has (node.doUpdate upd t tb vals n).1 K m' ∧ Kept m m' := by
  obtain ⟨d, hd, hdata⟩ := node_doUpdate_fst upd t tb vals n
  rcases Has_cases h with ⟨rfl, rfl⟩ | ⟨e, he, K1, rfl, h1⟩
  · refine ⟨_, Has_root _, ?_⟩
    rw [hd]
    exact ⟨rfl, fun hne => hdata (Or.inl hne)⟩
  · rw [hd]
    exact ⟨m, Has_mk_edges _ _ _ _ he h1, Kept_refl m⟩

theorem split_emb {P F : Type} (upd : Codec P F) (t : table F) (tb : Int) (vals : P)
    (label : Bytes) (target : node) (i : Nat) (fullKey key : Bytes) {K : Bytes} {m : node}
    (h : Has target K m) :
    ∃ K' m', label ++ K = (edge.split upd t tb (edge.mk label target) i fullKey key vals).1.label ++ K'
      ∧ Has (edge.split upd t tb (edge.mk label target) i fullKey key vals).1.target K' m'
      ∧ Kept m m' := by
  have hX : ∀ (k : Bytes) (rest : List edge) (d : List sequence) (r : List Int),
      Has (node.mk k (edge.mk (label.drop i) target :: rest) d r) (label.drop i ++ K) m :=
    fun k rest d r => Has_mk_edges k _ d r (e := edge.mk (label.drop i) target)
      (List.mem_cons_self _ _) h
  unfold edge.split
  by_cases hs : i = key.length
  · simp only [hs, ne_eq, not_true_eq_false, if_false, edge_label_mk, edge_target_mk]
    obtain ⟨m', g1, g2⟩ := node_doUpdate_emb upd t tb vals _ (hX [] [] [] [])
    rw [hs] at g1
    exact ⟨_, m', by rw [← List.append_assoc, List.take_append_drop], g1, g2⟩
  · simp only [ne_eq, hs, not_false_eq_true, if_true, edge_label_mk, edge_target_mk,
      node_edges_mk, List.singleton_append]
    exact ⟨_, m, by rw [← List.append_assoc, List.take_append_drop], hX _ _ _ _, Kept_refl m⟩

mutual
theorem doUpdateNode_emb {P F : Type} (upd : Codec P F) (t : table F) (tb : Int)
    (fullKey : Bytes) (vals : P) : ∀ (n : node) (key K : Bytes) (m : node), Has n K m →
      ∃ m', Has (doUpdateNode upd t tb fullKey vals n key).1 K m' ∧ Kept m m'
  | .mk k es d r, key, K, m, h => by
    have hedges := doUpdateEdges_emb upd t tb fullKey vals es key
    rw [doUpdateNode]
    rcases Has_cases h with ⟨rfl, rfl⟩ | ⟨e, he, K1, rfl, h1⟩
    · refine ⟨_, Has_root _, ?_⟩
      cases doUpdateEdges upd t tb fullKey vals es key with
      | none => exact ⟨rfl, id⟩
      | some res => exact ⟨rfl, id⟩
    · simp only [node_edges_mk] at he
      cases hr : doUpdateEdges upd t tb fullKey vals es key with
      | none => exact ⟨m, Has_mk_edges _ _ _ _ (List.mem_append_left _ he) h1, Kept_refl m⟩
      | some res =>
        obtain ⟨e', he', K1', m', g1, g2, g3⟩ := hedges res hr e he K1 m h1
        rw [g1]
        exact ⟨m', Has_mk_edges _ _ _ _ he' g2, g3⟩
theorem doUpdateEdges_emb {P F : Type} (upd : Codec P F) (t : table F) (tb : Int)
    (fullKey : Bytes) (vals : P) : ∀ (es : List edge) (key : Bytes)
      (res : List edge × Int × Bool), doUpdateEdges upd t tb fullKey vals es key = some res →
      ∀ e ∈ es, ∀ (K1 : Bytes) (m : node), Has e.target K1 m →
        ∃ e' ∈ res.1, ∃ K1' m', e.label ++ K1 = e'.label ++ K1' ∧ Has e'.target K1' m' ∧ Kept m m'
  | [], _, _, h => by simp [doUpdateEdges] at h
  | .mk label target :: rest, key, res, h => by
    intro e he K1 m hm
    have keep : e ∈ rest → ∀ x : edge, ∃ e' ∈ x :: rest, ∃ K1' m',
        e.label ++ K1 = e'.label ++ K1' ∧ Has e'.target K1' m' ∧ Kept m m' :=
      fun her x => ⟨e, List.mem_cons_of_mem _ her, K1, m, rfl, hm, Kept_refl m⟩
    rw [doUpdateEdges] at h
    simp only at h
    split at h
    · cases h
      rcases List.mem_cons.mp he with rfl | her
      · obtain ⟨m', g1, g2⟩ := node_doUpdate_emb upd t tb vals target hm
        exact ⟨_, List.mem_cons_self _ _, K1, m', rfl, g1, g2⟩
      · exact keep her _
    · split at h
      · cases h
        rcases List.mem_cons.mp he with rfl | her
        · obtain ⟨m', g1, g2⟩ := doUpdateNode_emb upd t tb fullKey vals target
            (key.drop label.length) K1 m hm
          exact ⟨_, List.mem_cons_self _ _, K1, m', rfl, g1, g2⟩
        · exact keep her _
      · split at h
        · cases h
          rcases List.mem_cons.mp he with rfl | her
          · obtain ⟨K', m', g1, g2, g3⟩ := split_emb upd t tb vals label target
              (commonLen label key) fullKey key hm
            exact ⟨_, List.mem_cons_self _ _, K', m', g1, g2, g3⟩
          · exact keep her _
        · cases hr : doUpdateEdges upd t tb fullKey vals rest key with
          | none => rw [hr] at h; cases h
          | some r3 =>
            obtain ⟨rest', b, nw⟩ := r3
            rw [hr] at h
            cases h
            rcases List.mem_cons.mp he with rfl | her
            · exact ⟨_, List.mem_cons_self _ _, K1, m, rfl, hm, Kept_refl m⟩
            · obtain ⟨e', he', K1', m', g1, g2, g3⟩ :=
                doUpdateEdges_emb upd t tb fullKey vals rest key _ hr e her K1 m hm
              exact ⟨e', List.mem_cons_of_mem _ he', K1', m', g1, g2, g3⟩
end

theorem commonLen_exact {l k : Bytes}
    (h : commonLen l k = k.length ∧ k.length = l.length) : l = k := by
  have := commonLen_take l k
  rw [h.1] at this
  rw [List.take_length] at this
  rw [h.2, List.take_length] at this
  exact this

theorem commonLen_descend {l k : Bytes} (h : commonLen l k = l.length) :
    k = l ++ k.drop l.length := by
  have := commonLen_take l k
  rw [h, List.take_length] at this
  conv_lhs => rw [← List.take_append_drop l.length k, ← this]

theorem split_has {P F : Type} (upd : Codec P F) (t : table F) (tb : Int) (vals : P)
    (label : Bytes) (target : node) (fullKey key : Bytes) :
    ∃ K1 m', key = (edge.split upd t tb (edge.mk label target) (commonLen label key)
          fullKey key vals).1.label ++ K1
      ∧ Has (edge.split upd t tb (edge.mk label target) (commonLen label key)
          fullKey key vals).1.target K1 m'
      ∧ (t.Fields ≠ [] → m'.data ≠ []) := by
  unfold edge.split
  by_cases hs : commonLen label key = key.length
  · simp only [hs, ne_eq, not_true_eq_false, if_false, edge_label_mk, edge_target_mk]
    refine ⟨[], _, ?_, Has_root _, ?_⟩
    · have := commonLen_take label key
      rw [hs, List.take_length] at this
      rw [this, List.append_nil]
    · obtain ⟨d, hd, hdata⟩ := node_doUpdate_fst upd t tb vals
        (node.mk [] [edge.mk (List.drop key.length label) target] [] [])
      rw [hd]
      exact fun hf => hdata (Or.inr hf)
  · simp only [ne_eq, hs, not_false_eq_true, if_true, edge_label_mk, edge_target_mk,
      node_edges_mk, List.singleton_append]
    refine ⟨key.drop (commonLen label key),
      (node.doUpdate upd t tb vals (node.mk fullKey [] [] [])).1, ?_, ?_, ?_⟩
    · rw [commonLen_take, List.take_append_drop]
    · have := Has_mk_edges [] [edge.mk (label.drop (commonLen label key)) target,
          edge.mk (key.drop (commonLen label key))
            (node.doUpdate upd t tb vals (node.mk fullKey [] [] [])).1] [] []
        (e := edge.mk (key.drop (commonLen label key))
            (node.doUpdate upd t tb vals (node.mk fullKey [] [] [])).1)
        (by simp) (Has_root _)
      simpa using this
    · obtain ⟨d, hd, hdata⟩ := node_doUpdate_fst upd t tb vals (node.mk fullKey [] [] [])
      rw [hd]
      exact fun hf => hdata (Or.inr hf)

mutual
/-- After `doUpdate` the tree has a node at the label path spelled by the
key, and that node holds data when the table has a field. -/
theorem doUpdateNode_has {P F : Type} (upd : Codec P F) (t : table F) (tb : Int)
    (fullKey : Bytes) (vals : P) : ∀ (n : node) (key : Bytes),
      ∃ m', Has (doUpdateNode upd t tb fullKey vals n key).1 key m'
        ∧ (t.Fields ≠ [] → m'.data ≠ [])
  | .mk k es d r, key => by
    have hedges := doUpdateEdges_has upd t tb fullKey vals es key
    rw [doUpdateNode]
    cases hr : doUpdateEdges upd t tb fullKey vals es key with
    | none =>
      simp only
      obtain ⟨d', hd, hdata⟩ := node_doUpdate_fst upd t tb vals (node.mk fullKey [] [] [])
      refine ⟨(node.doUpdate upd t tb vals (node.mk fullKey [] [] [])).1, ?_, fun hf => ?_⟩
      · have := Has_mk_edges k
          (es ++ [edge.mk key (node.doUpdate upd t tb vals (node.mk fullKey [] [] [])).1]) d r
          (e := edge.mk key (node.doUpdate upd t tb vals (node.mk fullKey [] [] [])).1)
          (by simp) (Has_root _)
        simpa using this
      · rw [hd]; exact hdata (Or.inr hf)
    | some res =>
      obtain ⟨e', he', K1, m', g1, g2, g3⟩ := hedges res hr
      rw [g1]
      exact ⟨m', Has_mk_edges _ _ _ _ he' g2, g3⟩
theorem doUpdateEdges_has {P F : Type} (upd : Codec P F) (t : table F) (tb : Int)
    (fullKey : Bytes) (vals : P) : ∀ (es : List edge) (key : Bytes)
      (res : List edge × Int × Bool), doUpdateEdges upd t tb fullKey vals es key = some res →
      ∃ e' ∈ res.1, ∃ K1 m', key = e'.label ++ K1 ∧ Has e'.target K1 m'
        ∧ (t.Fields ≠ [] → m'.data ≠ [])
  | [], _, _, h => by simp [doUpdateEdges] at h
  | .mk label target :: rest, key, res, h => by
    rw [doUpdateEdges] at h
    simp only at h
    split at h
    · rename_i hex
      cases h
      obtain ⟨d', hd, hdata⟩ := node_doUpdate_fst upd t tb vals target
      refine ⟨_, List.mem_cons_self _ _, [], _, ?_, Has_root _, ?_⟩
      · simp [commonLen_exact hex]
      · simp only [edge_target_mk]
        rw [hd]
        exact fun hf => hdata (Or.inr hf)
    · split at h
      · rename_i hdesc
        cases h
        obtain ⟨m', g1, g2⟩ := doUpdateNode_has upd t tb fullKey vals target
          (key.drop label.length)
        exact ⟨_, List.mem_cons_self _ _, _, m', commonLen_descend hdesc.1, g1, g2⟩
      · split at h
        · cases h
          obtain ⟨K1, m', g1, g2, g3⟩ := split_has upd t tb vals label target fullKey key
          exact ⟨_, List.mem_cons_self _ _, K1, m', g1, g2, g3⟩
        · cases hr : doUpdateEdges upd t tb fullKey vals rest key with
          | none => rw [hr] at h; cases h
          | some r3 =>
            obtain ⟨rest', b, nw⟩ := r3
            rw [hr] at h
            cases h
            obtain ⟨e', he', K1, m', g1, g2, g3⟩ :=
              doUpdateEdges_has upd t tb fullKey vals rest key _ hr
            exact ⟨e', List.mem_cons_of_mem _ he', K1, m', g1, g2, g3⟩
end

theorem node_tombs_eq (t : node) : t.tombs = t.removedFor ++ edgesTombs t.edges := by
  cases t; rfl

theorem edgesTombs_cons (e : edge) (es : List edge) :
    edgesTombs (e :: es) = e.target.tombs ++ edgesTombs es := by
  cases e; rfl

theorem edgesTombs_append (a b : List edge) :
    edgesTombs (a ++ b) = edgesTombs a ++ edgesTombs b := by
  induction a with
  | nil => simp [edgesTombs]
  | cons e a ih => simp [edgesTombs_cons, ih]

theorem mem_edgesTombs (c : Int) : ∀ (es : List edge),
    c ∈ edgesTombs es ↔ ∃ e ∈ es, c ∈ e.target.tombs
  | [] => by simp [edgesTombs]
  | e :: es => by
    rw [edgesTombs_cons, List.mem_append, mem_edgesTombs c es]
    simp

theorem get_tombs : ∀ (p : Path) (t m : node), t.get p = some m →
    ∀ c ∈ m.removedFor, c ∈ t.tombs
  | [], t, m, h, c, hc => by
    rw [node_get_nil] at h
    cases h
    rw [node_tombs_eq]
    exact List.mem_append_left _ hc
  | i :: p, t, m, h, c, hc => by
    rw [node_get_cons] at h
    cases he : t.edges[i]? with
    | none => rw [he] at h; cases h
    | some e =>
      rw [he] at h
      rw [node_tombs_eq]
      exact List.mem_append_right _
        ((mem_edgesTombs c _).mpr ⟨e, List.getElem?_mem he, get_tombs p e.target m h c hc⟩)

theorem node_doUpdate_tombs {P F : Type} (upd : Codec P F) (t : table F) (tb : Int) (vals : P)
    (n : node) : (node.doUpdate upd t tb vals n).1.tombs = n.tombs := by
  obtain ⟨d, hd, _⟩ := node_doUpdate_fst upd t tb vals n
  rw [hd, node_tombs_eq, node_tombs_eq]
  rfl

theorem node_doUpdate_removedFor {P F : Type} (upd : Codec P F) (t : table F) (tb : Int)
    (vals : P) (n : node) : (node.doUpdate upd t tb vals n).1.removedFor = n.removedFor := rfl

theorem split_tombs {P F : Type} (upd : Codec P F) (t : table F) (tb : Int) (vals : P)
    (label : Bytes) (target : node) (i : Nat) (fullKey key : Bytes) :
    (edge.split upd t tb (edge.mk label target) i fullKey key vals).1.target.tombs
      = target.tombs := by
  unfold edge.split
  by_cases hs : i = key.length
  · simp only [hs, ne_eq, not_true_eq_false, if_false, edge_target_mk]
    rw [node_doUpdate_tombs]
    simp [node_tombs_eq, edgesTombs_cons, edgesTombs]
  · simp only [ne_eq, hs, not_false_eq_true, if_true, edge_target_mk]
    simp [node_tombs_eq, edgesTombs_cons, edgesTombs, node_doUpdate_removedFor]

mutual
/-- An `update` leaves every tombstone where it is. -/
theorem doUpdateNode_tombs {P F : Type} (upd : Codec P F) (t : table F) (tb : Int)
    (fullKey : Bytes) (vals : P) : ∀ (n : node) (key : Bytes),
      (doUpdateNode upd t tb fullKey vals n key).1.tombs = n.tombs
  | .mk k es d r, key => by
    have hedges := doUpdateEdges_tombs upd t tb fullKey vals es key
    rw [doUpdateNode]
    cases hr : doUpdateEdges upd t tb fullKey vals es key with
    | none =>
      simp [node_tombs_eq, edgesTombs_append, edgesTombs_cons, edgesTombs,
        node_doUpdate_removedFor]
    | some res =>
      simp only [node_tombs_eq, node_removedFor_mk, node_edges_mk, hedges res hr]
theorem doUpdateEdges_tombs {P F : Type} (upd : Codec P F) (t : table F) (tb : Int)
    (fullKey : Bytes) (vals : P) : ∀ (es : List edge) (key : Bytes)
      (res : List edge × Int × Bool), doUpdateEdges upd t tb fullKey vals es key = some res →
      edgesTombs res.1 = edgesTombs es
  | [], _, _, h => by simp [doUpdateEdges] at h
  | .mk label target :: rest, key, res, h => by
    rw [doUpdateEdges] at h
    simp only at h
    split at h
    · cases h
      simp only [edgesTombs_cons, edge_target_mk, node_doUpdate_tombs]
    · split at h
      · cases h
        simp only [edgesTombs_cons, edge_target_mk,
          doUpdateNode_tombs upd t tb fullKey vals target (key.drop label.length)]
      · split at h
        · cases h
          simp only [edgesTombs_cons, edge_target_mk, split_tombs]
        · cases hr : doUpdateEdges upd t tb fullKey vals rest key with
          | none => rw [hr] at h; cases h
          | some r3 =>
            obtain ⟨rest', b, nw⟩ := r3
            rw [hr] at h
            cases h
            simp only [edgesTombs_cons, edge_target_mk,
              doUpdateEdges_tombs upd t tb fullKey vals rest key _ hr]
end

theorem applyUpdates_tombs {P F : Type} (upd : Codec P F) (calls : List (UpdateCall P F)) :
    (applyUpdates upd calls newByteTree).root.tombs = [] := by
  induction calls using List.reverseRecOn with
  | nil => simp [applyUpdates, newByteTree, node_tombs_eq, edgesTombs]
  | append_singleton calls c ih =>
    rw [applyUpdates_append]
    simp only [tree.update, tree.doUpdate]
    rw [doUpdateNode_tombs, ih]

theorem applyUpdates_WF {P F : Type} (upd : Codec P F) (calls : List (UpdateCall P F))
    (hkeys : ∀ c ∈ calls, c.key ≠ []) : WF (applyUpdates upd calls newByteTree).root := by
  induction calls using List.reverseRecOn with
  | nil =>
    simp only [applyUpdates, List.foldl_nil, newByteTree]
    rw [WF_mk_iff]
    simp [LabelsOK]
  | append_singleton calls c ih =>
    rw [applyUpdates_append]
    exact WF_update upd _ c.t c.truncateBefore c.key c.vals
      (hkeys c (by simp)) (ih (fun x hx => hkeys x (by simp [hx])))

theorem commonLen_append_self : ∀ (l r : Bytes), commonLen l (l ++ r) = l.length
  | [], r => by cases r <;> simp [commonLen]
  | a :: l, r => by simp [commonLen, commonLen_append_self l r]

theorem commonLen_of_head_ne : ∀ (l k : Bytes), l.head? ≠ k.head? → commonLen l k = 0
  | [], _, _ => by simp [commonLen]
  | _ :: _, [], _ => by simp [commonLen]
  | a :: l, b :: k, h => by
    simp only [List.head?_cons, ne_eq, Option.some.injEq] at h
    simp [commonLen, h]

theorem removeNode_eq (t : node) (key : Bytes) : removeNode t key = removeEdges t.edges 0 key := by
  cases t; rfl

/-- The search of `remove` among the edges of a well-formed node, for a key
that starts with the label of edge `i`. -/
theorem removeEdges_find (K1 : Bytes) : ∀ (es : List edge) (idx i : Nat) (e : edge),
    LabelsOK (es.map edge.label) → es[i]? = some e →
    removeEdges es idx (e.label ++ K1)
      = if K1 = [] then some [idx + i]
        else match removeNode e.target K1 with
          | some q => some ((idx + i) :: q)
          | none => none
  | [], _, _, _, _, h => by simp at h
  | .mk label target :: rest, idx, 0, e, hok, h => by
    simp only [List.getElem?_cons_zero, Option.some.injEq] at h
    subst h
    rw [removeEdges]
    simp only [edge_label_mk, edge_target_mk, commonLen_append_self, List.length_append,
      Nat.add_zero]
    by_cases hk : K1 = []
    · subst hk
      simp
    · have hpos : 0 < K1.length := List.length_pos.mpr hk
      have h1 : ¬(label.length = label.length + K1.length
          ∧ label.length + K1.length = label.length) := by omega
      simp only [h1, if_false, true_and, hk]
      rw [if_pos (by omega)]
      simp
  | .mk label target :: rest, idx, i + 1, e, hok, h => by
    simp only [List.getElem?_cons_succ] at h
    obtain ⟨hne, hnd⟩ := hok
    simp only [List.map_cons, edge_label_mk, List.nodup_cons, List.mem_map] at hnd
    have hl : label ≠ [] := hne label (by simp)
    have he : e.label ≠ [] := hne e.label (by
      simp only [List.map_cons, List.mem_cons, List.mem_map]
      exact Or.inr ⟨e, List.getElem?_mem h, rfl⟩)
    have hhead : label.head? ≠ (e.label ++ K1).head? := by
      rw [head?_append_of_ne_nil he]
      intro heq
      exact hnd.1 ⟨e.label, ⟨e, List.getElem?_mem h, rfl⟩, heq.symm⟩
    have h0 := commonLen_of_head_ne label (e.label ++ K1) hhead
    have hlen : 0 < label.length := List.length_pos.mpr hl
    have hlen2 : 0 < (e.label ++ K1).length := by
      have := List.length_pos.mpr he
      simp only [List.length_append]
      omega
    rw [removeEdges]
    simp only [h0]
    rw [if_neg (by omega), if_neg (by omega)]
    have hok' : LabelsOK (rest.map edge.label) :=
      ⟨fun l hl' => hne l (by simp only [List.map_cons, List.mem_cons]; exact Or.inr hl'), hnd.2⟩
    rw [removeEdges_find K1 rest (idx + 1) i e hok' h]
    have : idx + 1 + i = idx + (i + 1) := by omega
    rw [this]

/-- In a well-formed tree `remove` finds the node whose label path is the
key, wherever it is below the root. -/
theorem removeNode_complete : ∀ (p : Path) (t : node) (K : Bytes), WF t → p ≠ [] →
    t.labelOf p = some K → removeNode t K = some p
  | [], _, _, _, h, _ => absurd rfl h
  | i :: q, t, K, hw, _, h => by
    rw [labelOf_cons] at h
    cases he : t.edges[i]? with
    | none => rw [he] at h; cases h
    | some e =>
      rw [he] at h
      simp only [Option.map_eq_some'] at h
      obtain ⟨K1, g1, rfl⟩ := h
      obtain ⟨hok, htg⟩ := (WF_iff t).mp hw
      have hwe := htg e (List.getElem?_mem he)
      rw [removeNode_eq, removeEdges_find K1 t.edges 0 i e hok he]
      by_cases hk : K1 = []
      · subst hk
        rw [labelOf_eq_nil q e.target hwe g1]
        simp
      · have hq : q ≠ [] := by
          rintro rfl
          rw [labelOf_nil] at g1
          cases g1
          exact hk rfl
        rw [if_neg hk, removeNode_complete q e.target K1 hwe hq g1]
        simp

theorem get_doRemoveFor_self (bt : tree) (p : Path) (ctx : Int) (hctx : ctx ≠ 0) (n : node)
    (h : bt.root.get p = some n) :
    ∃ n', (bt.doRemoveFor p ctx).root.get p = some n' ∧ ctx ∈ n'.removedFor := by
  simp only [tree.doRemoveFor, hctx, if_false]
  obtain ⟨n', g1, _, _, _, _, g6⟩ := (get_addRemoved ctx p bt.root p).2 n h
  exact ⟨n', g1, by rw [g6 rfl]; simp⟩

/-- A node for which the visitor returned `keep = false` is tombstoned for
`ctx` when the walk is over. -/
theorem visitAll_tomb {σ : Type} (ctx : Int) (hctx : ctx ≠ 0)
    (fn : σ → Bytes → List sequence → Bool × σ) :
    ∀ (order : List Path) (bt : tree) (st : σ) (log : List Visit),
      ∀ v ∈ (visitAll ctx fn bt order st log).2.2, v ∈ log ∨ (v.keep = false →
        ∃ n', (visitAll ctx fn bt order st log).1.root.get v.ptr = some n'
          ∧ ctx ∈ n'.removedFor)
  | [], bt, st, log => by
    intro v hv
    exact Or.inl (by simpa [visitAll] using hv)
  | p :: r, bt, st, log => by
    intro v hv
    rw [visitAll] at hv ⊢
    cases hg : bt.root.get p with
    | none =>
      rw [hg] at hv
      exact visitAll_tomb ctx hctx fn r bt st log v hv
    | some n =>
      rw [hg] at hv
      simp only at hv ⊢
      rcases visitAll_tomb ctx hctx fn r _ _ _ v hv with h | h
      · rw [walkVisit_eq] at h
        by_cases hvis : n.visibleFor ctx = true
        · simp only [hvis, if_true, List.mem_append, List.mem_singleton] at h
          rcases h with h | h
          · exact Or.inl h
          · right
            intro hkeep
            subst h
            simp only at hkeep
            have hbt : (walkVisit ctx fn bt p n st log).1 = bt.doRemoveFor p ctx := by
              rw [walkVisit_eq]
              simp [hvis, hkeep]
            obtain ⟨n1, g1, g2⟩ := get_doRemoveFor_self bt p ctx hctx n hg
            have hext := Ext_visitAll ctx fn r (walkVisit ctx fn bt p n st log).1
              (walkVisit ctx fn bt p n st log).2.1 (walkVisit ctx fn bt p n st log).2.2
            rw [hbt] at hext
            obtain ⟨n2, k1, k2⟩ := (hext p).1 n1 g1
            rw [hbt]
            exact ⟨n2, k1, k2.2.2.2 ctx g2⟩
        · simp only [hvis] at h
          exact Or.inl h
      · exact Or.inr h

theorem wasRemovedFor_iff (n : node) (ctx : Int) (hctx : ctx ≠ 0) :
    n.wasRemovedFor ctx = true ↔ ctx ∈ n.removedFor := by
  simp only [node.wasRemovedFor, hctx, if_false, List.any_eq_true, decide_eq_true_eq]
  constructor
  · rintro ⟨x, hx, rfl⟩; exact hx
  · intro h; exact ⟨ctx, h, rfl⟩

theorem wasRemovedFor_zero (n : node) : n.wasRemovedFor 0 = false := by
  simp [node.wasRemovedFor]

/-- A walk calls the visitor on the node at `p` exactly when it is visible
for `ctx`, and never twice on the same node. -/
theorem walk_mem {σ : Type} (bt : tree) (ctx : Int)
    (fn : σ → Bytes → List sequence → Bool × σ) (st : σ) (r : tree × σ × List Visit)
    (h : bt.walk ctx fn st = some r) :
    (r.2.2.map Visit.ptr).Nodup
      ∧ ∀ (p : Path) (n : node), bt.root.get p = some n →
        (p ∈ r.2.2.map Visit.ptr ↔ n.visibleFor ctx = true) := by
  obtain ⟨_, rfl⟩ := walk_eq_of_some bt ctx fn st r h
  rw [visitAll_ptrs ctx fn _ bt st [] (levelOrder_nodup bt.root)]
  simp only [List.map_nil, List.nil_append]
  refine ⟨(levelOrder_nodup bt.root).filter _, fun p n hn => ?_⟩
  have hmem : p ∈ levelOrder bt.root := (mem_levelOrder bt.root p).mpr (by rw [hn]; rfl)
  rw [List.mem_filter]
  simp [node.visibleAt, hn, hmem]

theorem Has_of_Ext {t t' : node} (h : Ext t t') {K : Bytes} {m : node} (hm : Has t K m) :
    ∃ m', Has t' K m' ∧ NodeExt m m' := by
  obtain ⟨p, h1, h2⟩ := hm
  obtain ⟨m', g1, g2⟩ := (h p).1 m h1
  exact ⟨m', ⟨p, g1, by rw [labelOf_of_Ext h]; exact h2⟩, g2⟩

theorem Ext_remove (bt : tree) (ctx : Int) (key : Bytes) :
    Ext bt.root (bt.remove ctx key).1.root := by
  unfold tree.remove
  cases removeNode bt.root key with
  | none => exact Ext_refl _
  | some p =>
    simp only
    cases bt.root.get p with
    | none => exact Ext_refl _
    | some target =>
      simp only
      split
      · exact Ext_refl _
      · exact Ext_doRemoveFor bt p ctx

theorem Ext_walk {σ : Type} (bt : tree) (ctx : Int)
    (fn : σ → Bytes → List sequence → Bool × σ) (st : σ) (r : tree × σ × List Visit)
    (h : bt.walk ctx fn st = some r) : Ext bt.root r.1.root := by
  obtain ⟨_, rfl⟩ := walk_eq_of_some bt ctx fn st r h
  exact Ext_visitAll ctx fn _ bt st []

theorem Stays_refl (m : node) : Stays m m := ⟨id, fun _ h => h⟩

theorem Stays_trans {a b c : node} (h1 : Stays a b) (h2 : Stays b c) : Stays a c :=
  ⟨fun h => h2.1 (h1.1 h), fun x hx => h2.2 x (h1.2 x hx)⟩

theorem Stays_of_NodeExt {m m' : node} (h : NodeExt m m') : Stays m m' :=
  ⟨fun hd => by rw [h.2.1]; exact hd, h.2.2.2⟩

theorem Stays_of_Kept {m m' : node} (h : Kept m m') : Stays m m' :=
  ⟨h.2, fun c hc => by rw [h.1]; exact hc⟩

theorem Step_WF {P F : Type} (upd : Codec P F) {bt bt' : tree} (h : Step upd bt bt')
    (hw : WF bt.root) : WF bt'.root := by
  cases h with
  | update _ t tb key vals hkey => exact WF_update upd bt t tb key vals hkey hw
  | remove _ ctx key => exact WF_of_Ext (Ext_remove bt ctx key) hw
  | walk _ ctx fn st r hr => exact WF_of_Ext (Ext_walk bt ctx fn st r hr) hw

theorem Step_has {P F : Type} (upd : Codec P F) {bt bt' : tree} (h : Step upd bt bt')
    {K : Bytes} {m : node} (hm : Has bt.root K m) : ∃ m', Has bt'.root K m' ∧ Stays m m' := by
  cases h with
  | update _ t tb key vals hkey =>
    obtain ⟨m', g1, g2⟩ := doUpdateNode_emb upd t tb key vals bt.root key K m hm
    exact ⟨m', g1, Stays_of_Kept g2⟩
  | remove _ ctx key =>
    obtain ⟨m', g1, g2⟩ := Has_of_Ext (Ext_remove bt ctx key) hm
    exact ⟨m', g1, Stays_of_NodeExt g2⟩
  | walk _ ctx fn st r hr =>
    obtain ⟨m', g1, g2⟩ := Has_of_Ext (Ext_walk bt ctx fn st r hr) hm
    exact ⟨m', g1, Stays_of_NodeExt g2⟩

theorem Steps_WF {P F : Type} (upd : Codec P F) {bt bt' : tree} (h : Steps upd bt bt')
    (hw : WF bt.root) : WF bt'.root := by
  induction h with
  | refl => exact hw
  | tail _ hstep ih => exact Step_WF upd hstep ih

/-- No operation removes a node, empties its data or takes a tombstone off
it: the node at a label path stays there. -/
theorem Steps_has {P F : Type} (upd : Codec P F) {bt bt' : tree} (h : Steps upd bt bt')
    {K : Bytes} {m : node} (hm : Has bt.root K m) : ∃ m', Has bt'.root K m' ∧ Stays m m' := by
  induction h with
  | refl => exact ⟨m, hm, Stays_refl m⟩
  | tail _ hstep ih =>
    obtain ⟨m1, g1, g2⟩ := ih
    obtain ⟨m2, g3, g4⟩ := Step_has upd hstep g1
    exact ⟨m2, g3, Stays_trans g2 g4⟩

theorem Reachable_WF {P F : Type} (upd : Codec P F) {bt : tree} (h : Reachable upd bt) :
    WF bt.root := by
  apply Steps_WF upd h
  simp only [newByteTree]
  rw [WF_mk_iff]
  simp [LabelsOK]

theorem applyUpdates_has {P F : Type} (upd : Codec P F) (calls : List (UpdateCall P F))
    (K : Bytes) (hK : K ∈ calls.map (fun c => c.key)) :
    ∃ m, Has (applyUpdates upd calls newByteTree).root K m := by
  induction calls using List.reverseRecOn with
  | nil => simp at hK
  | append_singleton calls c ih =>
    rw [applyUpdates_append]
    simp only [List.map_append, List.map_cons, List.map_nil, List.mem_append,
      List.mem_singleton] at hK
    by_cases hc : K = c.key
    · subst hc
      obtain ⟨m', g1, _⟩ := doUpdateNode_has upd c.t c.truncateBefore c.key c.vals
        (applyUpdates upd calls newByteTree).root c.key
      exact ⟨m', g1⟩
    · obtain ⟨m, hm⟩ := ih (hK.resolve_right hc)
      obtain ⟨m', g1, _⟩ := doUpdateNode_emb upd c.t c.truncateBefore c.key c.vals
        (applyUpdates upd calls newByteTree).root c.key K m hm
      exact ⟨m', g1⟩

theorem CountsOK_new : CountsOK newByteTree := by
  simp [CountsOK, newByteTree]

theorem CountsOK_update {P F : Type} (upd : Codec P F) (bt : tree) (t : table F) (tb : Int)
    (key : Bytes) (vals : P) (h : CountsOK bt) : CountsOK (bt.update upd t tb key vals).1 := by
  obtain ⟨h1, h2, h3⟩ := h
  refine ⟨?_, h2, h3⟩
  simp only [tree.update]
  split <;> omega

theorem CountsOK_doRemoveFor (bt : tree) (p : Path) (c : Int) (h : CountsOK bt) :
    CountsOK (bt.doRemoveFor p c) := by
  obtain ⟨h1, h2, h3⟩ := h
  unfold tree.doRemoveFor
  by_cases hc : c = 0
  · simp only [hc, if_true]
    exact ⟨h1, h2, h3⟩
  · simp only [hc, if_false]
    refine ⟨h1, ?_, fun ctx => ?_⟩
    · simp only
      rw [if_neg (fun h0 => hc h0.symm)]
      exact h2
    · simp only
      have := h3 ctx
      split <;> omega

theorem CountsOK_walkVisit {σ : Type} (ctx : Int) (fn : σ → Bytes → List sequence → Bool × σ)
    (bt : tree) (p : Path) (n : node) (st : σ) (log : List Visit) (h : CountsOK bt) :
    CountsOK (walkVisit ctx fn bt p n st log).1 := by
  simp only [walkVisit]
  split
  · split
    · exact h
    · simp only
      split
      · exact h
      · exact CountsOK_doRemoveFor bt p ctx h
  · exact h

theorem CountsOK_visitAll {σ : Type} (ctx : Int) (fn : σ → Bytes → List sequence → Bool × σ) :
    ∀ (order : List Path) (bt : tree) (st : σ) (log : List Visit), CountsOK bt →
      CountsOK (visitAll ctx fn bt order st log).1
  | [], bt, st, log, h => by simpa [visitAll] using h
  | p :: r, bt, st, log, h => by
    rw [visitAll]
    cases hg : bt.root.get p with
    | none => exact CountsOK_visitAll ctx fn r bt st log h
    | some n => exact CountsOK_visitAll ctx fn r _ _ _ (CountsOK_walkVisit ctx fn bt p n st log h)

theorem CountsOK_remove (bt : tree) (ctx : Int) (key : Bytes) (h : CountsOK bt) :
    CountsOK (bt.remove ctx key).1 := by
  unfold tree.remove
  cases removeNode bt.root key with
  | none => exact h
  | some p =>
    simp only
    cases hg : bt.root.get p with
    | none => exact h
    | some target =>
      simp only
      cases hw : target.wasRemovedFor ctx with
      | true => simpa using h
      | false =>
        simp only [Bool.false_eq_true, if_false]
        exact CountsOK_doRemoveFor bt p ctx h

theorem CountsOK_anyStep {P F : Type} (upd : Codec P F) {bt bt' : tree}
    (hs : AnyStep upd bt bt') (h : CountsOK bt) : CountsOK bt' := by
  cases hs with
  | update _ t tb key vals => exact CountsOK_update upd bt t tb key vals h
  | remove _ ctx key => exact CountsOK_remove bt ctx key h
  | walk _ ctx fn st r hr =>
    obtain ⟨_, rfl⟩ := walk_eq_of_some bt ctx fn st r hr
    exact CountsOK_visitAll ctx fn _ bt st [] h

theorem AnyStep_of_Step {P F : Type} (upd : Codec P F) {bt bt' : tree} (hs : Step upd bt bt') :
    AnyStep upd bt bt' := by
  cases hs with
  | update _ t tb key vals _ => exact AnyStep.update bt t tb key vals
  | remove _ ctx key => exact AnyStep.remove bt ctx key
  | walk _ ctx fn st r hr => exact AnyStep.walk bt ctx fn st r hr

theorem ReachableAny_of_Reachable {P F : Type} (upd : Codec P F) {bt : tree}
    (h : Reachable upd bt) : ReachableAny upd bt := by
  unfold Reachable Steps at h
  unfold ReachableAny
  exact Relation.ReflTransGen.mono (fun _ _ hs => AnyStep_of_Step upd hs) h

theorem ReachableAny_CountsOK {P F : Type} (upd : Codec P F) {bt : tree}
    (h : ReachableAny upd bt) : CountsOK bt := by
  unfold ReachableAny at h
  induction h with
  | refl => exact CountsOK_new
  | tail _ hstep ih => exact CountsOK_anyStep upd hstep ih

/-- With sound counters `length(0)` is not negative and no `length(ctx)` is
above it. -/
theorem length_le_of_CountsOK {bt : tree} (h : CountsOK bt) (ctx : Int) :
    0 ≤ bt.length 0 ∧ bt.length ctx ≤ bt.length 0 := by
  obtain ⟨h1, h2, h3⟩ := h
  have := h3 ctx
  simp only [tree.length, h2]
  omega

theorem walk_isSome_iff {σ : Type} (bt : tree) (ctx : Int)
    (fn : σ → Bytes → List sequence → Bool × σ) (st : σ) :
    (bt.walk ctx fn st).isSome = true ↔ 0 ≤ bt.length ctx := by
  by_cases hlen : bt.length ctx < 0
  · rw [walk_eq_none bt ctx fn st hlen]
    simp
    omega
  · rw [walk_eq bt ctx fn st (by omega)]
    simp
    omega

theorem applyUpdates_counters {P F : Type} (upd : Codec P F) :
    ∀ (calls : List (UpdateCall P F)) (bt : tree),
    (applyUpdates upd calls bt).ctxRemovals = bt.ctxRemovals
    ∧ bt._length ≤ (applyUpdates upd calls bt)._length
  | [], bt => by simp [applyUpdates]
  | c :: calls, bt => by
    have ih := applyUpdates_counters upd calls (bt.update upd c.t c.truncateBefore c.key c.vals).1
    have e : applyUpdates upd (c :: calls) bt
        = applyUpdates upd calls (bt.update upd c.t c.truncateBefore c.key c.vals).1 := rfl
    rw [e]
    refine ⟨ih.1, le_trans ?_ ih.2⟩
    simp only [tree.update]
    split <;> omega

/-- The first `update` of an empty tree makes a new node. -/
theorem update_new_length {P F : Type} (upd : Codec P F) (t : table F) (tb : Int) (key : Bytes)
    (vals : P) : (newByteTree.update upd t tb key vals).1._length = 1 := by
  simp [tree.update, tree.doUpdate, newByteTree, doUpdateNode, doUpdateEdges]

/-- After at least one `update` of the empty tree `_length` is positive and
no removal is counted. -/
theorem applyUpdates_length_pos {P F : Type} (upd : Codec P F) (calls : List (UpdateCall P F))
    (hne : calls ≠ []) (ctx : Int) :
    1 ≤ (applyUpdates upd calls newByteTree).length ctx := by
  cases calls with
  | nil => exact absurd rfl hne
  | cons c calls =>
    have h := applyUpdates_counters upd calls
      (newByteTree.update upd c.t c.truncateBefore c.key c.vals).1
    have e : applyUpdates upd (c :: calls) newByteTree
        = applyUpdates upd calls (newByteTree.update upd c.t c.truncateBefore c.key c.vals).1 :=
      rfl
    rw [e]
    simp only [tree.length, h.1]
    have h1 := update_new_length upd c.t c.truncateBefore c.key c.vals
    have h2 := h.2
    rw [h1] at h2
    have h3 : (newByteTree.update upd c.t c.truncateBefore c.key c.vals).1.ctxRemovals ctx = 0 := by
      simp [tree.update, newByteTree]
    omega

/-- A walk with `ctx` never calls the visitor on a node tombstoned for `ctx`
(the walk returns exactly when `length(ctx)` is not negative), and in a
well-formed tree the label path of the node tells it from all others. -/
theorem tombstoned_never_walked {bt : tree} (hw : WF bt.root) {K : Bytes} {n : node}
    (hn : Has bt.root K n) (ctx : Int) (hctx : ctx ≠ 0) (htomb : ctx ∈ n.removedFor) :
    ∃ p, bt.root.get p = some n ∧ bt.root.labelOf p = some K
      ∧ (∀ q, bt.root.labelOf q = some K → q = p)
      ∧ ∀ (τ : Type) (fn : τ → Bytes → List sequence → Bool × τ) (st : τ),
          ((bt.walk ctx fn st).isSome = true ↔ 0 ≤ bt.length ctx)
          ∧ ∀ r, bt.walk ctx fn st = some r → ∀ v ∈ r.2.2, v.ptr ≠ p := by
  obtain ⟨p, h1, h2⟩ := hn
  refine ⟨p, h1, h2, fun q hq => labelOf_inj q p bt.root K hw hq h2, ?_⟩
  intro τ fn st
  refine ⟨walk_isSome_iff bt ctx fn st, ?_⟩
  intro r hr v hv hvp
  have hmem : p ∈ r.2.2.map Visit.ptr := hvp ▸ List.mem_map_of_mem _ hv
  have hvis := ((walk_mem bt ctx fn st r hr).2 p n h1).mp hmem
  simp only [node.visibleFor, Bool.and_eq_true, Bool.not_eq_true'] at hvis
  have := (wasRemovedFor_iff n ctx hctx).mpr htomb
  rw [this] at hvis
  exact absurd hvis.2 (by simp)

theorem remove_zero (bt : tree) (K : Bytes) : (bt.remove 0 K).1 = bt := by
  unfold tree.remove
  cases removeNode bt.root K with
  | none => rfl
  | some p =>
    simp only
    cases bt.root.get p with
    | none => rfl
    | some target =>
      simp only [wasRemovedFor_zero, doRemoveFor_zero]
      rfl

/-- What `remove` does when its search ends on a node. -/
theorem remove_found (bt : tree) (ctx : Int) (K : Bytes) (p : Path) (n : node)
    (hw : WF bt.root) (hp : p ≠ []) (hl : bt.root.labelOf p = some K)
    (hn : bt.root.get p = some n) :
    bt.remove ctx K
      = if n.wasRemovedFor ctx then (bt, []) else (bt.doRemoveFor p ctx, n.data) := by
  unfold tree.remove
  rw [removeNode_complete p bt.root K hw hp hl]
  simp only [hn]

theorem length_doRemoveFor (bt : tree) (p : Path) (ctx : Int) (hctx : ctx ≠ 0) :
    (bt.doRemoveFor p ctx).length ctx = bt.length ctx - 1 := by
  simp only [tree.doRemoveFor, hctx, if_false, tree.length, if_true]
  ring

/-- C1, at a concrete input: after inserting `"a"` with the sample codec,
`bytes()` is the weight of the tree. -/
theorem bytes_is_labels_plus_data_witness :
    (∀ c ∈ [sampleCall [97]], c.key ≠ [])
    ∧ (applyUpdates sampleCodec [sampleCall [97]] newByteTree).bytes
        = (applyUpdates sampleCodec [sampleCall [97]] newByteTree).root.weight :=
  ⟨by decide, (bytes_is_labels_plus_data sampleCodec [sampleCall [97]] (by decide)).1⟩

/-- C2 fails on the code: the three distinct non-empty keys `"abc"`, `"abd"`,
`"ab"` inserted in that order into an empty tree (table with one field) give
`length(0) = 2`, not 3: the third key lands on the inner node made by the
split, and `doUpdate` reports no new node. -/
theorem length_misses_key_on_inner_node :
    ([[97, 98, 99], [97, 98, 100], [97, 98]] : List Bytes).Nodup
    ∧ (∀ k ∈ ([[97, 98, 99], [97, 98, 100], [97, 98]] : List Bytes), k ≠ [])
    ∧ (insertKeys [[97, 98, 99], [97, 98, 100], [97, 98]]).length 0 = 2
    ∧ visibleCount (insertKeys [[97, 98, 99], [97, 98, 100], [97, 98]]).root 0 = 3 := by
  decide

/-- C3 fails on the code: after inserting `"apple"` and then `"app"`, a walk
with `ctx = 0` calls the visitor on the node of `"app"` with an empty key
(`split` leaves the key of the new inner node unset) and never with the key
`"app"`. -/
theorem walk_misses_key_of_split_node :
    ((insertKeys [[97, 112, 112, 108, 101], [97, 112, 112]]).walk 0 keepAll ()).map
        (fun r => r.2.2.map Visit.key)
      = some [[], [97, 112, 112, 108, 101]] := by
  decide

/-- C4 fails on the code: after inserting `"abc"`, `"abd"`, `"ab"` the tree
has three data-holding nodes and `length(0) = 2`; and after inserting `"abc"`,
`"abd"` and calling `remove(7, "ab")`, `length(7) = 1` while two data-holding
nodes are not tombstoned for 7. -/
theorem length_differs_from_visible_nodes :
    (insertKeys [[97, 98, 99], [97, 98, 100], [97, 98]]).length 0 = 2
    ∧ visibleCount (insertKeys [[97, 98, 99], [97, 98, 100], [97, 98]]).root 0 = 3
    ∧ ((insertKeys [[97, 98, 99], [97, 98, 100]]).remove 7 [97, 98]).1.length 7 = 1
    ∧ visibleCount ((insertKeys [[97, 98, 99], [97, 98, 100]]).remove 7 [97, 98]).1.root 7 = 2 := by
  decide

/-- The loop of a walk: a walk whose queue `make` gives, `length(ctx)` being
not negative, returns; it calls the visitor, in breadth-first order
(`levelOrder`: the root, then level by level, children in edge order),
exactly on the nodes reachable from the root that hold data and are not
tombstoned for `ctx` (the walk changes the tombstones of a node only after
it has dequeued it, so the test is the one on the tree at the start), once
each, with the key and data of the node; `levelOrder` lists every reachable
node once, depth by depth and in lexicographic order of the edge indices
within a depth; on an empty tree the visitor is never called. -/
theorem walk_visits_breadth_first {σ : Type} (bt : tree) (ctx : Int)
    (fn : σ → Bytes → List sequence → Bool × σ) (st : σ) (hlen : 0 ≤ bt.length ctx) :
    ∃ r, bt.walk ctx fn st = some r
      ∧ r.2.2.map Visit.ptr = (levelOrder bt.root).filter (fun p => bt.root.visibleAt ctx p)
      ∧ (r.2.2.map Visit.ptr).Nodup
      ∧ (∀ v ∈ r.2.2, ∃ n, bt.root.get v.ptr = some n ∧ v.key = n.key ∧ v.data = n.data)
      ∧ (levelOrder bt.root).Nodup
      ∧ (∀ p, p ∈ levelOrder bt.root ↔ (bt.root.get p).isSome)
      ∧ levelOrder bt.root = (List.range bt.root.size).flatMap (fun k => node.level k bt.root)
      ∧ (newByteTree.walk ctx fn st).map (fun x => x.2.2) = some [] := by
  refine ⟨_, walk_eq bt ctx fn st hlen, ?_, ?_, ?_, levelOrder_nodup _, mem_levelOrder _, ?_, ?_⟩
  · rw [visitAll_ptrs ctx fn _ bt st [] (levelOrder_nodup bt.root)]
    rfl
  · exact (walk_mem bt ctx fn st _ (walk_eq bt ctx fn st hlen)).1
  · obtain ⟨new, h1, h2⟩ := visitAll_args ctx fn (levelOrder bt.root) bt st []
    rw [h1]
    simpa using h2
  · have e : levelOrder bt.root = bfsLevels bt.root bt.root.size (node.level 0 bt.root) := rfl
    rw [e, bfsLevels_level]
    simp
  · rw [walk_eq newByteTree ctx fn st (by simp [tree.length, newByteTree])]
    rfl

/-- The loop of a walk at a concrete input: with `"abc"` and `"abd"` inserted
`length(7)` is 2 and a walk with ctx 7 calls the visitor on the node of
`"abc"` and then on the node of `"abd"`. -/
theorem walk_visits_breadth_first_sample :
    0 ≤ (insertKeys [[97, 98, 99], [97, 98, 100]]).length 7
    ∧ ((insertKeys [[97, 98, 99], [97, 98, 100]]).walk 7 keepAll ()).map
        (fun r => r.2.2.map Visit.ptr) = some [[0, 0], [0, 1]] := by
  obtain ⟨r, h1, h2, _⟩ := walk_visits_breadth_first (insertKeys [[97, 98, 99], [97, 98, 100]])
    7 keepAll () (by decide)
  refine ⟨by decide, ?_⟩
  rw [h1, Option.map_some', h2]
  decide

/-- C7 fails on the code: after inserting `"abc"` and `"abd"` the node at
`"ab"` holds no data; `remove(7, "ab")` returns absent, yet it appends 7 to
the tombstone list of that node and `length(7)` drops from 2 to 1. -/
theorem remove_tombstones_node_without_data :
    ((insertKeys [[97, 98, 99], [97, 98, 100]]).root.get [0]).map node.data = some []
    ∧ (insertKeys [[97, 98, 99], [97, 98, 100]]).root.labelOf [0] = some [97, 98]
    ∧ ((insertKeys [[97, 98, 99], [97, 98, 100]]).remove 7 [97, 98]).2 = []
    ∧ ((insertKeys [[97, 98, 99], [97, 98, 100]]).root.get [0]).map node.removedFor = some []
    ∧ (((insertKeys [[97, 98, 99], [97, 98, 100]]).remove 7 [97, 98]).1.root.get [0]).map
        node.removedFor = some [7]
    ∧ (insertKeys [[97, 98, 99], [97, 98, 100]]).length 7 = 2
    ∧ ((insertKeys [[97, 98, 99], [97, 98, 100]]).remove 7 [97, 98]).1.length 7 = 1 := by
  decide

/-- C9: for every tree and key, `remove(0, K)` leaves the tree as it is, and
so does a walk with `ctx = 0` whatever the visitor returns (the walk returns
when `length(0)` is not negative, as it is in every state reached from the
empty tree by `update`, `remove` and `walk`); `remove(0, K)` returns the data of the node whose label path is
`K` (in a well-formed tree, for a node below the root), and a repeated call
returns the same. -/
theorem ctx_zero_changes_nothing {σ : Type} (bt : tree) (K : Bytes)
    (fn : σ → Bytes → List sequence → Bool × σ) (st : σ) :
    (bt.remove 0 K).1 = bt
    ∧ (0 ≤ bt.length 0 → ∃ st' log, bt.walk 0 fn st = some (bt, st', log))
    ∧ (∀ (P F : Type) (upd : Codec P F), ReachableAny upd bt →
        ∃ st' log, bt.walk 0 fn st = some (bt, st', log))
    ∧ (∀ p n, WF bt.root → p ≠ [] → bt.root.labelOf p = some K → bt.root.get p = some n →
        (bt.remove 0 K).2 = n.data)
    ∧ ((bt.remove 0 K).1.remove 0 K).2 = (bt.remove 0 K).2 := by
  have hwalk : 0 ≤ bt.length 0 → ∃ st' log, bt.walk 0 fn st = some (bt, st', log) := by
    intro hlen
    refine ⟨(visitAll 0 fn bt (levelOrder bt.root) st []).2.1,
      (visitAll 0 fn bt (levelOrder bt.root) st []).2.2, ?_⟩
    rw [walk_eq bt 0 fn st hlen]
    congr 1
    have := visitAll_zero fn (levelOrder bt.root) bt st []
    exact Prod.ext this rfl
  refine ⟨remove_zero bt K, hwalk, ?_, ?_, by rw [remove_zero]⟩
  · intro P F upd hreach
    exact hwalk (length_le_of_CountsOK (ReachableAny_CountsOK upd hreach) 0).1
  · intro p n hw hp hl hn
    rw [remove_found bt 0 K p n hw hp hl hn, wasRemovedFor_zero]
    rfl

/-- C9, at a concrete input: with `"abc"` and `"abd"` inserted, `remove(0,
"abc")` returns the data of the node of `"abc"` and the tree is unchanged. -/
theorem ctx_zero_changes_nothing_witness :
    ((insertKeys [[97, 98, 99], [97, 98, 100]]).remove 0 [97, 98, 99]).2 = [[1]]
    ∧ ((insertKeys [[97, 98, 99], [97, 98, 100]]).remove 0 [97, 98, 99]).1
        = insertKeys [[97, 98, 99], [97, 98, 100]] :=
  ⟨by decide,
    (ctx_zero_changes_nothing (insertKeys [[97, 98, 99], [97, 98, 100]]) [97, 98, 99]
      keepAll ()).1⟩

/-- C10 fails on the code: after inserting `"apple"` and then `"app"`, the
node at label path `"app"` holds data and its stored key is empty, and no
node of the tree has the stored key `"app"`. -/
theorem split_node_has_no_stored_key :
    (insertKeys [[97, 112, 112, 108, 101], [97, 112, 112]]).root.labelOf [0]
        = some [97, 112, 112]
    ∧ ((insertKeys [[97, 112, 112, 108, 101], [97, 112, 112]]).root.get [0]).map
        (fun n => (n.key, n.data)) = some ([], [[1]])
    ∧ ∀ p ∈ levelOrder (insertKeys [[97, 112, 112, 108, 101], [97, 112, 112]]).root,
        ((insertKeys [[97, 112, 112, 108, 101], [97, 112, 112]]).root.get p).map node.key
          ≠ some [97, 112, 112] := by
  decide

/-- C5 as stated fails: with `"x"` inserted, a walk with ctx 43 and then a
walk with ctx 42 both get `keep = false` for the node of `"x"`; a later walk
with the different ctx 43 does not visit that node. -/
theorem other_ctx_may_be_tombstoned_too :
    ((insertKeys [[120]]).walk 43 keepNone ()).bind (fun r1 =>
      (r1.1.walk 42 keepNone ()).bind (fun r2 =>
        (r2.1.walk 43 keepAll ()).map (fun r3 =>
          (r2.2.2.map (fun v => (v.ptr, v.keep)), r3.2.2.map Visit.ptr))))
      = some ([([0], false)], []) := by
  decide

/-- C5, amended: in every tree reached from the empty tree, when a walk with
`ctx ≠ 0` gets `keep = false` for a node, then after any further updates
(non-empty keys), removes and walks the node is still in the tree, at the
same label path and holding data; a walk returns exactly when its
`length(ctx)` is not negative, which it is for `ctx = 0`; a walk with the
same `ctx` leaves the node out, a walk with `ctx = 0` visits it, and a walk
with another context `c` that returns visits it exactly when it is not
tombstoned for `c` itself; no walk visits it twice. With `"x"` inserted and a walk with ctx 42 returning false:
`length(42) = 0`, `length(0) = 1`, a second walk with ctx 42 visits nothing
and a walk with ctx 0 visits `"x"`. -/
theorem tombstone_hides_node_for_its_ctx_only {P F σ : Type} (upd : Codec P F) (bt : tree)
    (hreach : Reachable upd bt) (ctx : Int) (hctx : ctx ≠ 0)
    (fn : σ → Bytes → List sequence → Bool × σ) (st : σ) (r : tree × σ × List Visit)
    (hwalk : bt.walk ctx fn st = some r) (v : Visit) (hv : v ∈ r.2.2) (hkeep : v.keep = false)
    (bt2 : tree) (hsteps : Steps upd r.1 bt2) :
    (∃ K p n, bt.root.labelOf v.ptr = some K
      ∧ bt2.root.get p = some n ∧ bt2.root.labelOf p = some K ∧ n.data ≠ []
      ∧ (∀ q, bt2.root.labelOf q = some K → q = p)
      ∧ (∀ (τ : Type) (fn2 : τ → Bytes → List sequence → Bool × τ) (st2 : τ),
          ((bt2.walk ctx fn2 st2).isSome = true ↔ 0 ≤ bt2.length ctx)
          ∧ ∀ r2, bt2.walk ctx fn2 st2 = some r2 → ∀ w ∈ r2.2.2, w.ptr ≠ p)
      ∧ (∀ (τ : Type) (c : Int) (fn2 : τ → Bytes → List sequence → Bool × τ) (st2 : τ),
          ((bt2.walk c fn2 st2).isSome = true ↔ 0 ≤ bt2.length c)
          ∧ (c = 0 → (bt2.walk c fn2 st2).isSome = true)
          ∧ ∀ r2, bt2.walk c fn2 st2 = some r2 →
            (r2.2.2.map Visit.ptr).Nodup
            ∧ (p ∈ r2.2.2.map Visit.ptr ↔ (c = 0 ∨ c ∉ n.removedFor))))
    ∧ ((insertKeys [[120]]).walk 42 keepNone ()).map (fun r1 => r1.1.length 42) = some 0
    ∧ ((insertKeys [[120]]).walk 42 keepNone ()).map (fun r1 => r1.1.length 0) = some 1
    ∧ ((insertKeys [[120]]).walk 42 keepNone ()).bind (fun r1 =>
        (r1.1.walk 42 keepAll ()).map (fun r2 => r2.2.2.map Visit.key)) = some []
    ∧ ((insertKeys [[120]]).walk 42 keepNone ()).bind (fun r1 =>
        (r1.1.walk 0 keepAll ()).map (fun r2 => r2.2.2.map Visit.key)) = some [[120]] := by
  refine ⟨?_, by decide⟩
  have hw : WF bt.root := Reachable_WF upd hreach
  have hw1 : WF r.1.root := WF_of_Ext (Ext_walk bt ctx fn st r hwalk) hw
  have hw2 : WF bt2.root := Steps_WF upd hsteps hw1
  -- the node the visitor was called on, before and after the walk
  obtain ⟨_, rfl⟩ := walk_eq_of_some bt ctx fn st r hwalk
  obtain ⟨new, e1, e2⟩ := visitAll_args ctx fn (levelOrder bt.root) bt st []
  have hv' : v ∈ new := by
    rw [e1] at hv
    simpa using hv
  obtain ⟨n0, g1, _, _⟩ := e2 v hv'
  have hvis : n0.visibleFor ctx = true :=
    ((walk_mem bt ctx fn st _ hwalk).2 v.ptr n0 g1).mp (List.mem_map_of_mem _ hv)
  have hdata : n0.data ≠ [] := by
    simp only [node.visibleFor, Bool.and_eq_true, decide_eq_true_eq] at hvis
    exact hvis.1
  obtain ⟨K, hK⟩ := Option.isSome_iff_exists.mp
    (by rw [labelOf_isSome, g1]; rfl : (bt.root.labelOf v.ptr).isSome)
  rcases visitAll_tomb ctx hctx fn (levelOrder bt.root) bt st [] v hv with h | h
  · simp at h
  obtain ⟨n1, k1, k2⟩ := h hkeep
  have hext := Ext_visitAll ctx fn (levelOrder bt.root) bt st []
  obtain ⟨n1', k3, k4⟩ := (hext v.ptr).1 n0 g1
  rw [k1] at k3
  cases k3
  have hHas1 : Has (visitAll ctx fn bt (levelOrder bt.root) st []).1.root K n1 :=
    ⟨v.ptr, k1, by rw [labelOf_of_Ext hext]; exact hK⟩
  -- the node after the further operations
  obtain ⟨n, hn, hstay⟩ := Steps_has upd hsteps hHas1
  have hd2 : n.data ≠ [] := hstay.1 (by rw [k4.2.1]; exact hdata)
  obtain ⟨p, q1, q2, q3, q4⟩ := tombstoned_never_walked hw2 hn ctx hctx (hstay.2 ctx k2)
  refine ⟨K, p, n, hK, q1, q2, hd2, q3, q4, ?_⟩
  intro τ c fn2 st2
  have hreach2 : Reachable upd bt2 :=
    Relation.ReflTransGen.trans
      (Relation.ReflTransGen.tail hreach (Step.walk bt ctx fn st _ hwalk)) hsteps
  have hcounts := ReachableAny_CountsOK upd (ReachableAny_of_Reachable upd hreach2)
  refine ⟨walk_isSome_iff bt2 c fn2 st2, ?_, ?_⟩
  · rintro rfl
    exact (walk_isSome_iff bt2 0 fn2 st2).mpr (length_le_of_CountsOK hcounts 0).1
  intro r2 hr2
  obtain ⟨m1, m2⟩ := walk_mem bt2 c fn2 st2 r2 hr2
  refine ⟨m1, ?_⟩
  rw [m2 p n q1]
  simp only [node.visibleFor, Bool.and_eq_true, decide_eq_true_eq, Bool.not_eq_true']
  by_cases hc : c = 0
  · subst hc
    simp [wasRemovedFor_zero, hd2]
  · have := wasRemovedFor_iff n c hc
    constructor
    · rintro ⟨_, h2⟩
      right
      intro hmem
      rw [this.mpr hmem] at h2
      cases h2
    · rintro (h1 | h1)
      · exact absurd h1 hc
      · refine ⟨hd2, ?_⟩
        cases hwr : n.wasRemovedFor c with
        | false => rfl
        | true => exact absurd (this.mp hwr) h1

/-- C8: in a tree built by updates with non-empty keys, for an inserted key
`K` and `ctx ≠ 0`, `remove(ctx, K)` returns the data of the node at label
path `K`, makes `length(ctx)` one less and leaves it not negative, so that
a walk with `ctx` right after it returns; after it (and any further updates,
removes and walks) no walk with the same `ctx` calls the visitor on the node
at label path `K`, and such a walk returns exactly when `length(ctx)` is not
negative. -/
theorem removed_key_is_not_walked {P F : Type} (upd : Codec P F)
    (calls : List (UpdateCall P F)) (hkeys : ∀ c ∈ calls, c.key ≠ []) (K : Bytes)
    (hK : K ∈ calls.map (fun c => c.key)) (ctx : Int) (hctx : ctx ≠ 0) (bt2 : tree)
    (hsteps : Steps upd ((applyUpdates upd calls newByteTree).remove ctx K).1 bt2) :
    ((applyUpdates upd calls newByteTree).remove ctx K).1.length ctx
        = (applyUpdates upd calls newByteTree).length ctx - 1
    ∧ 0 ≤ ((applyUpdates upd calls newByteTree).remove ctx K).1.length ctx
    ∧ (∃ p n, (applyUpdates upd calls newByteTree).root.get p = some n
        ∧ (applyUpdates upd calls newByteTree).root.labelOf p = some K
        ∧ ((applyUpdates upd calls newByteTree).remove ctx K).2 = n.data)
    ∧ ∃ p2, bt2.root.labelOf p2 = some K
        ∧ (∀ q, bt2.root.labelOf q = some K → q = p2)
        ∧ ∀ (τ : Type) (fn : τ → Bytes → List sequence → Bool × τ) (st : τ),
            ((bt2.walk ctx fn st).isSome = true ↔ 0 ≤ bt2.length ctx)
            ∧ ∀ r, bt2.walk ctx fn st = some r → ∀ v ∈ r.2.2, v.ptr ≠ p2 := by
  have hw := applyUpdates_WF upd calls hkeys
  obtain ⟨n, p, h1, h2⟩ := applyUpdates_has upd calls K hK
  have hKne : K ≠ [] := by
    obtain ⟨c, hc, rfl⟩ := List.mem_map.mp hK
    exact hkeys c hc
  have hp : p ≠ [] := by
    rintro rfl
    rw [labelOf_nil] at h2
    cases h2
    exact hKne rfl
  have hnot : n.wasRemovedFor ctx = false := by
    cases hwr : n.wasRemovedFor ctx with
    | false => rfl
    | true =>
      have := get_tombs p _ n h1 ctx ((wasRemovedFor_iff n ctx hctx).mp hwr)
      rw [applyUpdates_tombs] at this
      cases this
  have hrem := remove_found (applyUpdates upd calls newByteTree) ctx K p n hw hp h2 h1
  rw [hnot] at hrem
  simp only [Bool.false_eq_true, if_false] at hrem
  rw [hrem] at hsteps ⊢
  have hpos := applyUpdates_length_pos upd calls
    (by rintro rfl; simp at hK : calls ≠ []) ctx
  have hlen := length_doRemoveFor (applyUpdates upd calls newByteTree) p ctx hctx
  have hnonneg : 0 ≤ ((applyUpdates upd calls newByteTree).doRemoveFor p ctx).length ctx := by
    omega
  refine ⟨hlen, hnonneg, ⟨p, n, h1, h2, rfl⟩, ?_⟩
  obtain ⟨n1, k1, k2⟩ := get_doRemoveFor_self _ p ctx hctx n h1
  have hext := Ext_doRemoveFor (applyUpdates upd calls newByteTree) p ctx
  have hHas1 : Has ((applyUpdates upd calls newByteTree).doRemoveFor p ctx).root K n1 :=
    ⟨p, k1, by rw [labelOf_of_Ext hext]; exact h2⟩
  obtain ⟨n2, hn2, hstay⟩ := Steps_has upd hsteps hHas1
  have hw2 : WF bt2.root := Steps_WF upd hsteps (WF_of_Ext hext hw)
  obtain ⟨p2, _, q2, q3, q4⟩ := tombstoned_never_walked hw2 hn2 ctx hctx (hstay.2 ctx k2)
  exact ⟨p2, q2, q3, q4⟩

/-- C5 (amended), at a concrete input: `"x"` is inserted, a walk with ctx 42
gets `keep = false` for its node, and no further operation follows: the node
is still there, holding data, under the label path it had. -/
theorem tombstone_hides_node_for_its_ctx_only_witness :
    Reachable sampleCodec (insertKeys [[120]])
    ∧ (⟨[0], [120], [[1]], false⟩ : Visit)
        ∈ (visitAll 42 keepNone (insertKeys [[120]]) (levelOrder (insertKeys [[120]]).root)
            () []).2.2
    ∧ ∃ K p n, (insertKeys [[120]]).root.labelOf [0] = some K
        ∧ (visitAll 42 keepNone (insertKeys [[120]]) (levelOrder (insertKeys [[120]]).root)
            () []).1.root.get p = some n
        ∧ n.data ≠ [] := by
  have hreach : Reachable sampleCodec (insertKeys [[120]]) :=
    Relation.ReflTransGen.single (Step.update newByteTree sampleTable 0 [120] () (by decide))
  have hv : (⟨[0], [120], [[1]], false⟩ : Visit)
      ∈ (visitAll 42 keepNone (insertKeys [[120]]) (levelOrder (insertKeys [[120]]).root)
          () []).2.2 := by decide
  refine ⟨hreach, hv, ?_⟩
  obtain ⟨K, p, n, h1, h2, _, h4, _⟩ :=
    (tombstone_hides_node_for_its_ctx_only sampleCodec (insertKeys [[120]]) hreach 42
      (by decide) keepNone () _ (walk_eq _ 42 keepNone () (by decide))
      ⟨[0], [120], [[1]], false⟩ hv rfl
      _ Relation.ReflTransGen.refl).1
  exact ⟨K, p, n, h1, h2, h4⟩

/-- C8, at a concrete input: with `"x"` inserted, `remove(42, "x")` makes
`length(42)` one less. -/
theorem removed_key_is_not_walked_witness :
    (∀ c ∈ [sampleCall [120]], c.key ≠ [])
    ∧ ((applyUpdates sampleCodec [sampleCall [120]] newByteTree).remove 42 [120]).1.length 42
        = (applyUpdates sampleCodec [sampleCall [120]] newByteTree).length 42 - 1 :=
  ⟨by decide,
    (removed_key_is_not_walked sampleCodec [sampleCall [120]] (by decide) [120] (by decide) 42
      (by decide) _ Relation.ReflTransGen.refl).1⟩

/-- C16: in every tree built from the empty tree by `update` calls with
non-empty keys, at every node every edge label is non-empty, the first bytes
of the labels are pairwise distinct, and so no two edges of a node share a
non-empty prefix. -/
theorem siblings_share_no_first_byte {P F : Type} (upd : Codec P F)
    (calls : List (UpdateCall P F)) (hkeys : ∀ c ∈ calls, c.key ≠ []) :
    ∀ p n, (applyUpdates upd calls newByteTree).root.get p = some n →
      (∀ e ∈ n.edges, e.label ≠ [])
      ∧ n.edges.Pairwise (fun a b => a.label.head? ≠ b.label.head?)
      ∧ n.edges.Pairwise (fun a b =>
          ∀ s : Bytes, s ≠ [] → ¬(s <+: a.label ∧ s <+: b.label)) := by
  intro p n hn
  obtain ⟨h1, h2⟩ := applyUpdates_WF upd calls hkeys p n hn
  have hp : n.edges.Pairwise (fun a b => a.label.head? ≠ b.label.head?) := by
    rw [List.map_map] at h2
    exact (List.pairwise_map.mp h2)
  refine ⟨fun e he => h1 _ (List.mem_map_of_mem _ he), hp, ?_⟩
  apply hp.imp
  intro a b hab s hs
  rintro ⟨⟨u, hu⟩, ⟨w, hw⟩⟩
  apply hab
  rw [← hu, ← hw, head?_append_of_ne_nil hs, head?_append_of_ne_nil hs]

/-- C16, at a concrete input: after `"abc"`, `"abd"` the edges of the inner
node have non-empty labels. -/
theorem siblings_share_no_first_byte_witness :
    (∀ c ∈ [sampleCall [97, 98, 99], sampleCall [97, 98, 100]], c.key ≠ [])
    ∧ ∀ e ∈ (node.mk [] [edge.mk [99] (node.mk [97, 98, 99] [] [[1]] []),
          edge.mk [100] (node.mk [97, 98, 100] [] [[1]] [])] [] []).edges, e.label ≠ [] :=
  ⟨by decide,
    (siblings_share_no_first_byte sampleCodec
      [sampleCall [97, 98, 99], sampleCall [97, 98, 100]] (by decide) [0] _ (by rfl)).1⟩

/-- C17 as stated fails: after `"apple"`, `"app"`, `"apricot"` the node under
the root edge `"ap"` holds no data, and its edges are labelled `"p"` and
`"ricot"`, not `"ple"` and `"ricot"`. -/
theorem apple_app_apricot_inner_node_is_empty :
    (insertKeys [[97, 112, 112, 108, 101], [97, 112, 112],
        [97, 112, 114, 105, 99, 111, 116]]).root.edges.map edge.label = [[97, 112]]
    ∧ ((insertKeys [[97, 112, 112, 108, 101], [97, 112, 112],
        [97, 112, 114, 105, 99, 111, 116]]).root.get [0]).map node.data = some []
    ∧ ((insertKeys [[97, 112, 112, 108, 101], [97, 112, 112],
        [97, 112, 114, 105, 99, 111, 116]]).root.get [0]).map
          (fun n => n.edges.map edge.label)
        ≠ some [[112, 108, 101], [114, 105, 99, 111, 116]] := by
  decide

/-- C17, amended: after `"apple"`, `"app"`, `"apricot"` the root has one edge,
labelled `"ap"`, to an inner node without data whose edges are `"p"` and
`"ricot"`; `"p"` leads to the node that holds the data of `"app"`, whose one
edge `"le"` leads to the terminal node of `"apple"`; `"ricot"` leads to the
terminal node of `"apricot"`; `length(0) = 3`. -/
theorem apple_app_apricot_tree :
    (insertKeys [[97, 112, 112, 108, 101], [97, 112, 112],
        [97, 112, 114, 105, 99, 111, 116]]).root.edges.map edge.label = [[97, 112]]
    ∧ ((insertKeys [[97, 112, 112, 108, 101], [97, 112, 112],
        [97, 112, 114, 105, 99, 111, 116]]).root.get [0]).map
          (fun n => (n.data, n.edges.map edge.label))
        = some ([], [[112], [114, 105, 99, 111, 116]])
    ∧ ((insertKeys [[97, 112, 112, 108, 101], [97, 112, 112],
        [97, 112, 114, 105, 99, 111, 116]]).root.get [0, 0]).map
          (fun n => (n.data, n.edges.map edge.label))
        = some ([[1]], [[108, 101]])
    ∧ ((insertKeys [[97, 112, 112, 108, 101], [97, 112, 112],
        [97, 112, 114, 105, 99, 111, 116]]).root.get [0, 0, 0]).map
          (fun n => (n.key, n.data, n.edges.map edge.label))
        = some ([97, 112, 112, 108, 101], [[1]], [])
    ∧ ((insertKeys [[97, 112, 112, 108, 101], [97, 112, 112],
        [97, 112, 114, 105, 99, 111, 116]]).root.get [0, 1]).map
          (fun n => (n.key, n.data, n.edges.map edge.label))
        = some ([97, 112, 114, 105, 99, 111, 116], [[1]], [])
    ∧ (insertKeys [[97, 112, 112, 108, 101], [97, 112, 112],
        [97, 112, 114, 105, 99, 111, 116]]).length 0 = 3 := by
  decide

theorem commonLen_append_append : ∀ (P a b : Bytes), a.head? ≠ b.head? →
    commonLen (P ++ a) (P ++ b) = P.length
  | [], a, b, h => by simpa using commonLen_of_head_ne a b h
  | x :: P, a, b, h => by
    simp [commonLen, commonLen_append_append P a b h]

/-- C18: for a non-empty `P` and non-empty `a`, `b` that start with different
bytes, inserting `P ++ a` and then `P ++ b` into an empty tree (tables with at
least one field) gives a root with exactly one edge, labelled `P`, to a node
without data (and without stored key) whose edges are, in order, `a` to a
terminal node with stored key `P ++ a` and `b` to a terminal node with stored
key `P ++ b`, both holding data; `length(0) = 2`. -/
theorem two_keys_with_common_prefix {P F : Type} (upd : Codec P F) (p a b : Bytes)
    (c1 c2 : UpdateCall P F) (hp : p ≠ []) (ha : a ≠ []) (hb : b ≠ [])
    (hab : a.head? ≠ b.head?) (h1 : c1.key = p ++ a) (h2 : c2.key = p ++ b)
    (hf1 : c1.t.Fields ≠ []) (hf2 : c2.t.Fields ≠ []) :
    ∃ dA dB, dA ≠ [] ∧ dB ≠ []
      ∧ (applyUpdates upd [c1, c2] newByteTree).root
          = node.mk [] [edge.mk p (node.mk []
              [edge.mk a (node.mk (p ++ a) [] dA []), edge.mk b (node.mk (p ++ b) [] dB [])]
              [] [])] [] []
      ∧ (applyUpdates upd [c1, c2] newByteTree).length 0 = 2 := by
  obtain ⟨dA, hdA, hA⟩ := node_doUpdate_fst upd c1.t c1.truncateBefore c1.vals
    (node.mk (p ++ a) [] [] [])
  obtain ⟨dB, hdB, hB⟩ := node_doUpdate_fst upd c2.t c2.truncateBefore c2.vals
    (node.mk (p ++ b) [] [] [])
  simp only [node_key_mk, node_edges_mk, node_removedFor_mk] at hdA hdB
  have hcl := commonLen_append_append p a b hab
  have hpl : 0 < p.length := List.length_pos.mpr hp
  have hal : 0 < a.length := List.length_pos.mpr ha
  have hbl : 0 < b.length := List.length_pos.mpr hb
  -- the first update appends an edge to the root
  have e1 : doUpdateNode upd c1.t c1.truncateBefore (p ++ a) c1.vals (node.mk [] [] [] [])
      (p ++ a) = (node.mk [] [edge.mk (p ++ a) (node.mk (p ++ a) [] dA [])] [] [],
        (node.doUpdate upd c1.t c1.truncateBefore c1.vals (node.mk (p ++ a) [] [] [])).2
          + ((p ++ a).length : Int), true) := by
    simp only [doUpdateNode, doUpdateEdges, hdA, List.nil_append]
  -- the second update splits that edge
  have c1' : ¬(commonLen (p ++ a) (p ++ b) = (p ++ b).length
      ∧ (p ++ b).length = (p ++ a).length) := by
    rw [hcl, List.length_append]; omega
  have c2' : ¬(commonLen (p ++ a) (p ++ b) = (p ++ a).length
      ∧ (p ++ a).length < (p ++ b).length) := by
    rw [hcl, List.length_append]; omega
  have c3' : commonLen (p ++ a) (p ++ b) > 0 := by rw [hcl]; exact hpl
  have c4' : commonLen (p ++ a) (p ++ b) ≠ (p ++ b).length := by
    rw [hcl, List.length_append]; omega
  have e2 : (edge.split upd c2.t c2.truncateBefore (edge.mk (p ++ a) (node.mk (p ++ a) [] dA []))
      (commonLen (p ++ a) (p ++ b)) (p ++ b) (p ++ b) c2.vals).1
      = edge.mk p (node.mk []
          [edge.mk a (node.mk (p ++ a) [] dA []), edge.mk b (node.mk (p ++ b) [] dB [])]
          [] []) := by
    unfold edge.split
    simp only [c4', ne_eq, not_false_eq_true, if_true, edge_label_mk, edge_target_mk,
      node_edges_mk, List.singleton_append, hdB]
    rw [hcl]
    simp
  have e3 : doUpdateNode upd c2.t c2.truncateBefore (p ++ b) c2.vals
      (node.mk [] [edge.mk (p ++ a) (node.mk (p ++ a) [] dA [])] [] []) (p ++ b)
      = (node.mk [] [edge.mk p (node.mk []
          [edge.mk a (node.mk (p ++ a) [] dA []), edge.mk b (node.mk (p ++ b) [] dB [])]
          [] [])] [] [],
        (edge.split upd c2.t c2.truncateBefore (edge.mk (p ++ a) (node.mk (p ++ a) [] dA []))
          (commonLen (p ++ a) (p ++ b)) (p ++ b) (p ++ b) c2.vals).2, true) := by
    rw [doUpdateNode, doUpdateEdges]
    simp only [c1', c2', c3', if_false, if_true, e2]
  refine ⟨dA, dB, hA (Or.inr hf1), hB (Or.inr hf2), ?_, ?_⟩
  · simp only [applyUpdates, List.foldl_cons, List.foldl_nil, tree.update, tree.doUpdate,
      newByteTree, h1, h2, e1, e3]
  · simp only [applyUpdates, List.foldl_cons, List.foldl_nil, tree.update, tree.doUpdate,
      newByteTree, h1, h2, e1, e3, tree.length]
    simp

/-- C18, at a concrete input: `"abc"` then `"abd"` gives the edge `"ab"` with
the children `"c"` and `"d"`, and `length(0) = 2`. -/
theorem two_keys_with_common_prefix_witness :
    (applyUpdates sampleCodec [sampleCall [97, 98, 99], sampleCall [97, 98, 100]]
        newByteTree).length 0 = 2
    ∧ (insertKeys [[97, 98, 99], [97, 98, 100]]).root.edges.map edge.label = [[97, 98]]
    ∧ ((insertKeys [[97, 98, 99], [97, 98, 100]]).root.get [0]).map
        (fun n => (n.data, n.edges.map edge.label)) = some ([], [[99], [100]]) := by
  obtain ⟨dA, dB, _, _, _, h⟩ := two_keys_with_common_prefix sampleCodec [97, 98] [99] [100]
    (sampleCall [97, 98, 99]) (sampleCall [97, 98, 100]) (by decide) (by decide) (by decide)
    (by decide) rfl rfl (by decide) (by decide)
  exact ⟨h, by decide, by decide⟩

theorem node_tombCount_eq (c : Int) (t : node) :
    t.tombCount c = (if c ∈ t.removedFor then 1 else 0) + edgesTombCount c t.edges := by
  cases t; rfl

theorem edgesTombCount_cons (c : Int) (e : edge) (es : List edge) :
    edgesTombCount c (e :: es) = e.target.tombCount c + edgesTombCount c es := by
  cases e; rfl

theorem edgesTombCount_append (c : Int) (a b : List edge) :
    edgesTombCount c (a ++ b) = edgesTombCount c a + edgesTombCount c b := by
  induction a with
  | nil => simp [edgesTombCount]
  | cons e a ih => simp [edgesTombCount_cons, ih]; omega

theorem edgesTombCount_set (c : Int) : ∀ (es : List edge) (i : Nat) (e e' : edge),
    es[i]? = some e →
    edgesTombCount c (es.set i e') + e.target.tombCount c
      = edgesTombCount c es + e'.target.tombCount c
  | [], _, _, _, h => by simp at h
  | x :: es, 0, e, e', h => by
    simp only [List.getElem?_cons_zero, Option.some.injEq] at h
    subst h
    simp only [List.set_cons_zero, edgesTombCount_cons]
    omega
  | x :: es, i + 1, e, e', h => by
    simp only [List.getElem?_cons_succ] at h
    have := edgesTombCount_set c es i e e' h
    simp only [List.set_cons_succ, edgesTombCount_cons]
    omega

/-- A tombstone write at a node adds one to the count of its context, when
the node was not yet tombstoned for it, and changes no other count. -/
theorem tombCount_addRemoved (c ctx : Int) : ∀ (p : Path) (t n : node), t.get p = some n →
    (node.addRemoved ctx t p).tombCount c
      = t.tombCount c + (if c = ctx ∧ ctx ∉ n.removedFor then 1 else 0)
  | [], t, n, h => by
    rw [node_get_nil] at h
    cases h
    rw [addRemoved_nil, node_tombCount_eq, node_tombCount_eq]
    simp only [node_removedFor_mk, node_edges_mk, List.mem_append, List.mem_singleton]
    by_cases h1 : c ∈ t.removedFor
    · by_cases h2 : c = ctx
      · subst h2; simp [h1]
      · simp [h1, h2]
    · by_cases h2 : c = ctx
      · subst h2; simp [h1]; omega
      · simp [h1, h2]
  | i :: p, t, n, h => by
    rw [node_get_cons] at h
    rw [addRemoved_cons]
    cases he : t.edges[i]? with
    | none => rw [he] at h; cases h
    | some e =>
      rw [he] at h
      have ih := tombCount_addRemoved c ctx p e.target n h
      have hs := edgesTombCount_set c t.edges i e
        (edge.mk e.label (node.addRemoved ctx e.target p)) he
      simp only [edge_target_mk] at hs
      simp only [node_tombCount_eq c t, node_tombCount_eq c (node.mk _ _ _ _),
        node_removedFor_mk, node_edges_mk]
      omega

theorem TombsOK_iff (t : node) :
    TombsOK t ↔ (t.removedFor.Nodup ∧ (0 : Int) ∉ t.removedFor) ∧ ∀ e ∈ t.edges, TombsOK e.target := by
  constructor
  · intro h
    refine ⟨h [] t (node_get_nil t), fun e he p n hn => ?_⟩
    obtain ⟨i, hi⟩ := List.mem_iff_getElem?.mp he
    apply h (i :: p) n
    rw [node_get_cons, hi]
    exact hn
  · rintro ⟨h1, h2⟩ p n hn
    cases p with
    | nil =>
      rw [node_get_nil] at hn
      cases hn
      exact h1
    | cons i p =>
      rw [node_get_cons] at hn
      cases he : t.edges[i]? with
      | none => rw [he] at hn; cases hn
      | some e =>
        rw [he] at hn
        exact h2 e (List.getElem?_mem he) p n hn

theorem TombsOK_mk_iff (k : Bytes) (es : List edge) (d : List sequence) (r : List Int) :
    TombsOK (node.mk k es d r) ↔ (r.Nodup ∧ (0 : Int) ∉ r) ∧ ∀ e ∈ es, TombsOK e.target := by
  rw [TombsOK_iff]; rfl

theorem TombsOK_node_doUpdate {P F : Type} (upd : Codec P F) (t : table F) (tb : Int) (vals : P)
    (n : node) (h : TombsOK n) : TombsOK (node.doUpdate upd t tb vals n).1 := by
  obtain ⟨d, hd, _⟩ := node_doUpdate_fst upd t tb vals n
  rw [hd, TombsOK_mk_iff]
  exact (TombsOK_iff n).mp h

theorem TombsOK_leaf {P F : Type} (upd : Codec P F) (t : table F) (tb : Int) (vals : P)
    (fullKey : Bytes) : TombsOK (node.doUpdate upd t tb vals (node.mk fullKey [] [] [])).1 := by
  apply TombsOK_node_doUpdate
  rw [TombsOK_mk_iff]
  simp

theorem TombsOK_split {P F : Type} (upd : Codec P F) (t : table F) (tb : Int) (vals : P)
    (label : Bytes) (target : node) (i : Nat) (fullKey key : Bytes) (hw : TombsOK target) :
    TombsOK (edge.split upd t tb (edge.mk label target) i fullKey key vals).1.target := by
  unfold edge.split
  by_cases hs : i = key.length
  · simp only [hs, ne_eq, not_true_eq_false, if_false, edge_target_mk]
    apply TombsOK_node_doUpdate
    rw [TombsOK_mk_iff]
    refine ⟨by simp, fun e he => ?_⟩
    simp only [List.mem_singleton] at he
    subst he
    exact hw
  · simp only [ne_eq, hs, not_false_eq_true, if_true, edge_target_mk]
    rw [TombsOK_mk_iff]
    refine ⟨by simp, fun e he => ?_⟩
    simp only [node_edges_mk, List.singleton_append, List.mem_cons, List.mem_singleton,
      List.not_mem_nil, or_false] at he
    rcases he with rfl | rfl
    · exact hw
    · exact TombsOK_leaf upd t tb vals fullKey

mutual
theorem doUpdateNode_TombsOK {P F : Type} (upd : Codec P F) (t : table F) (tb : Int)
    (fullKey : Bytes) (vals : P) : ∀ (n : node) (key : Bytes), TombsOK n →
      TombsOK (doUpdateNode upd t tb fullKey vals n key).1
  | .mk k es d r, key, hw => by
    rw [TombsOK_mk_iff] at hw
    obtain ⟨hr, htg⟩ := hw
    have hedges := doUpdateEdges_TombsOK upd t tb fullKey vals es key htg
    rw [doUpdateNode]
    cases h : doUpdateEdges upd t tb fullKey vals es key with
    | none =>
      simp only
      rw [TombsOK_mk_iff]
      refine ⟨hr, fun e he => ?_⟩
      rcases List.mem_append.mp he with he | he
      · exact htg e he
      · simp only [List.mem_singleton] at he
        subst he
        exact TombsOK_leaf upd t tb vals fullKey
    | some res =>
      simp only
      rw [TombsOK_mk_iff]
      exact ⟨hr, hedges res h⟩
theorem doUpdateEdges_TombsOK {P F : Type} (upd : Codec P F) (t : table F) (tb : Int)
    (fullKey : Bytes) (vals : P) : ∀ (es : List edge) (key : Bytes),
      (∀ e ∈ es, TombsOK e.target) →
      ∀ res, doUpdateEdges upd t tb fullKey vals es key = some res →
        ∀ e ∈ res.1, TombsOK e.target
  | [], _, _, _, h => by simp [doUpdateEdges] at h
  | .mk label target :: rest, key, htg, res, h => by
    have ht : TombsOK target := htg (edge.mk label target) (List.mem_cons_self _ _)
    have htg' : ∀ e ∈ rest, TombsOK e.target := fun e he => htg e (List.mem_cons_of_mem _ he)
    have cons : ∀ x : edge, TombsOK x.target → ∀ e ∈ x :: rest, TombsOK e.target := by
      intro x hx e he
      rcases List.mem_cons.mp he with rfl | he
      · exact hx
      · exact htg' e he
    rw [doUpdateEdges] at h
    simp only at h
    split at h
    · cases h
      exact cons _ (TombsOK_node_doUpdate upd t tb vals target ht)
    · split at h
      · cases h
        exact cons _ (doUpdateNode_TombsOK upd t tb fullKey vals target _ ht)
      · split at h
        · cases h
          exact cons _ (TombsOK_split upd t tb vals label target _ fullKey key ht)
        · cases hr : doUpdateEdges upd t tb fullKey vals rest key with
          | none => rw [hr] at h; cases h
          | some r3 =>
            obtain ⟨rest', b, nw⟩ := r3
            rw [hr] at h
            cases h
            intro e he
            rcases List.mem_cons.mp he with rfl | he
            · exact ht
            · exact doUpdateEdges_TombsOK upd t tb fullKey vals rest key htg' _ hr e he
end

theorem node_doUpdate_tombCount {P F : Type} (upd : Codec P F) (t : table F) (tb : Int)
    (vals : P) (c : Int) (n : node) :
    (node.doUpdate upd t tb vals n).1.tombCount c = n.tombCount c := by
  obtain ⟨d, hd, _⟩ := node_doUpdate_fst upd t tb vals n
  rw [hd, node_tombCount_eq, node_tombCount_eq]
  rfl

theorem split_tombCount {P F : Type} (upd : Codec P F) (t : table F) (tb : Int) (vals : P)
    (c : Int) (label : Bytes) (target : node) (i : Nat) (fullKey key : Bytes) :
    (edge.split upd t tb (edge.mk label target) i fullKey key vals).1.target.tombCount c
      = target.tombCount c := by
  unfold edge.split
  by_cases hs : i = key.length
  · simp only [hs, ne_eq, not_true_eq_false, if_false, edge_target_mk]
    rw [node_doUpdate_tombCount]
    simp [node_tombCount_eq, edgesTombCount_cons, edgesTombCount]
  · simp only [ne_eq, hs, not_false_eq_true, if_true, edge_target_mk]
    simp [node_tombCount_eq, edgesTombCount_cons, edgesTombCount, node_doUpdate_removedFor,
      node.doUpdate]

mutual
/-- An `update` changes no count of tombstoned nodes. -/
theorem doUpdateNode_tombCount {P F : Type} (upd : Codec P F) (t : table F) (tb : Int)
    (fullKey : Bytes) (vals : P) (c : Int) : ∀ (n : node) (key : Bytes),
      (doUpdateNode upd t tb fullKey vals n key).1.tombCount c = n.tombCount c
  | .mk k es d r, key => by
    have hedges := doUpdateEdges_tombCount upd t tb fullKey vals c es key
    rw [doUpdateNode]
    cases hr : doUpdateEdges upd t tb fullKey vals es key with
    | none =>
      simp [node_tombCount_eq, edgesTombCount_append, edgesTombCount_cons, edgesTombCount,
        node_doUpdate_removedFor, node.doUpdate]
    | some res =>
      simp only [node_tombCount_eq, node_removedFor_mk, node_edges_mk, hedges res hr]
theorem doUpdateEdges_tombCount {P F : Type} (upd : Codec P F) (t : table F) (tb : Int)
    (fullKey : Bytes) (vals : P) (c : Int) : ∀ (es : List edge) (key : Bytes)
      (res : List edge × Int × Bool), doUpdateEdges upd t tb fullKey vals es key = some res →
      edgesTombCount c res.1 = edgesTombCount c es
  | [], _, _, h => by simp [doUpdateEdges] at h
  | .mk label target :: rest, key, res, h => by
    rw [doUpdateEdges] at h
    simp only at h
    split at h
    · cases h
      simp only [edgesTombCount_cons, edge_target_mk, node_doUpdate_tombCount]
    · split at h
      · cases h
        simp only [edgesTombCount_cons, edge_target_mk,
          doUpdateNode_tombCount upd t tb fullKey vals c target (key.drop label.length)]
      · split at h
        · cases h
          simp only [edgesTombCount_cons, edge_target_mk, split_tombCount]
        · cases hr : doUpdateEdges upd t tb fullKey vals rest key with
          | none => rw [hr] at h; cases h
          | some r3 =>
            obtain ⟨rest', b, nw⟩ := r3
            rw [hr] at h
            cases h
            simp only [edgesTombCount_cons, edge_target_mk,
              doUpdateEdges_tombCount upd t tb fullKey vals c rest key _ hr]
end

theorem TombsCounted_new : TombsCounted newByteTree := by
  refine ⟨?_, fun ctx _ => ?_⟩
  · simp only [newByteTree]
    rw [TombsOK_mk_iff]
    simp
  · simp [newByteTree, node_tombCount_eq, edgesTombCount]

theorem TombsCounted_update {P F : Type} (upd : Codec P F) (bt : tree) (t : table F) (tb : Int)
    (key : Bytes) (vals : P) (h : TombsCounted bt) :
    TombsCounted (bt.update upd t tb key vals).1 := by
  refine ⟨doUpdateNode_TombsOK upd t tb key vals bt.root key h.1, fun ctx hctx => ?_⟩
  simp only [tree.update, tree.doUpdate]
  rw [doUpdateNode_tombCount]
  exact h.2 ctx hctx

/-- A tombstone write keeps the invariant when the node was not yet
tombstoned for the context, which `walk` and `remove` test before. -/
theorem TombsCounted_doRemoveFor (bt : tree) (p : Path) (c : Int) (n : node)
    (hn : bt.root.get p = some n) (hnot : n.wasRemovedFor c = false) (h : TombsCounted bt) :
    TombsCounted (bt.doRemoveFor p c) := by
  unfold tree.doRemoveFor
  by_cases hc : c = 0
  · simp only [hc, if_true]
    exact h
  · simp only [hc, if_false]
    have hmem : c ∉ n.removedFor := by
      intro hm
      rw [(wasRemovedFor_iff n c hc).mpr hm] at hnot
      cases hnot
    refine ⟨?_, fun ctx hctx => ?_⟩
    · intro q m hm
      simp only at hm
      obtain ⟨h1, h2⟩ := get_addRemoved c q bt.root p
      cases hg : bt.root.get q with
      | none => rw [h1 hg] at hm; cases hm
      | some m0 =>
        obtain ⟨m', g1, _, _, _, g5, g6⟩ := h2 m0 hg
        rw [g1] at hm
        cases hm
        by_cases hqp : q = p
        · subst hqp
          rw [hn] at hg
          cases hg
          rw [g6 rfl]
          obtain ⟨k1, k2⟩ := h.1 q n hn
          refine ⟨List.Nodup.append k1 (by simp) ?_, ?_⟩
          · intro x hx1 hx2
            simp only [List.mem_singleton] at hx2
            subst hx2
            exact hmem hx1
          · simp only [List.mem_append, List.mem_singleton, not_or]
            exact ⟨k2, fun h0 => hc h0.symm⟩
        · rw [g5 hqp]
          exact h.1 q m0 hg
    · simp only
      rw [tombCount_addRemoved ctx c p bt.root n hn]
      have := h.2 ctx hctx
      by_cases hcc : ctx = c
      · subst hcc
        simp [hmem, this]
      · simp [hcc, this]

theorem TombsCounted_walkVisit {σ : Type} (ctx : Int) (fn : σ → Bytes → List sequence → Bool × σ)
    (bt : tree) (p : Path) (n : node) (st : σ) (log : List Visit)
    (hn : bt.root.get p = some n) (h : TombsCounted bt) :
    TombsCounted (walkVisit ctx fn bt p n st log).1 := by
  rw [walkVisit_eq]
  by_cases hv : n.visibleFor ctx = true
  · simp only [hv, if_true]
    split
    · exact h
    · apply TombsCounted_doRemoveFor bt p ctx n hn _ h
      simp only [node.visibleFor, Bool.and_eq_true, Bool.not_eq_true'] at hv
      exact hv.2
  · simp only [hv]
    exact h

theorem TombsCounted_visitAll {σ : Type} (ctx : Int) (fn : σ → Bytes → List sequence → Bool × σ) :
    ∀ (order : List Path) (bt : tree) (st : σ) (log : List Visit), TombsCounted bt →
      TombsCounted (visitAll ctx fn bt order st log).1
  | [], bt, st, log, h => by simpa [visitAll] using h
  | p :: r, bt, st, log, h => by
    rw [visitAll]
    cases hg : bt.root.get p with
    | none => exact TombsCounted_visitAll ctx fn r bt st log h
    | some n =>
      exact TombsCounted_visitAll ctx fn r _ _ _ (TombsCounted_walkVisit ctx fn bt p n st log hg h)

theorem TombsCounted_remove (bt : tree) (ctx : Int) (key : Bytes) (h : TombsCounted bt) :
    TombsCounted (bt.remove ctx key).1 := by
  unfold tree.remove
  cases removeNode bt.root key with
  | none => exact h
  | some p =>
    simp only
    cases hg : bt.root.get p with
    | none => exact h
    | some target =>
      simp only
      cases hw : target.wasRemovedFor ctx with
      | true => simpa using h
      | false =>
        simp only [Bool.false_eq_true, if_false]
        exact TombsCounted_doRemoveFor bt p ctx target hg hw h

theorem TombsCounted_step {P F : Type} (upd : Codec P F) {bt bt' : tree}
    (hs : AnyStep upd bt bt') (h : TombsCounted bt) : TombsCounted bt' := by
  cases hs with
  | update _ t tb key vals => exact TombsCounted_update upd bt t tb key vals h
  | remove _ ctx key => exact TombsCounted_remove bt ctx key h
  | walk _ ctx fn st r hr =>
    obtain ⟨_, rfl⟩ := walk_eq_of_some bt ctx fn st r hr
    exact TombsCounted_visitAll ctx fn _ bt st [] h

/-- C20: in every state reached from the empty tree by `update`, `remove` and
`walk` calls, for every `ctx ≠ 0` the counter `ctxRemovals[ctx]` is the number
of nodes whose tombstone list contains `ctx`, no tombstone list contains a
context twice, and no tombstone list contains 0. -/
theorem ctx_removals_count_tombstoned_nodes {P F : Type} (upd : Codec P F) (bt : tree)
    (hreach : ReachableAny upd bt) (ctx : Int) (hctx : ctx ≠ 0) :
    bt.ctxRemovals ctx = (bt.root.tombCount ctx : Int)
    ∧ ∀ p n, bt.root.get p = some n → n.removedFor.Nodup ∧ (0 : Int) ∉ n.removedFor := by
  have h : TombsCounted bt := by
    unfold ReachableAny at hreach
    induction hreach with
    | refl => exact TombsCounted_new
    | tail _ hstep ih => exact TombsCounted_step upd hstep ih
  exact ⟨h.2 ctx hctx, h.1⟩

/-- C20, at a concrete input: after inserting `"x"` and `remove(42, "x")` the
counter of 42 is 1, the number of nodes tombstoned for 42. -/
theorem ctx_removals_count_tombstoned_nodes_witness :
    ReachableAny sampleCodec ((insertKeys [[120]]).remove 42 [120]).1
    ∧ ((insertKeys [[120]]).remove 42 [120]).1.ctxRemovals 42 = 1
    ∧ ((insertKeys [[120]]).remove 42 [120]).1.root.tombCount 42 = 1 := by
  have hreach : ReachableAny sampleCodec ((insertKeys [[120]]).remove 42 [120]).1 :=
    Relation.ReflTransGen.tail
      (Relation.ReflTransGen.single (AnyStep.update newByteTree sampleTable 0 [120] ()))
      (AnyStep.remove _ 42 [120])
  have h := (ctx_removals_count_tombstoned_nodes sampleCodec _ hreach 42 (by decide)).1
  refine ⟨hreach, ?_, by decide⟩
  rw [h]
  decide

theorem iterateList_rowFilter_rec (inc : ByteMap → Vals → ByteMap × Vals × Option GoError)
    (ctx : Context) : ∀ (rows : List (ByteMap × Vals)) (log : List (ByteMap × Vals)),
    (∀ r ∈ rows, (inc r.1 r.2).2.2 = none) →
    iterateList (fun s r => rowFilter.callback (pureInclude inc) ctx
        (rowRecorder (fun _ => proceed)) s r.1 r.2) rows log
      = some (none, log ++ rows.filterMap (keptRow inc))
  | [], log, _ => by simp [iterateList]
  | r :: rows, log, h => by
    have hr := h r (List.mem_cons_self _ _)
    have ih := fun l => iterateList_rowFilter_rec inc ctx rows l
      (fun x hx => h x (List.mem_cons_of_mem _ hx))
    cases hk : (inc r.1 r.2).1 with
    | none =>
      have hcb : rowFilter.callback (pureInclude inc) ctx (rowRecorder (fun _ => proceed))
          log r.1 r.2 = some ((true, none), log) := by
        simp [rowFilter.callback, pureInclude, hr, hk, proceed]
      simp only [iterateList, hcb, ih]
      simp [List.filterMap_cons, keptRow, hk]
    | some k =>
      have hcb : rowFilter.callback (pureInclude inc) ctx (rowRecorder (fun _ => proceed))
          log r.1 r.2 = some ((true, none), log ++ [(some k, (inc r.1 r.2).2.1)]) := by
        simp [rowFilter.callback, pureInclude, hr, hk, proceed, rowRecorder, recorder]
      simp only [iterateList, hcb, ih]
      simp [List.filterMap_cons, keptRow, hk]

theorem iterateList_flatRowFilter_rec {X V : Type}
    (inc : FlatRow X V → Option (FlatRow X V) × Option GoError) (ctx : Context) :
    ∀ (rows : List (FlatRow X V)) (log : List (FlatRow X V)),
    (∀ r ∈ rows, (inc r).2 = none) →
    iterateList (flatRowFilter.callback (pureFlatInclude inc) ctx
        (recorder (fun _ => proceed))) rows log
      = some (none, log ++ rows.filterMap (keptFlatRow inc))
  | [], log, _ => by simp [iterateList]
  | r :: rows, log, h => by
    have hr := h r (List.mem_cons_self _ _)
    have ih := fun l => iterateList_flatRowFilter_rec inc ctx rows l
      (fun x hx => h x (List.mem_cons_of_mem _ hx))
    cases hk : (inc r).1 with
    | none =>
      have hcb : flatRowFilter.callback (pureFlatInclude inc) ctx (recorder (fun _ => proceed))
          log r = some ((true, none), log) := by
        simp [flatRowFilter.callback, pureFlatInclude, hr, hk, proceed]
      simp only [iterateList, hcb, ih]
      simp [List.filterMap_cons, keptFlatRow, hk]
    | some k =>
      have hcb : flatRowFilter.callback (pureFlatInclude inc) ctx (recorder (fun _ => proceed))
          log r = some ((true, none), log ++ [k]) := by
        simp [flatRowFilter.callback, pureFlatInclude, hr, hk, proceed, recorder]
      simp only [iterateList, hcb, ih]
      simp [List.filterMap_cons, keptFlatRow, hk]

/-- Of a list whose elements are dropped at the odd positions (counted from
`k`) and kept at the even ones, `filterMap` keeps every other element. -/
theorem filterMap_every_other {α β : Type} (f : α → Option β) : ∀ (l : List α) (k : Nat),
    (∀ i (h : i < l.length), f l[i] = none ↔ (i + k) % 2 = 1) →
    (l.filterMap f).length = (l.length + (k + 1) % 2) / 2
  | [], k, _ => by
    simp only [List.filterMap_nil, List.length_nil, Nat.zero_add]
    omega
  | a :: l, k, h => by
    have h0 := h 0 (by simp)
    have ih := filterMap_every_other f l (k + 1) (fun i hi => by
      have := h (i + 1) (by simpa using hi)
      simp only [List.getElem_cons_succ] at this
      rw [this]
      omega)
    simp only [List.getElem_cons_zero, Nat.zero_add] at h0
    rw [List.filterMap_cons]
    cases hfa : f a with
    | none =>
      have := h0.mp hfa
      simp only [ih, List.length_cons]
      omega
    | some b =>
      have : k % 2 ≠ 1 := fun hk => by rw [h0.mpr hk] at hfa; cases hfa
      simp only [ih, List.length_cons]
      omega

/-- C11: over a source that yields the rows in order and honours the visitor
protocol, with an include hook that returns no error and a visitor that
records its calls and always proceeds, `RowFilter(...).Iterate` returns no
error and has called the visitor, in order, exactly on the rows `(key',
vals')` that the hook returned with a key, skipping the others; the same for
`FlatRowFilter` with an absent flat row; and when the hook drops every other
row of an even number of rows, the visitor has seen half of them. -/
theorem filters_forward_kept_rows {X V : Type} (fields : List (Field X)) (resolution : Int)
    (label : String) (ctx : Context)
    (inc : ByteMap → Vals → ByteMap × Vals × Option GoError)
    (finc : FlatRow X V → Option (FlatRow X V) × Option GoError)
    (rows : List (ByteMap × Vals)) (frows : List (FlatRow X V))
    (hinc : ∀ r ∈ rows, (inc r.1 r.2).2.2 = none) (hfinc : ∀ r ∈ frows, (finc r).2 = none) :
    (RowFilter (listSource fields resolution rows) label (pureInclude inc)).Iterate ctx
        (rowRecorder (fun _ => proceed)) []
      = some (none, rows.filterMap (keptRow inc))
    ∧ (FlatRowFilter (flatListSource fields resolution frows) label
          (pureFlatInclude finc)).Iterate ctx (recorder (fun _ => proceed)) []
      = some (none, frows.filterMap (keptFlatRow finc))
    ∧ (rows.length % 2 = 0 →
        (∀ i (h : i < rows.length), (inc rows[i].1 rows[i].2).1 = none ↔ i % 2 = 1) →
        (rows.filterMap (keptRow inc)).length * 2 = rows.length)
    ∧ (frows.length % 2 = 0 →
        (∀ i (h : i < frows.length), (finc frows[i]).1 = none ↔ i % 2 = 1) →
        (frows.filterMap (keptFlatRow finc)).length * 2 = frows.length) := by
  refine ⟨?_, ?_, ?_, ?_⟩
  · have := iterateList_rowFilter_rec inc ctx rows [] hinc
    simpa [RowFilter, rowFilter.Iterate, listSource] using this
  · have := iterateList_flatRowFilter_rec finc ctx frows [] hfinc
    simpa [FlatRowFilter, flatRowFilter.Iterate, flatListSource] using this
  · intro heven halt
    have := filterMap_every_other (keptRow inc) rows 0 (fun i hi => by
      rw [Nat.add_zero, ← halt i hi]
      simp only [keptRow]
      cases (inc rows[i].1 rows[i].2).1 <;> simp)
    rw [this]
    omega
  · intro heven halt
    have := filterMap_every_other (keptFlatRow finc) frows 0 (fun i hi => by
      rw [Nat.add_zero, ← halt i hi]
      rfl)
    rw [this]
    omega

/-- C11, at a concrete input: of the sample rows with the keys `1` to `4` the
filter that drops even keys hands on the rows `1` and `3`, and of the sample
flat rows the filter that drops even timestamps hands on the rows `1` and `3`;
`Iterate` returns no error. -/
theorem filters_forward_kept_rows_witness :
    (∀ r ∈ sampleRows, (dropEvenKeys r.1 r.2).2.2 = none)
    ∧ (∀ r ∈ sampleFlatRows, (dropEvenTS r).2 = none)
    ∧ (RowFilter (listSource ([] : List (Field Unit)) 1 sampleRows) "odd"
          (pureInclude dropEvenKeys)).Iterate ⟨false⟩ (rowRecorder (fun _ => proceed)) []
        = some (none, [(some [1], [[10]]), (some [3], [[30]])])
    ∧ (FlatRowFilter (flatListSource [] 1 sampleFlatRows) "odd"
          (pureFlatInclude dropEvenTS)).Iterate ⟨false⟩ (recorder (fun _ => proceed)) []
        = some (none, [⟨1, some [1], [10], [], []⟩, ⟨3, some [1], [30], [], []⟩]) := by
  have h := filters_forward_kept_rows ([] : List (Field Unit)) 1 "odd" ⟨false⟩ dropEvenKeys
    dropEvenTS sampleRows sampleFlatRows (by decide) (by decide)
  exact ⟨by decide, by decide, h.1.trans (by decide), h.2.1.trans (by decide)⟩

theorem iterateList_rowFilter_pre
    (inc : ByteMap → Vals → ByteMap × Vals × Option GoError)
    (ctx : Context) (d : ByteMap × Vals → Bool × Option GoError)
    (rest : List (ByteMap × Vals)) :
    ∀ (pre : List (ByteMap × Vals)) (log : List (ByteMap × Vals)),
    (∀ r ∈ pre, (inc r.1 r.2).2.2 = none) →
    (∀ r ∈ pre.filterMap (keptRow inc), stops (d r) = false) →
    iterateList (fun s r => rowFilter.callback (pureInclude inc) ctx (rowRecorder d) s r.1 r.2)
        (pre ++ rest) log
      = iterateList (fun s r => rowFilter.callback (pureInclude inc) ctx (rowRecorder d)
          s r.1 r.2) rest (log ++ pre.filterMap (keptRow inc))
  | [], log, _, _ => by simp
  | r :: pre, log, h, hd => by
    have hr := h r (List.mem_cons_self _ _)
    cases hk : (inc r.1 r.2).1 with
    | none =>
      have hkr : keptRow inc r = none := by simp [keptRow, hk]
      have ih := iterateList_rowFilter_pre inc ctx d rest pre log
        (fun x hx => h x (List.mem_cons_of_mem _ hx))
        (fun x hx => hd x (by rw [List.filterMap_cons, hkr]; exact hx))
      have hcb : rowFilter.callback (pureInclude inc) ctx (rowRecorder d)
          log r.1 r.2 = some ((true, none), log) := by
        simp [rowFilter.callback, pureInclude, hr, hk, proceed]
      simp only [List.cons_append, iterateList, hcb]
      simp only [List.filterMap_cons, hkr]
      exact ih
    | some k =>
      have hkr : keptRow inc r = some (some k, (inc r.1 r.2).2.1) := by simp [keptRow, hk]
      have hdr : stops (d (some k, (inc r.1 r.2).2.1)) = false :=
        hd _ (by rw [List.filterMap_cons, hkr]; exact List.mem_cons_self _ _)
      have ih := iterateList_rowFilter_pre inc ctx d rest pre
        (log ++ [(some k, (inc r.1 r.2).2.1)])
        (fun x hx => h x (List.mem_cons_of_mem _ hx))
        (fun x hx => hd x (by rw [List.filterMap_cons, hkr]; exact List.mem_cons_of_mem _ hx))
      have hcb : rowFilter.callback (pureInclude inc) ctx (rowRecorder d)
          log r.1 r.2 = some (d (some k, (inc r.1 r.2).2.1),
            log ++ [(some k, (inc r.1 r.2).2.1)]) := by
        simp [rowFilter.callback, pureInclude, hr, hk, rowRecorder, recorder]
      simp only [stops, Bool.or_eq_false_iff, Bool.not_eq_false'] at hdr
      simp only [List.cons_append, iterateList, hcb, hdr.1, hdr.2]
      simp only [List.filterMap_cons, hkr]
      rw [List.append_assoc] at ih
      exact ih

theorem ticks_of_gt (ts u R : Int) (hR : 0 < R) (h : u < ts) : ticks ts u R = [] := by
  have h1 : (u - ts) / R < 0 := Int.ediv_neg' (by omega) hR
  have h2 : ((u - ts) / R + 1).toNat = 0 := by omega
  simp [ticks, h2]

theorem ticks_of_le (ts u R : Int) (hR : 0 < R) (h : ts ≤ u) :
    ticks ts u R = ts :: ticks (ts + R) u R := by
  have h0 : 0 ≤ (u - ts) / R := Int.ediv_nonneg (by omega) (le_of_lt hR)
  have h1 : (u - (ts + R)) / R = (u - ts) / R - 1 := by
    have : u - (ts + R) = (u - ts) + (-1) * R := by ring
    rw [this, Int.add_mul_ediv_right _ _ (ne_of_gt hR)]
    ring
  have h2 : ((u - ts) / R + 1).toNat = ((u - (ts + R)) / R + 1).toNat + 1 := by
    rw [h1]; omega
  simp only [ticks, h2, List.range_succ_eq_map, List.map_cons, List.map_map]
  refine congrArg₂ List.cons ?_ ?_
  · simp
  · apply List.map_congr_left
    intro k _
    simp only [Function.comp, Nat.succ_eq_add_one, Nat.cast_add, Nat.cast_one]
    ring

theorem flatRows_of_gt {X V : Type} (ops : SeqOps X V) (fields : List (Field X)) (R : Int)
    (key : ByteMap) (vals : Vals) (ts u : Int) (hR : 0 < R) (h : u < ts) :
    flatRows ops fields R key vals ts u = [] := by
  simp [flatRows, ticks_of_gt ts u R hR h]

theorem flatRows_of_le {X V : Type} (ops : SeqOps X V) (fields : List (Field X)) (R : Int)
    (key : ByteMap) (vals : Vals) (ts u : Int) (hR : 0 < R) (h : ts ≤ u) :
    flatRows ops fields R key vals ts u
      = if (flatten.rowAt ops fields R key vals ts).2
        then (flatten.rowAt ops fields R key vals ts).1 :: flatRows ops fields R key vals (ts + R) u
        else flatRows ops fields R key vals (ts + R) u := by
  simp only [flatRows, ticks_of_le ts u R hR h, List.filterMap_cons]
  split <;> simp_all

/-- With a positive resolution the timestamp loop is the visitor protocol over
the flat rows of the stored row, given enough fuel. -/
theorem flatten_loop_eq {X V σ : Type} (ops : SeqOps X V) (fields : List (Field X)) (R : Int)
    (key : ByteMap) (vals : Vals) (onRow : OnFlatRow X V σ) (u : Int) (hR : 0 < R) :
    ∀ (fuel : Nat) (ts : Int) (st : σ), (u - ts + 2).toNat ≤ fuel → 1 ≤ fuel →
    flatten.loop ops fields R key vals onRow u fuel ts st
      = emit onRow (flatRows ops fields R key vals ts u) st
  | 0, _, _, _, h => by omega
  | fuel + 1, ts, st, h1, _ => by
    rw [flatten.loop]
    by_cases hts : ts > u
    · simp [hts, flatRows_of_gt ops fields R key vals ts u hR hts, emit]
    · have hle : ts ≤ u := by omega
      have ih := fun s => flatten_loop_eq ops fields R key vals onRow u hR fuel (ts + R) s
        (by omega) (by omega)
      simp only [hts, if_false, flatRows_of_le ops fields R key vals ts u hR hle]
      by_cases hany : (flatten.rowAt ops fields R key vals ts).2 = true
      · simp only [hany, if_true, emit]
        cases hon : onRow st (flatten.rowAt ops fields R key vals ts).1 with
        | none => rfl
        | some res =>
          simp only [stops]
          by_cases hs : (!res.1.1 || res.1.2.isSome) = true
          · simp [hs]
          · simp [hs, ih]
      · simp only [hany, Bool.false_eq_true, if_false, ih]

theorem flatten_callback_eq {X V σ : Type} (ops : SeqOps X V) (fields : List (Field X))
    (R : Int) (onRow : OnFlatRow X V σ) (st : σ) (key : ByteMap) (vals : Vals) (hR : 0 < R) :
    flatten.callback ops fields R onRow st key vals
      = emit onRow (flatRows ops fields R key vals
          (flatten.timeRange ops R vals fields 0 (zeroTime, zeroTime)).2
          (flatten.timeRange ops R vals fields 0 (zeroTime, zeroTime)).1) st := by
  simp only [flatten.callback]
  exact flatten_loop_eq ops fields R key vals onRow _ hR _ _ _ (by omega) (by omega)

theorem emit_recorder_all {R : Type} (d : R → Bool × Option GoError) :
    ∀ (C : List R) (log : List R), (∀ x ∈ C, stops (d x) = false) →
    emit (recorder d) C log = some (proceed, log ++ C)
  | [], log, _ => by simp [emit]
  | r :: C, log, h => by
    have hr := h r (List.mem_cons_self _ _)
    simp only [emit, recorder, hr, Bool.false_eq_true, if_false]
    have := emit_recorder_all d C (log ++ [r]) (fun x hx => h x (List.mem_cons_of_mem _ hx))
    rw [this]
    simp

theorem emit_recorder_stop {R : Type} (d : R → Bool × Option GoError) (r : R) (C2 : List R) :
    ∀ (C1 : List R) (log : List R), (∀ x ∈ C1, stops (d x) = false) → stops (d r) = true →
    emit (recorder d) (C1 ++ r :: C2) log = some (d r, log ++ C1 ++ [r])
  | [], log, _, hr => by simp [emit, recorder, hr]
  | c :: C1, log, h, hr => by
    have hc := h c (List.mem_cons_self _ _)
    simp only [List.cons_append, emit, recorder, hc, Bool.false_eq_true, if_false]
    have := emit_recorder_stop d r C2 C1 (log ++ [c])
      (fun x hx => h x (List.mem_cons_of_mem _ hx)) hr
    rw [show C1.append (r :: C2) = C1 ++ r :: C2 from rfl, this]
    simp

theorem iterateList_flatRowFilter_pre {X V : Type}
    (inc : FlatRow X V → Option (FlatRow X V) × Option GoError)
    (ctx : Context) (d : FlatRow X V → Bool × Option GoError)
    (rest : List (FlatRow X V)) :
    ∀ (pre : List (FlatRow X V)) (log : List (FlatRow X V)),
    (∀ r ∈ pre, (inc r).2 = none) →
    (∀ r ∈ pre.filterMap (keptFlatRow inc), stops (d r) = false) →
    iterateList (flatRowFilter.callback (pureFlatInclude inc) ctx (recorder d)) (pre ++ rest) log
      = iterateList (flatRowFilter.callback (pureFlatInclude inc) ctx (recorder d)) rest
          (log ++ pre.filterMap (keptFlatRow inc))
  | [], log, _, _ => by simp
  | r :: pre, log, h, hd => by
    have hr := h r (List.mem_cons_self _ _)
    cases hk : (inc r).1 with
    | none =>
      have hkr : keptFlatRow inc r = none := hk
      have ih := iterateList_flatRowFilter_pre inc ctx d rest pre log
        (fun x hx => h x (List.mem_cons_of_mem _ hx))
        (fun x hx => hd x (by rw [List.filterMap_cons, hkr]; exact hx))
      have hcb : flatRowFilter.callback (pureFlatInclude inc) ctx (recorder d) log r
          = some ((true, none), log) := by
        simp [flatRowFilter.callback, pureFlatInclude, hr, hk, proceed]
      simp only [List.cons_append, iterateList, hcb]
      simp only [List.filterMap_cons, hkr]
      exact ih
    | some k =>
      have hkr : keptFlatRow inc r = some k := hk
      have hdr : stops (d k) = false :=
        hd _ (by rw [List.filterMap_cons, hkr]; exact List.mem_cons_self _ _)
      have ih := iterateList_flatRowFilter_pre inc ctx d rest pre (log ++ [k])
        (fun x hx => h x (List.mem_cons_of_mem _ hx))
        (fun x hx => hd x (by rw [List.filterMap_cons, hkr]; exact List.mem_cons_of_mem _ hx))
      have hcb : flatRowFilter.callback (pureFlatInclude inc) ctx (recorder d) log r
          = some (d k, log ++ [k]) := by
        simp [flatRowFilter.callback, pureFlatInclude, hr, hk, recorder]
      simp only [stops, Bool.or_eq_false_iff, Bool.not_eq_false'] at hdr
      simp only [List.cons_append, iterateList, hcb, hdr.1, hdr.2]
      simp only [List.filterMap_cons, hkr]
      rw [List.append_assoc] at ih
      exact ih

theorem iterateList_of_stops {R σ : Type} (cb : σ → R → Option ((Bool × Option GoError) × σ))
    (r : R) (rest : List R) (st : σ) (res : (Bool × Option GoError) × σ)
    (h : cb st r = some res) (hs : stops res.1 = true) :
    iterateList cb (r :: rest) st = some (res.1.2, res.2) := by
  simp only [iterateList, h]
  by_cases he : res.1.2.isSome = true
  · simp [he]
  · simp only [stops, he, Bool.or_false, Bool.not_eq_true'] at hs
    have hn : res.1.2 = none := by
      cases h2 : res.1.2 with
      | none => rfl
      | some e => rw [h2] at he; exact absurd rfl he
    simp [hn, hs]

theorem rowFilter_callback_of_error {σ : Type} (Include : RowInclude σ) (ctx : Context)
    (onRow : OnRow σ) (st : σ) (key : ByteMap) (vals : Vals) (err : GoError)
    (h : (Include st ctx key vals).1.2.2 = some err) :
    rowFilter.callback Include ctx onRow st key vals
      = some ((false, some err), (Include st ctx key vals).2) := by
  simp [rowFilter.callback, h]

theorem rowFilter_callback_of_key {σ : Type} (Include : RowInclude σ) (ctx : Context)
    (onRow : OnRow σ) (st : σ) (key : ByteMap) (vals : Vals) (k : Bytes)
    (hk : (Include st ctx key vals).1.1 = some k) (h : (Include st ctx key vals).1.2.2 = none) :
    rowFilter.callback Include ctx onRow st key vals
      = onRow (Include st ctx key vals).2 (some k) (Include st ctx key vals).1.2.1 := by
  simp [rowFilter.callback, h, hk]

theorem flatRowFilter_callback_of_error {X V σ : Type} (Include : FlatRowInclude X V σ)
    (ctx : Context) (onRow : OnFlatRow X V σ) (st : σ) (row : FlatRow X V) (err : GoError)
    (h : (Include st ctx row).1.2 = some err) :
    flatRowFilter.callback Include ctx onRow st row
      = some ((false, some err), (Include st ctx row).2) := by
  simp [flatRowFilter.callback, h]

theorem flatRowFilter_callback_of_row {X V σ : Type} (Include : FlatRowInclude X V σ)
    (ctx : Context) (onRow : OnFlatRow X V σ) (st : σ) (row k : FlatRow X V)
    (hk : (Include st ctx row).1.1 = some k) (h : (Include st ctx row).1.2 = none) :
    flatRowFilter.callback Include ctx onRow st row = onRow (Include st ctx row).2 k := by
  simp [flatRowFilter.callback, h, hk]

/-- C13: in `RowFilter` and `FlatRowFilter`, when the include hook returns an
error `e` for a row, the callback of the stage returns `(false, e)` without a
call of the downstream visitor (the state is the one the hook left); over a
source that yields `pre ++ r :: post` in order and honours the visitor
protocol, with a hook that fails with `e` on `r` and on no row of `pre`, and a
recording visitor that does not stop on the kept rows of `pre`, `Iterate`
returns `e` and the visitor has seen the kept rows of `pre` only: neither `r`
nor a row of `post`. -/
theorem include_error_ends_iteration {X V : Type} (fields : List (Field X)) (resolution : Int)
    (label : String) (ctx : Context)
    (inc : ByteMap → Vals → ByteMap × Vals × Option GoError)
    (finc : FlatRow X V → Option (FlatRow X V) × Option GoError)
    (d : ByteMap × Vals → Bool × Option GoError) (fd : FlatRow X V → Bool × Option GoError)
    (pre post : List (ByteMap × Vals)) (r : ByteMap × Vals) (e : GoError)
    (fpre fpost : List (FlatRow X V)) (fr : FlatRow X V) (fe : GoError)
    (hpre : ∀ x ∈ pre, (inc x.1 x.2).2.2 = none)
    (hd : ∀ x ∈ pre.filterMap (keptRow inc), stops (d x) = false)
    (hr : (inc r.1 r.2).2.2 = some e)
    (hfpre : ∀ x ∈ fpre, (finc x).2 = none)
    (hfd : ∀ x ∈ fpre.filterMap (keptFlatRow finc), stops (fd x) = false)
    (hfr : (finc fr).2 = some fe) :
    (RowFilter (listSource fields resolution (pre ++ r :: post)) label (pureInclude inc)).Iterate
        ctx (rowRecorder d) [] = some (some e, pre.filterMap (keptRow inc))
    ∧ (FlatRowFilter (flatListSource fields resolution (fpre ++ fr :: fpost)) label
          (pureFlatInclude finc)).Iterate ctx (recorder fd) []
        = some (some fe, fpre.filterMap (keptFlatRow finc))
    ∧ (∀ (σ : Type) (Include : RowInclude σ) (c : Context) (onRow : OnRow σ) (st : σ)
        (key : ByteMap) (vals : Vals) (err : GoError),
        (Include st c key vals).1.2.2 = some err →
        rowFilter.callback Include c onRow st key vals
          = some ((false, some err), (Include st c key vals).2))
    ∧ (∀ (σ : Type) (Include : FlatRowInclude X V σ) (c : Context) (onRow : OnFlatRow X V σ)
        (st : σ) (row : FlatRow X V) (err : GoError),
        (Include st c row).1.2 = some err →
        flatRowFilter.callback Include c onRow st row
          = some ((false, some err), (Include st c row).2)) := by
  refine ⟨?_, ?_, ?_, ?_⟩
  · have h1 := iterateList_rowFilter_pre inc ctx d (r :: post) pre [] hpre hd
    have h2 := iterateList_of_stops
      (fun s x => rowFilter.callback (pureInclude inc) ctx (rowRecorder d) s x.1 x.2) r post
      ([] ++ pre.filterMap (keptRow inc)) _
      (rowFilter_callback_of_error (pureInclude inc) ctx (rowRecorder d) _ r.1 r.2 e hr)
      (by simp [stops])
    simp only [RowFilter, rowFilter.Iterate, listSource]
    rw [h1, h2]
    simp [pureInclude]
  · have h1 := iterateList_flatRowFilter_pre finc ctx fd (fr :: fpost) fpre [] hfpre hfd
    have h2 := iterateList_of_stops
      (flatRowFilter.callback (pureFlatInclude finc) ctx (recorder fd)) fr fpost
      ([] ++ fpre.filterMap (keptFlatRow finc)) _
      (flatRowFilter_callback_of_error (pureFlatInclude finc) ctx (recorder fd) _ fr fe hfr)
      (by simp [stops])
    simp only [FlatRowFilter, flatRowFilter.Iterate, flatListSource]
    rw [h1, h2]
    simp [pureFlatInclude]
  · intro σ Include c onRow st key vals err h
    exact rowFilter_callback_of_error Include c onRow st key vals err h
  · intro σ Include c onRow st row err h
    exact flatRowFilter_callback_of_error Include c onRow st row err h

/-- C13, at a concrete input: the hook fails on the key `3` of the sample rows;
`Iterate` returns its error and the visitor has seen the rows `1` and `2` only;
likewise for the flat hook that fails on the second flat row. -/
theorem include_error_ends_iteration_witness :
    (RowFilter (listSource ([] : List (Field Unit)) 1 sampleRows) "fail"
        (pureInclude failOnThree)).Iterate ⟨false⟩ (rowRecorder (fun _ => proceed)) []
      = some (some (GoError.other 1), [(some [1], [[10]]), (some [2], [[20]])])
    ∧ (FlatRowFilter (flatListSource [] 1 sampleFlatRows) "fail"
          (pureFlatInclude failOnSecond)).Iterate ⟨false⟩ (recorder (fun _ => proceed)) []
        = some (some (GoError.other 2), [⟨1, some [1], [10], [], []⟩]) := by
  have h := include_error_ends_iteration ([] : List (Field Unit)) 1 "fail" ⟨false⟩ failOnThree
    failOnSecond (fun _ => proceed) (fun _ => proceed)
    [(some [1], [[10]]), (some [2], [[20]])] [(some [4], [[40]])] (some [3], [[30]])
    (GoError.other 1) [⟨1, some [1], [10], [], []⟩] [⟨3, some [1], [30], [], []⟩]
    ⟨2, some [1], [20], [], []⟩ (GoError.other 2)
    (by decide) (by decide) (by decide) (by decide) (by decide) (by decide)
  exact ⟨h.1.trans (by decide), h.2.1.trans (by decide)⟩

/-- C12: in `Flatten` with a positive resolution, when the flat rows of a
stored row are `C1 ++ r :: C2` and the recording visitor answers stop or an
error first for `r`, the callback of the stage returns that answer `d r`
unchanged and the visitor has seen `C1` and `r` only: no flat row with a later
timestamp. For every visitor the callback of `Flatten` is the visitor protocol
over the flat rows of the stored row. In `RowFilter` and `FlatRowFilter` the
callback, for a row the hook keeps, is the one call of the downstream visitor
and returns its answer unchanged; over a source that honours the visitor
protocol, `Iterate` of `RowFilter` then ends after the first kept row on which
the visitor stops. -/
theorem visitor_answer_reaches_source {X V : Type} (ops : SeqOps X V)
    (fields : List (Field X)) (R : Int) (key : ByteMap) (vals : Vals)
    (d : FlatRow X V → Bool × Option GoError) (log C1 C2 : List (FlatRow X V))
    (r : FlatRow X V) (hR : 0 < R) (_hvals : fields.length ≤ vals.length)
    (hC : flatRows ops fields R key vals
        (flatten.timeRange ops R vals fields 0 (zeroTime, zeroTime)).2
        (flatten.timeRange ops R vals fields 0 (zeroTime, zeroTime)).1 = C1 ++ r :: C2)
    (hC1 : ∀ x ∈ C1, stops (d x) = false) (hr : stops (d r) = true) :
    flatten.callback ops fields R (recorder d) log key vals = some (d r, log ++ C1 ++ [r])
    ∧ (∀ (σ : Type) (onRow : OnFlatRow X V σ) (st : σ),
        flatten.callback ops fields R onRow st key vals
          = emit onRow (flatRows ops fields R key vals
              (flatten.timeRange ops R vals fields 0 (zeroTime, zeroTime)).2
              (flatten.timeRange ops R vals fields 0 (zeroTime, zeroTime)).1) st)
    ∧ (∀ (σ : Type) (Include : RowInclude σ) (c : Context) (onRow : OnRow σ) (st : σ)
        (k : ByteMap) (v : Vals) (k' : Bytes),
        (Include st c k v).1.1 = some k' → (Include st c k v).1.2.2 = none →
        rowFilter.callback Include c onRow st k v
          = onRow (Include st c k v).2 (some k') (Include st c k v).1.2.1)
    ∧ (∀ (σ : Type) (Include : FlatRowInclude X V σ) (c : Context) (onRow : OnFlatRow X V σ)
        (st : σ) (row row' : FlatRow X V),
        (Include st c row).1.1 = some row' → (Include st c row).1.2 = none →
        flatRowFilter.callback Include c onRow st row = onRow (Include st c row).2 row')
    ∧ (∀ (inc : ByteMap → Vals → ByteMap × Vals × Option GoError)
        (dr : ByteMap × Vals → Bool × Option GoError) (c : Context) (label : String)
        (pre post : List (ByteMap × Vals)) (x x' : ByteMap × Vals),
        (∀ y ∈ pre, (inc y.1 y.2).2.2 = none) →
        (∀ y ∈ pre.filterMap (keptRow inc), stops (dr y) = false) →
        (inc x.1 x.2).2.2 = none → keptRow inc x = some x' → stops (dr x') = true →
        (RowFilter (listSource fields R (pre ++ x :: post)) label (pureInclude inc)).Iterate c
            (rowRecorder dr) []
          = some ((dr x').2, pre.filterMap (keptRow inc) ++ [x'])) := by
  refine ⟨?_, ?_, ?_, ?_, ?_⟩
  · rw [flatten_callback_eq ops fields R (recorder d) log key vals hR, hC]
    exact emit_recorder_stop d r C2 C1 log hC1 hr
  · intro σ onRow st
    exact flatten_callback_eq ops fields R onRow st key vals hR
  · intro σ Include c onRow st k v k' hk h
    exact rowFilter_callback_of_key Include c onRow st k v k' hk h
  · intro σ Include c onRow st row row' hk h
    exact flatRowFilter_callback_of_row Include c onRow st row row' hk h
  · intro inc dr c label pre post x x' hpre hd hx hk hs
    have h1 := iterateList_rowFilter_pre inc c dr (x :: post) pre [] hpre hd
    have hk' : ∃ k, (inc x.1 x.2).1 = some k ∧ x' = (some k, (inc x.1 x.2).2.1) := by
      simp only [keptRow] at hk
      cases hk1 : (inc x.1 x.2).1 with
      | none => rw [hk1] at hk; cases hk
      | some k => rw [hk1] at hk; exact ⟨k, rfl, (Option.some.inj hk).symm⟩
    obtain ⟨k, hk1, hx'⟩ := hk'
    have hcb : rowFilter.callback (pureInclude inc) c (rowRecorder dr)
        ([] ++ pre.filterMap (keptRow inc)) x.1 x.2
        = some (dr x', [] ++ pre.filterMap (keptRow inc) ++ [x']) := by
      rw [rowFilter_callback_of_key (pureInclude inc) c (rowRecorder dr) _ x.1 x.2 k hk1 hx]
      simp [rowRecorder, recorder, pureInclude, hx']
    have h2 := iterateList_of_stops
      (fun s y => rowFilter.callback (pureInclude inc) c (rowRecorder dr) s y.1 y.2) x post
      ([] ++ pre.filterMap (keptRow inc)) _ hcb hs
    simp only [RowFilter, rowFilter.Iterate, listSource]
    rw [h1, h2]
    simp

/-- C12, at a concrete input: the visitor answers with an error at the flat row
of timestamp `110`; the callback of `Flatten` returns that answer and the flat
row of timestamp `120` is not emitted; the visitor that stops at the key `3`
ends `Iterate` of the filter before the key `4`. -/
theorem visitor_answer_reaches_source_witness :
    flatten.callback sampleOps sampleFields 10 (recorder failAt110) [] (some [7]) sampleVals
      = some ((true, some (GoError.other 9)),
          [⟨100, some [7], [1, 4], [], sampleFields⟩, ⟨110, some [7], [2, 5], [], sampleFields⟩])
    ∧ (RowFilter (listSource sampleFields 10 sampleRows) "all"
          (pureInclude dropEvenKeys)).Iterate ⟨false⟩ (rowRecorder stopAtThree) []
        = some (none, [(some [1], [[10]]), (some [3], [[30]])]) := by
  have h := visitor_answer_reaches_source sampleOps sampleFields 10 (some [7]) sampleVals
    failAt110 [] [⟨100, some [7], [1, 4], [], sampleFields⟩]
    [⟨120, some [7], [3, 6], [], sampleFields⟩] ⟨110, some [7], [2, 5], [], sampleFields⟩
    (by decide) (by decide) (by decide) (by decide) (by decide)
  refine ⟨h.1, ?_⟩
  have h5 := h.2.2.2.2 dropEvenKeys stopAtThree ⟨false⟩ "all"
    [(some [1], [[10]]), (some [2], [[20]])] [(some [4], [[40]])] (some [3], [[30]])
    (some [3], [[30]]) (by decide) (by decide) (by decide) (by decide) (by decide)
  exact h5.trans (by decide)

theorem flatten_values_eq {X V : Type} (ops : SeqOps X V) (R : Int) (vals : Vals) (ts : Int) :
    ∀ (fields : List (Field X)) (i : Nat) (values : List V) (anyFound : Bool),
    flatten.values ops R vals ts fields i values anyFound
      = (values ++ (fields.enumFrom i).map
            (fun p => (ops.ValueAtTime (vals.getD p.1 []) ts p.2.Expr R).1),
          anyFound || (fields.enumFrom i).any (fun p =>
            (ops.ValueAtTime (vals.getD p.1 []) ts p.2.Expr R).2 && !ops.IsConstant p.2.Expr))
  | [], i, values, anyFound => by simp [flatten.values]
  | f :: fields, i, values, anyFound => by
    rw [flatten.values]
    simp only [flatten_values_eq ops R vals ts fields (i + 1), List.enumFrom_cons,
      List.map_cons, List.any_cons, List.append_assoc, List.singleton_append, Bool.or_assoc]

theorem flatten_rowAt_eq {X V : Type} (ops : SeqOps X V) (fields : List (Field X)) (R : Int)
    (key : ByteMap) (vals : Vals) (ts : Int) :
    flatten.rowAt ops fields R key vals ts
      = (⟨unixNano ts, key, valuesAt ops fields R vals ts, [], fields⟩,
          anyFoundAt ops fields R vals ts) := by
  simp [flatten.rowAt, flatten_values_eq, valuesAt, anyFoundAt, List.enum]

theorem flatRows_eq {X V : Type} (ops : SeqOps X V) (fields : List (Field X)) (R : Int)
    (key : ByteMap) (vals : Vals) (a u : Int) :
    flatRows ops fields R key vals a u
      = ((ticks a u R).filter (anyFoundAt ops fields R vals)).map
          (fun ts => ⟨unixNano ts, key, valuesAt ops fields R vals ts, [], fields⟩) := by
  simp only [flatRows, flatten_rowAt_eq]
  induction ticks a u R with
  | nil => rfl
  | cons t l ih =>
    by_cases h : anyFoundAt ops fields R vals t = true
    · simp [List.filterMap_cons, List.filter_cons, h, ih]
    · simp [List.filterMap_cons, List.filter_cons, h, ih]

theorem mem_ticks (a u R : Int) (hR : 0 < R) (ts : Int) :
    ts ∈ ticks a u R ↔ ∃ k : Nat, ts = a + k * R ∧ ts ≤ u := by
  simp only [ticks, List.mem_map, List.mem_range]
  constructor
  · rintro ⟨k, hk, rfl⟩
    refine ⟨k, rfl, ?_⟩
    have h1 : (k : Int) ≤ (u - a) / R := by omega
    have h2 := (Int.le_ediv_iff_mul_le hR).mp h1
    omega
  · rintro ⟨k, rfl, hle⟩
    refine ⟨k, ?_, rfl⟩
    have h2 : (k : Int) * R ≤ u - a := by omega
    have h1 := (Int.le_ediv_iff_mul_le hR).mpr h2
    omega

theorem ticks_increasing (a u R : Int) (hR : 0 < R) :
    (ticks a u R).Pairwise (fun x y => x < y) := by
  simp only [ticks, List.pairwise_map]
  refine (List.pairwise_lt_range _).imp ?_
  intro i j hij
  have : (i : Int) * R < (j : Int) * R :=
    Int.mul_lt_mul_of_pos_right (by exact_mod_cast hij) hR
  omega

theorem unixNano_of_int64 (ts : Int) (h1 : -2 ^ 63 ≤ ts) (h2 : ts < 2 ^ 63) :
    unixNano ts = ts := by
  simp only [unixNano]
  rw [Int.emod_eq_of_lt (by omega) (by omega)]
  omega

theorem anyFoundAt_iff {X V : Type} (ops : SeqOps X V) (fields : List (Field X)) (R : Int)
    (vals : Vals) (ts : Int) :
    anyFoundAt ops fields R vals ts = true ↔
      ∃ i f, fields[i]? = some f ∧ ops.IsConstant f.Expr = false
        ∧ (ops.ValueAtTime (vals.getD i []) ts f.Expr R).2 = true := by
  simp only [anyFoundAt, List.any_eq_true, Bool.and_eq_true, Bool.not_eq_true', Prod.exists,
    List.mk_mem_enum_iff_getElem?]
  constructor
  · rintro ⟨i, f, hf, h1, h2⟩
    exact ⟨i, f, hf, h2, h1⟩
  · rintro ⟨i, f, hf, h1, h2⟩
    exact ⟨i, f, hf, h2, h1⟩

theorem valuesAt_getElem? {X V : Type} (ops : SeqOps X V) (fields : List (Field X)) (R : Int)
    (vals : Vals) (ts : Int) :
    (valuesAt ops fields R vals ts).length = fields.length
    ∧ ∀ i f, fields[i]? = some f →
        (valuesAt ops fields R vals ts)[i]? = some (ops.ValueAtTime (vals.getD i []) ts f.Expr R).1 := by
  refine ⟨by simp [valuesAt], ?_⟩
  intro i f hf
  simp [valuesAt, List.getElem?_map, List.enum, List.getElem?_enumFrom, hf]

theorem timeRange_cons_of_periods {X V : Type} (ops : SeqOps X V) (R : Int) (vals : Vals)
    (f : Field X) (fields : List (Field X)) (i : Nat) (u a : Int)
    (h0 : ops.NumPeriods (vals.getD i []) (ops.EncodedWidth f.Expr) ≠ 0) :
    flatten.timeRange ops R vals (f :: fields) i (u, a)
      = flatten.timeRange ops R vals fields (i + 1)
          (if ops.Until (vals.getD i []) > u then ops.Until (vals.getD i []) else u,
            if a = zeroTime ∨ ops.AsOf (vals.getD i []) (ops.EncodedWidth f.Expr) R < a
            then ops.AsOf (vals.getD i []) (ops.EncodedWidth f.Expr) R else a) := by
  rw [flatten.timeRange]
  simp only [h0, if_false]

theorem timeRange_cons_of_no_periods {X V : Type} (ops : SeqOps X V) (R : Int) (vals : Vals)
    (f : Field X) (fields : List (Field X)) (i : Nat) (u a : Int)
    (h0 : ops.NumPeriods (vals.getD i []) (ops.EncodedWidth f.Expr) = 0) :
    flatten.timeRange ops R vals (f :: fields) i (u, a)
      = flatten.timeRange ops R vals fields (i + 1) (u, a) := by
  rw [flatten.timeRange]
  simp only [h0, if_true]

theorem timeRange_until {X V : Type} (ops : SeqOps X V) (R : Int) (vals : Vals) :
    ∀ (fields : List (Field X)) (i : Nat) (u a : Int),
    u ≤ (flatten.timeRange ops R vals fields i (u, a)).1
    ∧ (∀ x ∈ periodTimes ops R vals fields i,
        x.1 ≤ (flatten.timeRange ops R vals fields i (u, a)).1)
    ∧ ((flatten.timeRange ops R vals fields i (u, a)).1 = u
        ∨ ∃ x ∈ periodTimes ops R vals fields i,
          x.1 = (flatten.timeRange ops R vals fields i (u, a)).1)
  | [], i, u, a => by simp [flatten.timeRange, periodTimes]
  | f :: fields, i, u, a => by
    by_cases h0 : ops.NumPeriods (vals.getD i []) (ops.EncodedWidth f.Expr) = 0
    · rw [timeRange_cons_of_no_periods ops R vals f fields i u a h0, periodTimes, if_pos h0]
      exact timeRange_until ops R vals fields (i + 1) u a
    · rw [timeRange_cons_of_periods ops R vals f fields i u a h0, periodTimes, if_neg h0]
      obtain ⟨u', hu', hu1, hu2, hu3⟩ : ∃ u', u' = (if ops.Until (vals.getD i []) > u
          then ops.Until (vals.getD i []) else u) ∧ u ≤ u' ∧ ops.Until (vals.getD i []) ≤ u'
          ∧ (u' = u ∨ u' = ops.Until (vals.getD i [])) := by
        refine ⟨_, rfl, ?_, ?_, ?_⟩ <;> split_ifs <;> omega
      rw [← hu']
      generalize (if a = zeroTime ∨ ops.AsOf (vals.getD i []) (ops.EncodedWidth f.Expr) R < a
        then ops.AsOf (vals.getD i []) (ops.EncodedWidth f.Expr) R else a) = a'
      obtain ⟨h1, h2, h3⟩ := timeRange_until ops R vals fields (i + 1) u' a'
      refine ⟨by omega, ?_, ?_⟩
      · intro x hx
        rcases List.mem_cons.mp hx with rfl | hx
        · exact le_trans hu2 h1
        · exact h2 x hx
      · rcases h3 with h3 | ⟨x, hx, h3⟩
        · rcases hu3 with hu3 | hu3
          · exact Or.inl (h3.trans hu3)
          · exact Or.inr ⟨_, List.mem_cons_self _ _, (h3.trans hu3).symm⟩
        · exact Or.inr ⟨x, List.mem_cons_of_mem _ hx, h3⟩

theorem timeRange_asOf {X V : Type} (ops : SeqOps X V) (R : Int) (vals : Vals) :
    ∀ (fields : List (Field X)) (i : Nat) (u a : Int),
    (∀ x ∈ periodTimes ops R vals fields i, x.2 ≠ zeroTime) →
    (a ≠ zeroTime →
      (flatten.timeRange ops R vals fields i (u, a)).2 ≤ a
      ∧ (∀ x ∈ periodTimes ops R vals fields i,
          (flatten.timeRange ops R vals fields i (u, a)).2 ≤ x.2)
      ∧ ((flatten.timeRange ops R vals fields i (u, a)).2 = a
          ∨ ∃ x ∈ periodTimes ops R vals fields i,
            x.2 = (flatten.timeRange ops R vals fields i (u, a)).2))
    ∧ (a = zeroTime → periodTimes ops R vals fields i ≠ [] →
      (∀ x ∈ periodTimes ops R vals fields i,
          (flatten.timeRange ops R vals fields i (u, a)).2 ≤ x.2)
      ∧ ∃ x ∈ periodTimes ops R vals fields i,
          x.2 = (flatten.timeRange ops R vals fields i (u, a)).2)
  | [], i, u, a, _ => by simp [flatten.timeRange, periodTimes]
  | f :: fields, i, u, a, hnz => by
    by_cases h0 : ops.NumPeriods (vals.getD i []) (ops.EncodedWidth f.Expr) = 0
    · rw [periodTimes, if_pos h0] at hnz
      rw [timeRange_cons_of_no_periods ops R vals f fields i u a h0, periodTimes, if_pos h0]
      exact timeRange_asOf ops R vals fields (i + 1) u a hnz
    · rw [periodTimes, if_neg h0] at hnz
      rw [timeRange_cons_of_periods ops R vals f fields i u a h0, periodTimes, if_neg h0]
      have hA : ops.AsOf (vals.getD i []) (ops.EncodedWidth f.Expr) R ≠ zeroTime :=
        hnz _ (List.mem_cons_self _ _)
      generalize (if ops.Until (vals.getD i []) > u then ops.Until (vals.getD i []) else u) = u'
      generalize hAdef : ops.AsOf (vals.getD i []) (ops.EncodedWidth f.Expr) R = A at hA hnz ⊢
      generalize ops.Until (vals.getD i []) = U at hnz ⊢
      have ih := fun a' => (timeRange_asOf ops R vals fields (i + 1) u' a'
        (fun x hx => hnz x (List.mem_cons_of_mem _ hx))).1
      constructor
      · intro ha
        by_cases hlt : A < a
        · rw [if_pos (Or.inr hlt)]
          obtain ⟨h1, h2, h3⟩ := ih A hA
          refine ⟨by omega, ?_, ?_⟩
          · intro x hx
            rcases List.mem_cons.mp hx with rfl | hx
            · exact h1
            · exact h2 x hx
          · rcases h3 with h3 | ⟨x, hx, h3⟩
            · exact Or.inr ⟨_, List.mem_cons_self _ _, h3.symm⟩
            · exact Or.inr ⟨x, List.mem_cons_of_mem _ hx, h3⟩
        · rw [if_neg (fun h => h.elim ha hlt)]
          obtain ⟨h1, h2, h3⟩ := ih a ha
          refine ⟨h1, ?_, ?_⟩
          · intro x hx
            rcases List.mem_cons.mp hx with rfl | hx
            · show _ ≤ A
              omega
            · exact h2 x hx
          · rcases h3 with h3 | ⟨x, hx, h3⟩
            · exact Or.inl h3
            · exact Or.inr ⟨x, List.mem_cons_of_mem _ hx, h3⟩
      · intro ha _
        rw [if_pos (Or.inl ha)]
        obtain ⟨h1, h2, h3⟩ := ih A hA
        refine ⟨?_, ?_⟩
        · intro x hx
          rcases List.mem_cons.mp hx with rfl | hx
          · exact h1
          · exact h2 x hx
        · rcases h3 with h3 | ⟨x, hx, h3⟩
          · exact ⟨_, List.mem_cons_self _ _, h3.symm⟩
          · exact ⟨x, List.mem_cons_of_mem _ hx, h3⟩

theorem timeRange_of_no_periods {X V : Type} (ops : SeqOps X V) (R : Int) (vals : Vals) :
    ∀ (fields : List (Field X)) (i : Nat) (acc : Int × Int),
    periodTimes ops R vals fields i = [] → flatten.timeRange ops R vals fields i acc = acc
  | [], i, acc, _ => by simp [flatten.timeRange]
  | f :: fields, i, (u, a), h => by
    rw [periodTimes] at h
    by_cases h0 : ops.NumPeriods (vals.getD i []) (ops.EncodedWidth f.Expr) = 0
    · rw [if_pos h0] at h
      rw [timeRange_cons_of_no_periods ops R vals f fields i u a h0]
      exact timeRange_of_no_periods ops R vals fields (i + 1) (u, a) h
    · rw [if_neg h0] at h
      cases h

theorem ticks_three (T R : Int) (hR : 0 < R) : ticks T (T + 2 * R) R = [T, T + R, T + 2 * R] := by
  rw [ticks_of_le T _ R hR (by omega), ticks_of_le (T + R) _ R hR (by omega),
    ticks_of_le (T + R + R) _ R hR (by omega), ticks_of_gt _ _ R hR (by omega)]
  simp only [List.cons.injEq, and_true, true_and]
  omega

/-- The callback of `Flatten`: for a stored row `(key, vals)` and a positive
resolution `R`, with a visitor that records its calls and always proceeds, the callback of `Flatten`
returns `proceed` and has called the visitor exactly on the flat rows of the
stored row, in order: one row for each tick `ts = as_of + k * R`, `k ≥ 0`,
`ts ≤ until` (the ticks are increasing) at which at least one field with a
non-constant expression reports found; the row carries `TS = UnixNano(ts)`
(which is `ts` for an `int64`), the key of the stored row and `Values[i] =
value_at(ts)` of field `i`. If the `until` of the fields with non-zero periods
are not before the zero time and their `as_of` are not the zero time, and
there is such a field, then `until` is the maximum and `as_of` the minimum of
theirs. If `as_of = T`, `until = T + 2 * R` and a non-constant field reports
found at `T`, `T + R` and `T + 2 * R`, there are exactly three flat rows, with
these timestamps. -/
theorem flatten_callback_row_per_tick {X V : Type} (ops : SeqOps X V) (fields : List (Field X))
    (R : Int) (key : ByteMap) (vals : Vals) (log : List (FlatRow X V)) (hR : 0 < R)
    (_hvals : fields.length ≤ vals.length) :
    flatten.callback ops fields R (recorder (fun _ => proceed)) log key vals
      = some (proceed, log ++ ((ticks (rowAsOf ops fields R vals) (rowUntil ops fields R vals) R
          ).filter (anyFoundAt ops fields R vals)).map
            (fun ts => ⟨unixNano ts, key, valuesAt ops fields R vals ts, [], fields⟩))
    ∧ (∀ ts, ts ∈ ticks (rowAsOf ops fields R vals) (rowUntil ops fields R vals) R ↔
        ∃ k : Nat, ts = rowAsOf ops fields R vals + k * R ∧ ts ≤ rowUntil ops fields R vals)
    ∧ (ticks (rowAsOf ops fields R vals) (rowUntil ops fields R vals) R).Pairwise
        (fun x y => x < y)
    ∧ (∀ ts, anyFoundAt ops fields R vals ts = true ↔
        ∃ i f, fields[i]? = some f ∧ ops.IsConstant f.Expr = false
          ∧ (ops.ValueAtTime (vals.getD i []) ts f.Expr R).2 = true)
    ∧ (∀ ts, (valuesAt ops fields R vals ts).length = fields.length
        ∧ ∀ i f, fields[i]? = some f →
          (valuesAt ops fields R vals ts)[i]?
            = some (ops.ValueAtTime (vals.getD i []) ts f.Expr R).1)
    ∧ (∀ ts : Int, -2 ^ 63 ≤ ts → ts < 2 ^ 63 → unixNano ts = ts)
    ∧ ((∀ x ∈ periodTimes ops R vals fields 0, zeroTime ≤ x.1 ∧ x.2 ≠ zeroTime) →
        periodTimes ops R vals fields 0 ≠ [] →
        (∀ x ∈ periodTimes ops R vals fields 0, x.1 ≤ rowUntil ops fields R vals)
        ∧ (∃ x ∈ periodTimes ops R vals fields 0, x.1 = rowUntil ops fields R vals)
        ∧ (∀ x ∈ periodTimes ops R vals fields 0, rowAsOf ops fields R vals ≤ x.2)
        ∧ (∃ x ∈ periodTimes ops R vals fields 0, x.2 = rowAsOf ops fields R vals))
    ∧ (∀ T : Int, rowAsOf ops fields R vals = T → rowUntil ops fields R vals = T + 2 * R →
        anyFoundAt ops fields R vals T = true → anyFoundAt ops fields R vals (T + R) = true →
        anyFoundAt ops fields R vals (T + 2 * R) = true →
        flatten.callback ops fields R (recorder (fun _ => proceed)) log key vals
          = some (proceed, log ++
              [⟨unixNano T, key, valuesAt ops fields R vals T, [], fields⟩,
                ⟨unixNano (T + R), key, valuesAt ops fields R vals (T + R), [], fields⟩,
                ⟨unixNano (T + 2 * R), key, valuesAt ops fields R vals (T + 2 * R), [],
                  fields⟩])) := by
  have hcb : flatten.callback ops fields R (recorder (fun _ => proceed)) log key vals
      = some (proceed, log ++ ((ticks (rowAsOf ops fields R vals) (rowUntil ops fields R vals) R
          ).filter (anyFoundAt ops fields R vals)).map
            (fun ts => ⟨unixNano ts, key, valuesAt ops fields R vals ts, [], fields⟩)) := by
    rw [flatten_callback_eq ops fields R _ log key vals hR,
      emit_recorder_all _ _ _ (fun _ _ => by simp [stops, proceed]), flatRows_eq]
    rfl
  refine ⟨hcb, mem_ticks _ _ R hR, ticks_increasing _ _ R hR, anyFoundAt_iff ops fields R vals,
    valuesAt_getElem? ops fields R vals, unixNano_of_int64, ?_, ?_⟩
  · intro hcodec hne
    obtain ⟨_, hu2, hu3⟩ := timeRange_until ops R vals fields 0 zeroTime zeroTime
    obtain ⟨ha1, ha2⟩ := (timeRange_asOf ops R vals fields 0 zeroTime zeroTime
      (fun x hx => (hcodec x hx).2)).2 rfl hne
    refine ⟨hu2, ?_, ha1, ha2⟩
    rcases hu3 with hu3 | hu3
    · obtain ⟨x, hx⟩ := List.exists_mem_of_ne_nil _ hne
      refine ⟨x, hx, le_antisymm (hu2 x hx) ?_⟩
      show rowUntil ops fields R vals ≤ x.1
      unfold rowUntil
      rw [hu3]
      exact (hcodec x hx).1
    · exact hu3
  · intro T hT hU h1 h2 h3
    rw [hcb, hT, hU, ticks_three T R hR]
    simp [List.filter_cons, h1, h2, h3]

/-- The callback of `Flatten` at a concrete input: two non-constant fields that cover `100`, `110`
and `120` at resolution `10` give exactly three flat rows, with these
timestamps. -/
theorem flatten_callback_row_per_tick_sample :
    flatten.callback sampleOps sampleFields 10 (recorder (fun _ => proceed)) [] (some [7])
        sampleVals
      = some (proceed, [⟨100, some [7], [1, 4], [], sampleFields⟩,
          ⟨110, some [7], [2, 5], [], sampleFields⟩, ⟨120, some [7], [3, 6], [], sampleFields⟩])
    ∧ ticks (rowAsOf sampleOps sampleFields 10 sampleVals)
        (rowUntil sampleOps sampleFields 10 sampleVals) 10 = [100, 110, 120] := by
  have h := flatten_callback_row_per_tick sampleOps sampleFields 10 (some [7]) sampleVals []
    (by decide) (by decide)
  exact ⟨h.1.trans (by decide), by decide⟩

theorem periodTimes_of_no_periods {X V : Type} (ops : SeqOps X V) (R : Int) (vals : Vals) :
    ∀ (fields : List (Field X)) (i : Nat),
    (∀ j f, fields[j]? = some f →
      ops.NumPeriods (vals.getD (i + j) []) (ops.EncodedWidth f.Expr) = 0) →
    periodTimes ops R vals fields i = []
  | [], i, _ => by simp [periodTimes]
  | f :: fields, i, h => by
    have h0 := h 0 f (by simp)
    rw [periodTimes, if_pos (by simpa using h0)]
    refine periodTimes_of_no_periods ops R vals fields (i + 1) (fun j g hg => ?_)
    have := h (j + 1) g (by simpa using hg)
    rwa [show i + (j + 1) = i + 1 + j by omega] at this

/-- The zero time as an `int64` of Unix nanoseconds, as `UnixNano` returns it. -/
theorem unixNano_zeroTime : unixNano zeroTime = -6795364578871345152 := by
  simp only [unixNano, zeroTime]
  norm_num

/-- With a positive resolution and enough fuel the body of the timestamp loop
runs exactly at the ticks. -/
theorem bodyTimes_eq_ticks (R u : Int) (hR : 0 < R) :
    ∀ (fuel : Nat) (ts : Int), (u - ts + 2).toNat ≤ fuel → 1 ≤ fuel →
    flatten.bodyTimes R u fuel ts = ticks ts u R
  | 0, _, _, h => by omega
  | fuel + 1, ts, h1, _ => by
    rw [flatten.bodyTimes]
    by_cases hts : ts > u
    · simp [hts, ticks_of_gt ts u R hR hts]
    · rw [if_neg hts, ticks_of_le ts u R hR (by omega),
        bodyTimes_eq_ticks R u hR fuel (ts + R) (by omega) (by omega)]

/-- C19 as stated fails: take a stored row in which every field has zero
periods. With the sample codec the body of the timestamp loop runs once, at
the zero time, where `value_at` is queried; and with a codec whose `value_at`
reports found at every time one flat row is emitted. -/
theorem zero_period_row_emits_flat_row :
    (∀ p ∈ sampleFields.enum,
        sampleOps.NumPeriods (([[120], []] : Vals).getD p.1 [])
          (sampleOps.EncodedWidth p.2.Expr) = 0)
    ∧ flatten.bodyTimes 10 (rowUntil sampleOps sampleFields 10 [[120], []]) 2
        (rowAsOf sampleOps sampleFields 10 [[120], []]) = [zeroTime]
    ∧ (∀ p ∈ sampleFields.enum,
        eagerOps.NumPeriods (([[], []] : Vals).getD p.1 [])
          (eagerOps.EncodedWidth p.2.Expr) = 0)
    ∧ flatten.callback eagerOps sampleFields 10 (recorder (fun _ => proceed)) [] (some [7])
        [[], []]
      = some (proceed, [⟨-6795364578871345152, some [7], [7, 7], [], sampleFields⟩]) :=
  ⟨by decide, by decide, by decide, by decide⟩

/-- C19, amended: in `Flatten`, for a stored row in which every field has zero
periods and a positive resolution, the computed `until` and `as_of` are the
zero time, the only tick is the zero time, so the body of the timestamp loop
runs exactly once, at the zero time: `value_at` is queried there for every
field, and the flat row of the zero time (its `TS` is `UnixNano` of the zero
time) is handed to the visitor exactly when a field with a non-constant
expression reports found there; otherwise the callback returns `proceed`
without a call of the visitor. -/
theorem zero_period_row_runs_loop_once {X V σ : Type} (ops : SeqOps X V)
    (fields : List (Field X)) (R : Int) (key : ByteMap) (vals : Vals)
    (onRow : OnFlatRow X V σ) (st : σ) (hR : 0 < R) (_hvals : fields.length ≤ vals.length)
    (hzero : ∀ p ∈ fields.enum,
      ops.NumPeriods (vals.getD p.1 []) (ops.EncodedWidth p.2.Expr) = 0) :
    rowUntil ops fields R vals = zeroTime
    ∧ rowAsOf ops fields R vals = zeroTime
    ∧ (∀ fuel, 2 ≤ fuel →
        flatten.bodyTimes R (rowUntil ops fields R vals) fuel (rowAsOf ops fields R vals)
          = [zeroTime])
    ∧ ticks zeroTime zeroTime R = [zeroTime]
    ∧ flatten.callback ops fields R onRow st key vals
      = (if anyFoundAt ops fields R vals zeroTime
          then emit onRow
            [⟨unixNano zeroTime, key, valuesAt ops fields R vals zeroTime, [], fields⟩] st
          else some (proceed, st))
    ∧ unixNano zeroTime = -6795364578871345152 := by
  have hp : periodTimes ops R vals fields 0 = [] :=
    periodTimes_of_no_periods ops R vals fields 0 (fun j f hf => by
      simpa using hzero (j, f) (List.mk_mem_enum_iff_getElem?.mpr hf))
  have hr := timeRange_of_no_periods ops R vals fields 0 (zeroTime, zeroTime) hp
  have ht : ticks zeroTime zeroTime R = [zeroTime] := by
    rw [ticks_of_le _ _ R hR (le_refl _), ticks_of_gt _ _ R hR (by omega)]
  have hu : rowUntil ops fields R vals = zeroTime := by simp [rowUntil, hr]
  have ha : rowAsOf ops fields R vals = zeroTime := by simp [rowAsOf, hr]
  refine ⟨hu, ha, ?_, ht, ?_, unixNano_zeroTime⟩
  · intro fuel hfuel
    obtain ⟨n, rfl⟩ : ∃ n, fuel = n + 2 := ⟨fuel - 2, by omega⟩
    rw [hu, ha]
    simp only [flatten.bodyTimes, gt_iff_lt, lt_self_iff_false, if_false]
    rw [if_pos (by omega)]
  · rw [flatten_callback_eq ops fields R onRow st key vals hR, hr, flatRows_eq, ht]
    by_cases h : anyFoundAt ops fields R vals zeroTime = true
    · simp [List.filter_cons, h]
    · simp [List.filter_cons, h, emit]

/-- C19 (amended), at a concrete input: with the sample codec, in which a
sequence without periods reports nothing as found, a stored row without
periods gives no flat row. -/
theorem zero_period_row_runs_loop_once_witness :
    flatten.callback sampleOps sampleFields 10 (recorder (fun _ => proceed)) [] (some [7])
        [[120], []] = some (proceed, [])
    ∧ rowUntil sampleOps sampleFields 10 [[120], []] = zeroTime := by
  have h := zero_period_row_runs_loop_once sampleOps sampleFields 10 (some [7]) [[120], []]
    (recorder (fun _ => proceed)) [] (by decide) (by decide) (by decide)
  exact ⟨h.2.2.2.2.1.trans (by decide), h.1⟩

theorem flatten_loop_error {X V σ : Type} (ops : SeqOps X V) (fields : List (Field X)) (R : Int)
    (key : ByteMap) (vals : Vals) (onRow : OnFlatRow X V σ) (u : Int)
    (res : (Bool × Option GoError) × σ) (e : GoError) (he : res.1.2 = some e) :
    ∀ (fuel : Nat) (ts : Int) (st : σ),
    flatten.loop ops fields R key vals onRow u fuel ts st = some res →
    ∃ s row, onRow s row = some res
  | 0, _, _, h => by simp [flatten.loop] at h
  | fuel + 1, ts, st, h => by
    rw [flatten.loop] at h
    by_cases hts : ts > u
    · simp only [hts, if_true, Option.some.injEq] at h
      rw [← h] at he
      simp [proceed] at he
    · simp only [hts, if_false] at h
      by_cases hany : (flatten.rowAt ops fields R key vals ts).2 = true
      · simp only [hany, if_true] at h
        cases hon : onRow st (flatten.rowAt ops fields R key vals ts).1 with
        | none => simp [hon] at h
        | some r =>
          simp only [hon] at h
          by_cases hs : (!r.1.1 || r.1.2.isSome) = true
          · simp only [hs, if_true, Option.some.injEq] at h
            exact ⟨st, _, h ▸ hon⟩
          · simp only [hs, if_false] at h
            exact flatten_loop_error ops fields R key vals onRow u res e he fuel _ _ h
      · simp only [hany, if_false] at h
        exact flatten_loop_error ops fields R key vals onRow u res e he fuel _ _ h

/-- C15 as stated fails: with a cancellation handle that is done, `RowFilter`,
`FlatRowFilter` and `Flatten` still call the downstream visitor for every row
and `Iterate` returns no error, not `ErrDeadlineExceeded`. -/
theorem done_handle_is_not_checked :
    (RowFilter (listSource sampleFields 10 sampleRows) "all" (pureInclude keepRow)).Iterate
        ⟨true⟩ (rowRecorder (fun _ => proceed)) [] = some (none, sampleRows)
    ∧ (FlatRowFilter (flatListSource [] 1 sampleFlatRows) "all"
          (pureFlatInclude keepFlatRow)).Iterate ⟨true⟩ (recorder (fun _ => proceed)) []
        = some (none, sampleFlatRows)
    ∧ (Flatten sampleOps (listSource sampleFields 10 [(some [7], sampleVals)])).Iterate
          ⟨true⟩ (recorder (fun _ => proceed)) []
        = some (none, [⟨100, some [7], [1, 4], [], sampleFields⟩,
            ⟨110, some [7], [2, 5], [], sampleFields⟩,
            ⟨120, some [7], [3, 6], [], sampleFields⟩]) :=
  ⟨by decide, by decide, by decide⟩

/-- C15, amended: `RowFilter`, `FlatRowFilter` and `Flatten` never look at the
cancellation handle; they hand it to their source, and the filters to the
include hook. When the source and the hook behave alike for two handles, so
does `Iterate` of the stage, for every visitor: the visitor is called for the
same rows whether the handle is done or not. An error in the answer of the
callback of a stage, `ErrDeadlineExceeded` included, is the error of the
include hook or an answer of the downstream visitor. -/
theorem stages_never_check_cancellation {X V σ : Type} (ops : SeqOps X V)
    (source : RowSource X σ) (fsource : FlatRowSource X V σ) (Include : RowInclude σ)
    (FInclude : FlatRowInclude X V σ) (label : String) (ctx ctx' : Context)
    (hsrc : ∀ cb st, source.Iterate ctx cb st = source.Iterate ctx' cb st)
    (hfsrc : ∀ cb st, fsource.Iterate ctx cb st = fsource.Iterate ctx' cb st)
    (hinc : ∀ st k v, Include st ctx k v = Include st ctx' k v)
    (hfinc : ∀ st row, FInclude st ctx row = FInclude st ctx' row) :
    (∀ onRow st, (RowFilter source label Include).Iterate ctx onRow st
        = (RowFilter source label Include).Iterate ctx' onRow st)
    ∧ (∀ onRow st, (FlatRowFilter fsource label FInclude).Iterate ctx onRow st
        = (FlatRowFilter fsource label FInclude).Iterate ctx' onRow st)
    ∧ (∀ onRow st, (Flatten ops source).Iterate ctx onRow st
        = (Flatten ops source).Iterate ctx' onRow st)
    ∧ (∀ (onRow : OnRow σ) st k v res e,
        rowFilter.callback Include ctx onRow st k v = some res → res.1.2 = some e →
        (Include st ctx k v).1.2.2 = some e ∨ ∃ s k' v', onRow s k' v' = some res)
    ∧ (∀ (onRow : OnFlatRow X V σ) st row res e,
        flatRowFilter.callback FInclude ctx onRow st row = some res → res.1.2 = some e →
        (FInclude st ctx row).1.2 = some e ∨ ∃ s row', onRow s row' = some res)
    ∧ (∀ (onRow : OnFlatRow X V σ) st k v res e,
        flatten.callback ops source.GetFields source.GetResolution onRow st k v = some res →
        res.1.2 = some e → ∃ s row, onRow s row = some res) := by
  refine ⟨?_, ?_, ?_, ?_, ?_, ?_⟩
  · intro onRow st
    have hcb : rowFilter.callback Include ctx onRow = rowFilter.callback Include ctx' onRow := by
      funext s k v
      simp only [rowFilter.callback, hinc]
    simp only [RowFilter, rowFilter.Iterate, hcb, hsrc]
  · intro onRow st
    have hcb : flatRowFilter.callback FInclude ctx onRow
        = flatRowFilter.callback FInclude ctx' onRow := by
      funext s row
      simp only [flatRowFilter.callback, hfinc]
    simp only [FlatRowFilter, flatRowFilter.Iterate, hcb, hfsrc]
  · intro onRow st
    simp only [Flatten, flatten.Iterate, hsrc]
  · intro onRow st k v res e h he
    simp only [rowFilter.callback] at h
    cases h1 : (Include st ctx k v).1.2.2 with
    | some err =>
      simp only [h1, Option.some.injEq] at h
      rw [← h] at he
      exact Or.inl (by simpa using he)
    | none =>
      simp only [h1] at h
      cases h2 : (Include st ctx k v).1.1 with
      | some k' =>
        simp only [h2] at h
        exact Or.inr ⟨_, _, _, h⟩
      | none =>
        simp only [h2, Option.some.injEq] at h
        rw [← h] at he
        simp [proceed] at he
  · intro onRow st row res e h he
    simp only [flatRowFilter.callback] at h
    cases h1 : (FInclude st ctx row).1.2 with
    | some err =>
      simp only [h1, Option.some.injEq] at h
      rw [← h] at he
      exact Or.inl (by simpa using he)
    | none =>
      simp only [h1] at h
      cases h2 : (FInclude st ctx row).1.1 with
      | some k' =>
        simp only [h2] at h
        exact Or.inr ⟨_, _, h⟩
      | none =>
        simp only [h2, Option.some.injEq] at h
        rw [← h] at he
        simp [proceed] at he
  · intro onRow st k v res e h he
    exact flatten_loop_error ops _ _ k v onRow _ res e he _ _ _ h

/-- C15 (amended), at a concrete input: over the sample rows `Iterate` of the
filter that keeps every row gives the same with a done handle as with a live
one. -/
theorem stages_never_check_cancellation_witness :
    (RowFilter (listSource sampleFields 10 sampleRows) "all" (pureInclude keepRow)).Iterate
        ⟨true⟩ (rowRecorder stopAtThree) []
      = (RowFilter (listSource sampleFields 10 sampleRows) "all" (pureInclude keepRow)).Iterate
        ⟨false⟩ (rowRecorder stopAtThree) []
    ∧ (Flatten sampleOps (listSource sampleFields 10 [(some [7], sampleVals)])).Iterate
          ⟨true⟩ (recorder failAt110) []
        = (Flatten sampleOps (listSource sampleFields 10 [(some [7], sampleVals)])).Iterate
          ⟨false⟩ (recorder failAt110) [] := by
  have h := stages_never_check_cancellation sampleOps
    (listSource sampleFields 10 [(some [7], sampleVals)] :
      RowSource Bool (List (FlatRow Bool Nat)))
    (flatListSource sampleFields 10 []) (pureInclude keepRow)
    (pureFlatInclude (fun row => (some row, none))) "all" ⟨true⟩ ⟨false⟩
    (fun _ _ => rfl) (fun _ _ => rfl) (fun _ _ _ => rfl) (fun _ _ => rfl)
  have h' := stages_never_check_cancellation sampleOps
    (listSource sampleFields 10 sampleRows : RowSource Bool (List (ByteMap × Vals)))
    (flatListSource sampleFields 10 []) (pureInclude keepRow)
    (pureFlatInclude (fun row => (some row, none))) "all" ⟨true⟩ ⟨false⟩
    (fun _ _ => rfl) (fun _ _ => rfl) (fun _ _ _ => rfl) (fun _ _ => rfl)
  exact ⟨h'.1 _ _, h.2.2.1 _ _⟩

/-- C21 fails on the code: after inserting `"abc"` and `"abd"`, the calls
`remove(7, "ab")`, `remove(7, "abc")` and `remove(7, "abd")` (a state reached
with non-empty keys only) leave `length(7) = -1` while `length(0) = 2`: the
first of them counts a removal for the inner node `"ab"`, which holds no
data. `make` panics on the capacity `-1`, so a walk with ctx 7 does not
return. The same happens after inserting `"abc"`, `"abd"`, `"ab"` and a walk
with ctx 7 whose visitor never keeps: three removals are counted against
`_length = 2`. What holds in every state reached from the empty tree is the
upper bound and the lower bound for ctx 0: `0 ≤ length(0)` and
`length(ctx) ≤ length(0)`. -/
theorem length_becomes_negative :
    Reachable sampleCodec
      (removeKeys 7 [[97, 98], [97, 98, 99], [97, 98, 100]]
        (insertKeys [[97, 98, 99], [97, 98, 100]]))
    ∧ (removeKeys 7 [[97, 98], [97, 98, 99], [97, 98, 100]]
        (insertKeys [[97, 98, 99], [97, 98, 100]])).length 7 = -1
    ∧ (removeKeys 7 [[97, 98], [97, 98, 99], [97, 98, 100]]
        (insertKeys [[97, 98, 99], [97, 98, 100]])).length 0 = 2
    ∧ makeNodes ((removeKeys 7 [[97, 98], [97, 98, 99], [97, 98, 100]]
        (insertKeys [[97, 98, 99], [97, 98, 100]])).length 7) = none
    ∧ ((removeKeys 7 [[97, 98], [97, 98, 99], [97, 98, 100]]
        (insertKeys [[97, 98, 99], [97, 98, 100]])).walk 7 keepAll ()).isSome = false
    ∧ ((insertKeys [[97, 98, 99], [97, 98, 100], [97, 98]]).walk 7 keepNone ()).map
        (fun r => (r.1.length 7, r.1.length 0, (r.1.walk 7 keepAll ()).isSome))
        = some (-1, 2, false)
    ∧ ∀ (P F : Type) (upd : Codec P F) (bt : tree), ReachableAny upd bt →
        ∀ ctx : Int, 0 ≤ bt.length 0 ∧ bt.length ctx ≤ bt.length 0 := by
  refine ⟨?_, by decide, by decide, by decide, by decide, by decide, ?_⟩
  · exact Relation.ReflTransGen.tail (Relation.ReflTransGen.tail (Relation.ReflTransGen.tail
      (Relation.ReflTransGen.tail
        (Relation.ReflTransGen.single
          (Step.update newByteTree sampleTable 0 [97, 98, 99] () (by decide)))
        (Step.update _ sampleTable 0 [97, 98, 100] () (by decide)))
      (Step.remove _ 7 [97, 98])) (Step.remove _ 7 [97, 98, 99])) (Step.remove _ 7 [97, 98, 100])
  · intro P F upd bt hreach ctx
    exact length_le_of_CountsOK (ReachableAny_CountsOK upd hreach) ctx

/-- C6 fails on the code: after inserting `"abc"`, `"abd"`, `"xyc"`, `"xyd"`,
the calls `remove(7, ...)` for `"ab"`, `"xy"`, `"abc"`, `"abd"`, `"xyc"` (a
state reached with non-empty keys only) count five removals against
`_length = 4`, two of them for the inner nodes `"ab"` and `"xy"`, which hold
no data. The node of `"xyd"` is reachable from the root, holds data and has an
empty tombstone list, so it is not tombstoned for 7; yet `length(7) = -1`,
`make` panics on that capacity and the walk with ctx 7 does not return: the
visitor is never called on the node of `"xyd"`. -/
theorem walk_panics_before_visible_node :
    Reachable sampleCodec
      (removeKeys 7 [[97, 98], [120, 121], [97, 98, 99], [97, 98, 100], [120, 121, 99]]
        (insertKeys [[97, 98, 99], [97, 98, 100], [120, 121, 99], [120, 121, 100]]))
    ∧ ((removeKeys 7 [[97, 98], [120, 121], [97, 98, 99], [97, 98, 100], [120, 121, 99]]
        (insertKeys [[97, 98, 99], [97, 98, 100], [120, 121, 99], [120, 121, 100]])).root.get
          [1, 1]).map (fun n => (n.key, n.data, n.removedFor))
        = some ([120, 121, 100], [[1]], [])
    ∧ (removeKeys 7 [[97, 98], [120, 121], [97, 98, 99], [97, 98, 100], [120, 121, 99]]
        (insertKeys [[97, 98, 99], [97, 98, 100], [120, 121, 99], [120, 121, 100]]))._length = 4
    ∧ (removeKeys 7 [[97, 98], [120, 121], [97, 98, 99], [97, 98, 100], [120, 121, 99]]
        (insertKeys [[97, 98, 99], [97, 98, 100], [120, 121, 99], [120, 121, 100]])).ctxRemovals 7
        = 5
    ∧ (removeKeys 7 [[97, 98], [120, 121], [97, 98, 99], [97, 98, 100], [120, 121, 99]]
        (insertKeys [[97, 98, 99], [97, 98, 100], [120, 121, 99], [120, 121, 100]])).length 7 = -1
    ∧ makeNodes ((removeKeys 7 [[97, 98], [120, 121], [97, 98, 99], [97, 98, 100], [120, 121, 99]]
        (insertKeys [[97, 98, 99], [97, 98, 100], [120, 121, 99], [120, 121, 100]])).length 7)
        = none
    ∧ ((removeKeys 7 [[97, 98], [120, 121], [97, 98, 99], [97, 98, 100], [120, 121, 99]]
        (insertKeys [[97, 98, 99], [97, 98, 100], [120, 121, 99], [120, 121, 100]])).walk 7
          keepAll ()).isSome = false
    ∧ ((insertKeys [[97, 98, 99], [97, 98, 100], [120, 121, 99], [120, 121, 100]]).walk 7
          keepAll ()).map (fun r => r.2.2.map Visit.key)
        = some [[97, 98, 99], [97, 98, 100], [120, 121, 99], [120, 121, 100]] := by
  refine ⟨?_, by decide, by decide, by decide, by decide, by decide, by decide, by decide⟩
  exact Relation.ReflTransGen.tail (Relation.ReflTransGen.tail (Relation.ReflTransGen.tail
    (Relation.ReflTransGen.tail (Relation.ReflTransGen.tail (Relation.ReflTransGen.tail
    (Relation.ReflTransGen.tail (Relation.ReflTransGen.tail
      (Relation.ReflTransGen.single
        (Step.update newByteTree sampleTable 0 [97, 98, 99] () (by decide)))
      (Step.update _ sampleTable 0 [97, 98, 100] () (by decide)))
      (Step.update _ sampleTable 0 [120, 121, 99] () (by decide)))
      (Step.update _ sampleTable 0 [120, 121, 100] () (by decide)))
    (Step.remove _ 7 [97, 98])) (Step.remove _ 7 [120, 121])) (Step.remove _ 7 [97, 98, 99]))
    (Step.remove _ 7 [97, 98, 100])) (Step.remove _ 7 [120, 121, 99])

theorem latest_spec : ∀ (l : List Int), l ≠ [] → latest l ∈ l ∧ ∀ x ∈ l, x ≤ latest l
  | [], h => absurd rfl h
  | [t], _ => by simp [latest]
  | t :: u :: rest, _ => by
    obtain ⟨h1, h2⟩ := latest_spec (u :: rest) (by simp)
    rw [latest]
    refine ⟨?_, ?_⟩
    · rcases max_choice t (latest (u :: rest)) with h | h
      · rw [h]; exact List.mem_cons_self _ _
      · rw [h]; exact List.mem_cons_of_mem _ h1
    · intro x hx
      rcases List.mem_cons.mp hx with rfl | hx
      · exact le_max_left _ _
      · exact le_trans (h2 x hx) (le_max_right _ _)

theorem earliest_spec : ∀ (l : List Int), l ≠ [] → earliest l ∈ l ∧ ∀ x ∈ l, earliest l ≤ x
  | [], h => absurd rfl h
  | [t], _ => by simp [earliest]
  | t :: u :: rest, _ => by
    obtain ⟨h1, h2⟩ := earliest_spec (u :: rest) (by simp)
    rw [earliest]
    refine ⟨?_, ?_⟩
    · rcases min_choice t (earliest (u :: rest)) with h | h
      · rw [h]; exact List.mem_cons_self _ _
      · rw [h]; exact List.mem_cons_of_mem _ h1
    · intro x hx
      rcases List.mem_cons.mp hx with rfl | hx
      · exact min_le_left _ _
      · exact le_trans (min_le_right _ _) (h2 x hx)

/-- Every time that fits the Unix nanoseconds of an `int64` is after the zero
time. -/
theorem zeroTime_lt_int64 : zeroTime < -2 ^ 63 := by
  unfold zeroTime
  norm_num

/-- When the times of the fields with non-zero periods fit the Unix
nanoseconds of an `int64`, the `until` and `as_of` that `flatten` computes are
the maximum and the minimum over these fields. -/
theorem rowRange_eq_spec {X V : Type} (ops : SeqOps X V) (fields : List (Field X)) (R : Int)
    (vals : Vals)
    (htimes : ∀ x ∈ periodTimes ops R vals fields 0,
      -2 ^ 63 ≤ x.1 ∧ x.1 < 2 ^ 63 ∧ -2 ^ 63 ≤ x.2 ∧ x.2 < 2 ^ 63) :
    rowAsOf ops fields R vals = specAsOf ops fields R vals
    ∧ rowUntil ops fields R vals = specUntil ops fields R vals := by
  have hz := zeroTime_lt_int64
  by_cases hne : periodTimes ops R vals fields 0 = []
  · have hr := timeRange_of_no_periods ops R vals fields 0 (zeroTime, zeroTime) hne
    simp [rowAsOf, rowUntil, specAsOf, specUntil, hr, hne, latest, earliest]
  · obtain ⟨_, hu2, hu3⟩ := timeRange_until ops R vals fields 0 zeroTime zeroTime
    obtain ⟨ha1, ha2⟩ := (timeRange_asOf ops R vals fields 0 zeroTime zeroTime
      (fun x hx => by have := htimes x hx; omega)).2 rfl hne
    have hne1 : (periodTimes ops R vals fields 0).map Prod.fst ≠ [] := by simpa using hne
    have hne2 : (periodTimes ops R vals fields 0).map Prod.snd ≠ [] := by simpa using hne
    obtain ⟨l1, l2⟩ := latest_spec _ hne1
    obtain ⟨e1, e2⟩ := earliest_spec _ hne2
    have hu4 : ∃ x ∈ periodTimes ops R vals fields 0,
        x.1 = (flatten.timeRange ops R vals fields 0 (zeroTime, zeroTime)).1 := by
      rcases hu3 with hu3 | hu3
      · obtain ⟨x, hx⟩ := List.exists_mem_of_ne_nil _ hne
        refine ⟨x, hx, le_antisymm (hu2 x hx) ?_⟩
        rw [hu3]
        have := htimes x hx
        omega
      · exact hu3
    constructor
    · unfold rowAsOf specAsOf
      obtain ⟨x, hx, hxe⟩ := ha2
      obtain ⟨y, hy, hye⟩ := List.mem_map.mp e1
      apply le_antisymm
      · rw [← hye]; exact ha1 y hy
      · rw [← hxe]; exact e2 _ (List.mem_map_of_mem _ hx)
    · unfold rowUntil specUntil
      obtain ⟨x, hx, hxe⟩ := hu4
      obtain ⟨y, hy, hye⟩ := List.mem_map.mp l1
      apply le_antisymm
      · rw [← hxe]; exact l2 _ (List.mem_map_of_mem _ hx)
      · rw [← hye]; exact hu2 y hy

theorem iterateList_flatten_rec {X V : Type} (ops : SeqOps X V) (fields : List (Field X))
    (R : Int) (hR : 0 < R) :
    ∀ (rows : List (ByteMap × Vals)) (log : List (FlatRow X V)),
    (∀ r ∈ rows, ∀ x ∈ periodTimes ops R r.2 fields 0,
      -2 ^ 63 ≤ x.1 ∧ x.1 < 2 ^ 63 ∧ -2 ^ 63 ≤ x.2 ∧ x.2 < 2 ^ 63) →
    iterateList (fun s r => flatten.callback ops fields R (recorder (fun _ => proceed)) s r.1 r.2)
        rows log
      = some (none, log ++ rows.flatMap (specFlatRows ops fields R))
  | [], log, _ => by simp [iterateList]
  | r :: rows, log, h => by
    have ih := iterateList_flatten_rec ops fields R hR rows
      (log ++ specFlatRows ops fields R r) (fun x hx => h x (List.mem_cons_of_mem _ hx))
    obtain ⟨ea, eu⟩ := rowRange_eq_spec ops fields R r.2 (h r (List.mem_cons_self _ _))
    have hcb : flatten.callback ops fields R (recorder (fun _ => proceed)) log r.1 r.2
        = some ((true, none), log ++ specFlatRows ops fields R r) := by
      rw [flatten_callback_eq ops fields R _ log r.1 r.2 hR,
        emit_recorder_all _ _ _ (fun _ _ => by simp [stops, proceed]), flatRows_eq]
      unfold rowAsOf at ea
      unfold rowUntil at eu
      rw [ea, eu]
      rfl
    simp only [iterateList, hcb]
    rw [Option.isSome_none]
    simp only [Bool.false_eq_true, if_false, if_true]
    rw [ih]
    simp [List.flatMap_cons, List.append_assoc]

/-- C14: over a source that yields the stored rows in order, with a positive
resolution `R` and a visitor that records its calls and always continues,
`Flatten(source).Iterate` returns no error and has called the visitor exactly
on these flat rows, in order: for every stored row `(key, vals)`, and with
`as_of` the minimum `as_of` and `until` the maximum `until` over its fields
with non-zero periods (which is what the code computes), one flat row for
each `ts = as_of + k * R`, `k ≥ 0`, `ts ≤ until`, in increasing order, at
which at least one field with a non-constant expression reports found; the
row carries `TS = ts`, the key of the stored row and `Values[i] =
value_at(ts)` of field `i`. A source that yields one row with `as_of = T`,
`until = T + 2 * R` and a non-constant field that reports found at `T`,
`T + R` and `T + 2 * R` gives exactly three flat rows, with these timestamps.
The times of the sequences are Unix nanoseconds that fit an `int64`, as `TS`
is, and every stored row has a sequence for every field. -/
theorem flatten_emits_row_per_tick {X V : Type} (ops : SeqOps X V) (fields : List (Field X))
    (R : Int) (rows : List (ByteMap × Vals)) (ctx : Context) (hR : 0 < R)
    (_hvals : ∀ r ∈ rows, fields.length ≤ r.2.length)
    (htimes : ∀ r ∈ rows, ∀ x ∈ periodTimes ops R r.2 fields 0,
      -2 ^ 63 ≤ x.1 ∧ x.1 < 2 ^ 63 ∧ -2 ^ 63 ≤ x.2 ∧ x.2 < 2 ^ 63) :
    (Flatten ops (listSource fields R rows)).Iterate ctx (recorder (fun _ => proceed)) []
      = some (none, rows.flatMap (fun r =>
          ((ticks (specAsOf ops fields R r.2) (specUntil ops fields R r.2) R).filter
            (anyFoundAt ops fields R r.2)).map
              (fun ts => ⟨unixNano ts, r.1, valuesAt ops fields R r.2 ts, [], fields⟩)))
    ∧ (∀ r ∈ rows, periodTimes ops R r.2 fields 0 ≠ [] →
        ∀ ts ∈ ticks (specAsOf ops fields R r.2) (specUntil ops fields R r.2) R,
          unixNano ts = ts)
    ∧ (∀ r ∈ rows, rowAsOf ops fields R r.2 = specAsOf ops fields R r.2
        ∧ rowUntil ops fields R r.2 = specUntil ops fields R r.2)
    ∧ (∀ r ∈ rows, periodTimes ops R r.2 fields 0 ≠ [] →
        (∀ x ∈ periodTimes ops R r.2 fields 0, x.1 ≤ specUntil ops fields R r.2)
        ∧ (∃ x ∈ periodTimes ops R r.2 fields 0, x.1 = specUntil ops fields R r.2)
        ∧ (∀ x ∈ periodTimes ops R r.2 fields 0, specAsOf ops fields R r.2 ≤ x.2)
        ∧ (∃ x ∈ periodTimes ops R r.2 fields 0, x.2 = specAsOf ops fields R r.2))
    ∧ (∀ a u ts : Int, ts ∈ ticks a u R ↔ ∃ k : Nat, ts = a + k * R ∧ ts ≤ u)
    ∧ (∀ a u : Int, (ticks a u R).Pairwise (fun x y => x < y))
    ∧ (∀ (vals : Vals) (ts : Int), anyFoundAt ops fields R vals ts = true ↔
        ∃ i f, fields[i]? = some f ∧ ops.IsConstant f.Expr = false
          ∧ (ops.ValueAtTime (vals.getD i []) ts f.Expr R).2 = true)
    ∧ (∀ (vals : Vals) (ts : Int), (valuesAt ops fields R vals ts).length = fields.length
        ∧ ∀ i f, fields[i]? = some f →
          (valuesAt ops fields R vals ts)[i]?
            = some (ops.ValueAtTime (vals.getD i []) ts f.Expr R).1)
    ∧ (∀ (key : ByteMap) (vals : Vals) (T : Int), rows = [(key, vals)] →
        specAsOf ops fields R vals = T → specUntil ops fields R vals = T + 2 * R →
        anyFoundAt ops fields R vals T = true → anyFoundAt ops fields R vals (T + R) = true →
        anyFoundAt ops fields R vals (T + 2 * R) = true →
        (Flatten ops (listSource fields R rows)).Iterate ctx (recorder (fun _ => proceed)) []
          = some (none,
              [⟨T, key, valuesAt ops fields R vals T, [], fields⟩,
                ⟨T + R, key, valuesAt ops fields R vals (T + R), [], fields⟩,
                ⟨T + 2 * R, key, valuesAt ops fields R vals (T + 2 * R), [], fields⟩])) := by
  have hz := zeroTime_lt_int64
  have hit : (Flatten ops (listSource fields R rows)).Iterate ctx
      (recorder (fun _ => proceed)) []
      = some (none, rows.flatMap (fun r =>
          ((ticks (specAsOf ops fields R r.2) (specUntil ops fields R r.2) R).filter
            (anyFoundAt ops fields R r.2)).map
              (fun ts => ⟨unixNano ts, r.1, valuesAt ops fields R r.2 ts, [], fields⟩))) := by
    have := iterateList_flatten_rec ops fields R hR rows [] htimes
    simpa [Flatten, flatten.Iterate, listSource, specFlatRows] using this
  have hminmax : ∀ r ∈ rows, periodTimes ops R r.2 fields 0 ≠ [] →
      (∀ x ∈ periodTimes ops R r.2 fields 0, x.1 ≤ specUntil ops fields R r.2)
      ∧ (∃ x ∈ periodTimes ops R r.2 fields 0, x.1 = specUntil ops fields R r.2)
      ∧ (∀ x ∈ periodTimes ops R r.2 fields 0, specAsOf ops fields R r.2 ≤ x.2)
      ∧ (∃ x ∈ periodTimes ops R r.2 fields 0, x.2 = specAsOf ops fields R r.2) := by
    intro r _ hne
    obtain ⟨l1, l2⟩ := latest_spec ((periodTimes ops R r.2 fields 0).map Prod.fst)
      (by simpa using hne)
    obtain ⟨e1, e2⟩ := earliest_spec ((periodTimes ops R r.2 fields 0).map Prod.snd)
      (by simpa using hne)
    obtain ⟨y, hy, hye⟩ := List.mem_map.mp l1
    obtain ⟨z, hzm, hze⟩ := List.mem_map.mp e1
    exact ⟨fun x hx => l2 _ (List.mem_map_of_mem _ hx), ⟨y, hy, hye⟩,
      fun x hx => e2 _ (List.mem_map_of_mem _ hx), ⟨z, hzm, hze⟩⟩
  have hts : ∀ r ∈ rows, periodTimes ops R r.2 fields 0 ≠ [] →
      ∀ ts ∈ ticks (specAsOf ops fields R r.2) (specUntil ops fields R r.2) R,
        unixNano ts = ts := by
    intro r hr hne ts hmem
    obtain ⟨_, ⟨y, hy, hye⟩, _, ⟨z, hzm, hze⟩⟩ := hminmax r hr hne
    obtain ⟨k, hk, hle⟩ := (mem_ticks _ _ R hR ts).mp hmem
    have h1 := htimes r hr y hy
    have h2 := htimes r hr z hzm
    have hk0 : (0 : Int) ≤ (k : Int) * R := Int.mul_nonneg (Int.ofNat_nonneg k) (le_of_lt hR)
    exact unixNano_of_int64 ts (by omega) (by omega)
  refine ⟨hit, hts, fun r hr => rowRange_eq_spec ops fields R r.2 (htimes r hr), hminmax,
    fun a u => mem_ticks a u R hR, fun a u => ticks_increasing a u R hR,
    anyFoundAt_iff ops fields R, valuesAt_getElem? ops fields R, ?_⟩
  intro key vals T hrows hT hU h1 h2 h3
  have hmem : (key, vals) ∈ rows := by rw [hrows]; exact List.mem_singleton.mpr rfl
  have hne : periodTimes ops R vals fields 0 ≠ [] := by
    intro he
    have hu : specUntil ops fields R vals = zeroTime := by simp [specUntil, he, latest]
    have ha : specAsOf ops fields R vals = zeroTime := by simp [specAsOf, he, earliest]
    omega
  have htk := hts (key, vals) hmem hne
  simp only [hT, hU, ticks_three T R hR] at htk
  have t1 := htk T (by simp)
  have t2 := htk (T + R) (by simp)
  have t3 := htk (T + 2 * R) (by simp)
  rw [hit, hrows]
  simp [List.flatMap_cons, hT, hU, ticks_three T R hR, List.filter_cons, h1, h2, h3, t1, t2, t3]

/-- C14, at a concrete input: a source that yields one stored row whose two
non-constant fields cover `100`, `110` and `120` at resolution `10`; `Iterate`
of `Flatten` returns no error and the visitor has seen exactly three flat
rows, with these timestamps. -/
theorem flatten_emits_row_per_tick_witness :
    (∀ r ∈ [((some [7] : ByteMap), sampleVals)],
        ∀ x ∈ periodTimes sampleOps 10 r.2 sampleFields 0,
          -2 ^ 63 ≤ x.1 ∧ x.1 < 2 ^ 63 ∧ -2 ^ 63 ≤ x.2 ∧ x.2 < 2 ^ 63)
    ∧ specAsOf sampleOps sampleFields 10 sampleVals = 100
    ∧ specUntil sampleOps sampleFields 10 sampleVals = 120
    ∧ (Flatten sampleOps (listSource sampleFields 10 [(some [7], sampleVals)])).Iterate ⟨false⟩
        (recorder (fun _ => proceed)) []
      = some (none, [⟨100, some [7], [1, 4], [], sampleFields⟩,
          ⟨110, some [7], [2, 5], [], sampleFields⟩,
          ⟨120, some [7], [3, 6], [], sampleFields⟩]) := by
  have h := flatten_emits_row_per_tick sampleOps sampleFields 10 [(some [7], sampleVals)]
    ⟨false⟩ (by decide) (by decide) (by decide)
  refine ⟨by decide, by decide, by decide, ?_⟩
  have h3 := h.2.2.2.2.2.2.2.2 (some [7]) sampleVals 100 rfl (by decide) (by decide)
    (by decide) (by decide) (by decide)
  exact h3.trans (by decide)

end tdb
